import Mathlib

/-!
# Growable buffers of `trvswgnr/utils` (C): `RawVec`, `Vec`, `String`

A shallow embedding of `modules/alloc.h`, `modules/vec/rawvec.h`, `modules/vec.h`,
`modules/string.h` and the loop of `examples/rawvec.c`.

Conventions of the embedding

* `size_t` is 64 bits wide: every `size_t` result is reduced modulo `SIZE = 2 ^ 64`.
* A pointer is the base address of an allocation (`NULL = 0`); memory is a table of
  live allocations, each a list of bytes (naturals).  An access is written as
  base + byte offset and is checked against the size of the allocation.
* A C function taking `T *self` and mutating it returns the updated `T`.
* A call either returns (`Outcome.ok`, with the new machine state), stops in a failed
  `assert` (`Outcome.abort`), touches memory outside a live allocation
  (`Outcome.fault`, undefined behaviour in C) or is still looping when the fuel of
  its loop is used up (`Outcome.diverge`).
* The three function pointers of an `Allocator` are functions on the heap; every call
  made through them is appended to `State.calls`.
* `malloc`, `free` and `realloc` (libc, used by `GLOBAL_ALLOCATOR`) are modelled after
  the C standard, with the answers of glibc where the standard leaves a choice (a
  `malloc` of 0 bytes returns a live allocation of no bytes, a `realloc` to 0 bytes
  releases the allocation and returns `NULL`): the heap carries the oracles `oom` (which
  request fails) and `junk` (the indeterminate contents of fresh memory).
-/

namespace Utils

/-! ## Machine model -/

/-- Number of values of `size_t`. -/
def SIZE : Nat := 2 ^ 64

/-- The null pointer. -/
def NULL : Nat := 0

/-- The heap: live allocations by base address, plus the oracles of the platform
allocator. -/
structure Heap where
  /-- Contents of the live allocation based at an address (`none`: not live). -/
  blocks : Nat → Option (List Nat)
  /-- Every address above `next` is unused. -/
  next : Nat
  /-- Number of allocation requests made so far. -/
  tick : Nat
  /-- Oracle: does the request number `tick` fail (return `NULL`). -/
  oom : Nat → Bool
  /-- Oracle: the indeterminate byte found at an address of fresh memory. -/
  junk : Nat → Nat

/-- The live allocation a pointer is the base of. -/
def Heap.block (h : Heap) (p : Nat) : Option (List Nat) :=
  if p = NULL then none else h.blocks p

/-- Indeterminate contents of `size` fresh bytes at `base`. -/
def fresh_bytes (h : Heap) (base size : Nat) : List Nat :=
  (List.range size).map (fun i => h.junk (base + i))

/-- The libc `malloc`: `NULL` when the oracle says so, else a fresh allocation of
`size` bytes with indeterminate contents.  A request of 0 bytes is answered like any
other, by a pointer to an allocation of no bytes (one of the two behaviours the C
standard allows, and the one of glibc). -/
def malloc (h : Heap) (size : Nat) : Nat × Heap :=
  if h.oom h.tick then (NULL, { h with tick := h.tick + 1 })
  else
    (h.next + 1,
      { h with
        tick := h.tick + 1
        next := h.next + 1 + size
        blocks := Function.update h.blocks (h.next + 1)
          (some (fresh_bytes h (h.next + 1) size)) })

/-- The libc `free`. -/
def free (h : Heap) (p : Nat) : Heap :=
  { h with blocks := Function.update h.blocks p none }

/-- The libc `realloc`: `malloc` for a null pointer; a request of 0 bytes on a live
allocation releases it and returns `NULL` (what glibc does; the C standard leaves the
case to the implementation); otherwise `NULL` (old allocation kept) on failure, else a
new allocation holding the old contents up to the smaller of the two sizes, the old one
being released (the allocation always moves, which the C standard allows).  A pointer
that is not live is answered by `NULL`. -/
def realloc (h : Heap) (p size : Nat) : Nat × Heap :=
  if p = NULL then malloc h size
  else
    match h.blocks p with
    | none => (NULL, h)
    | some b =>
      if size = 0 then (NULL, free h p)
      else if h.oom h.tick then (NULL, { h with tick := h.tick + 1 })
      else
        (h.next + 1,
          { h with
            tick := h.tick + 1
            next := h.next + 1 + size
            blocks := Function.update (Function.update h.blocks p none) (h.next + 1)
              (some (b.take size ++ fresh_bytes h (h.next + 1 + b.length) (size - b.length))) })

/-- Read `n` bytes at `p + off`; `none` outside a live allocation.  A transfer of
zero bytes touches no memory. -/
def load (h : Heap) (p off n : Nat) : Option (List Nat) :=
  if n = 0 then some []
  else
    match h.block p with
    | none => none
    | some b => if off + n ≤ b.length then some ((b.drop off).take n) else none

/-- Write `bytes` at `p + off`; `none` outside a live allocation.  A transfer of
zero bytes touches no memory. -/
def store (h : Heap) (p off : Nat) (bytes : List Nat) : Option Heap :=
  if bytes.length = 0 then some h
  else
    match h.block p with
    | none => none
    | some b =>
      if off + bytes.length ≤ b.length then
        some { h with
          blocks := Function.update h.blocks p
            (some (b.take off ++ bytes ++ b.drop (off + bytes.length))) }
      else none

/-- The byte at `p + off`, when inside a live allocation. -/
def byte_at (h : Heap) (p off : Nat) : Option Nat :=
  match h.block p with
  | none => none
  | some b => b[off]?

/-! ## `alloc.h` -/

/-- The `Allocator` struct: three function pointers. -/
structure Allocator where
  allocate : Heap → Nat → Nat × Heap
  deallocate : Heap → Nat → Heap
  reallocate : Heap → Nat → Nat → Nat → Nat × Heap

/-- `realloc_wrapper`: the old size is unused. -/
def realloc_wrapper (h : Heap) (ptr _old_size new_size : Nat) : Nat × Heap :=
  realloc h ptr new_size

/-- `GLOBAL_ALLOCATOR = { malloc, free, realloc_wrapper }`. -/
def GLOBAL_ALLOCATOR : Allocator :=
  { allocate := malloc, deallocate := free, reallocate := realloc_wrapper }

/-- `create_allocator`: an allocator made of the three functions given. -/
def create_allocator (allocate_func : Heap → Nat → Nat × Heap) (deallocate_func : Heap → Nat → Heap)
    (reallocate_func : Heap → Nat → Nat → Nat → Nat × Heap) : Allocator :=
  { allocate := allocate_func, deallocate := deallocate_func, reallocate := reallocate_func }

/-- A call made through one of the function pointers of an allocator. -/
inductive AllocCall where
  | allocate (size : Nat)
  | deallocate (ptr : Nat)
  | reallocate (ptr old_size new_size : Nat)
  deriving DecidableEq, Repr

/-- Machine state: the heap and the allocator calls made so far, oldest first. -/
structure State where
  heap : Heap
  calls : List AllocCall

/-- Result of running a C function. -/
inductive Outcome (α : Type) where
  | ok (val : α) (st : State)
  | abort
  | fault
  | diverge

/-- The call `alloc.allocate(size)`. -/
def call_allocate (alloc : Allocator) (st : State) (size : Nat) : Nat × State :=
  ((alloc.allocate st.heap size).1,
    { heap := (alloc.allocate st.heap size).2, calls := st.calls ++ [AllocCall.allocate size] })

/-- The call `alloc.deallocate(ptr)`. -/
def call_deallocate (alloc : Allocator) (st : State) (ptr : Nat) : State :=
  { heap := alloc.deallocate st.heap ptr, calls := st.calls ++ [AllocCall.deallocate ptr] }

/-- The call `alloc.reallocate(ptr, old_size, new_size)`. -/
def call_reallocate (alloc : Allocator) (st : State) (ptr old_size new_size : Nat) :
    Nat × State :=
  ((alloc.reallocate st.heap ptr old_size new_size).1,
    { heap := (alloc.reallocate st.heap ptr old_size new_size).2,
      calls := st.calls ++ [AllocCall.reallocate ptr old_size new_size] })

/-! ## `vec/rawvec.h` -/

/-- The `RawVec` struct. -/
structure RawVec where
  ptr : Nat
  cap : Nat
  alloc : Allocator

/-- `RawVec_new`. -/
def RawVec_new (alloc : Allocator) : RawVec :=
  { ptr := NULL, cap := 0, alloc := alloc }

/-- `RawVec_with_capacity`. -/
def RawVec_with_capacity (capacity elem_size : Nat) (alloc : Allocator) (st : State) :
    Outcome RawVec :=
  if capacity > 0 then
    let r := call_allocate alloc st (capacity * elem_size % SIZE)
    if r.1 = NULL then Outcome.abort
    else Outcome.ok { ptr := r.1, cap := capacity, alloc := alloc } r.2
  else Outcome.ok { ptr := NULL, cap := capacity, alloc := alloc } st

/-- `RawVec_capacity`: the element size is not used. -/
def RawVec_capacity (vec : RawVec) (_elem_size : Nat) : Nat :=
  vec.cap

/-- The loop `while (new_cap < needed_cap) new_cap *= 2;` run for at most `fuel`
tests of its condition. -/
def RawVec_grow_loop : Nat → Nat → Nat → Option Nat
  | 0, _, _ => none
  | fuel + 1, new_cap, needed_cap =>
    if new_cap < needed_cap then RawVec_grow_loop fuel (new_cap * 2 % SIZE) needed_cap
    else some new_cap

/-- Fuel of the doubling loop: after 64 doublings a `size_t` is 0 and stays 0, so a
loop that has not stopped within 65 tests never stops. -/
def GROW_FUEL : Nat := 65

/-- `RawVec_grow`. -/
def RawVec_grow (vec : RawVec) (needed_cap elem_size : Nat) (st : State) : Outcome RawVec :=
  match RawVec_grow_loop GROW_FUEL (if vec.cap = 0 then 1 else vec.cap * 2 % SIZE) needed_cap with
  | none => Outcome.diverge
  | some new_cap =>
    let new_size := new_cap * elem_size % SIZE
    let r :=
      if vec.ptr = NULL then call_allocate vec.alloc st new_size
      else call_reallocate vec.alloc st vec.ptr (vec.cap * elem_size % SIZE) new_size
    if r.1 = NULL then Outcome.abort
    else Outcome.ok { ptr := r.1, cap := new_cap, alloc := vec.alloc } r.2

/-- `RawVec_reserve`. -/
def RawVec_reserve (vec : RawVec) (len additional elem_size : Nat) (st : State) :
    Outcome RawVec :=
  let needed_cap := (len + additional) % SIZE
  if needed_cap > vec.cap then RawVec_grow vec needed_cap elem_size st
  else Outcome.ok vec st

/-- `RawVec_drop`. -/
def RawVec_drop (vec : RawVec) (st : State) : Outcome RawVec :=
  if vec.ptr ≠ NULL then
    Outcome.ok { ptr := NULL, cap := 0, alloc := vec.alloc } (call_deallocate vec.alloc st vec.ptr)
  else Outcome.ok vec st

/-- `RawVec_shrink_to_fit`. -/
def RawVec_shrink_to_fit (vec : RawVec) (len elem_size : Nat) (st : State) : Outcome RawVec :=
  if len < vec.cap then
    if len = 0 then
      Outcome.ok { ptr := NULL, cap := 0, alloc := vec.alloc }
        (call_deallocate vec.alloc st vec.ptr)
    else
      let new_size := len * elem_size % SIZE
      let r := call_reallocate vec.alloc st vec.ptr (vec.cap * elem_size % SIZE) new_size
      if r.1 = NULL then Outcome.abort
      else Outcome.ok { ptr := r.1, cap := len, alloc := vec.alloc } r.2
  else Outcome.ok vec st

/-- `RawVec_ptr`. -/
def RawVec_ptr (vec : RawVec) : Nat :=
  vec.ptr

/-- The RawVec invariant of the specification: capacity is 0 exactly when the region
is null. -/
def RawVec.inv (vec : RawVec) : Prop :=
  vec.cap = 0 ↔ vec.ptr = NULL

/-- Sequencing of two calls: the second runs when the first returned. -/
def Outcome.bind {α β : Type} (x : Outcome α) (f : α → State → Outcome β) : Outcome β :=
  match x with
  | Outcome.ok a st => f a st
  | Outcome.abort => Outcome.abort
  | Outcome.fault => Outcome.fault
  | Outcome.diverge => Outcome.diverge

/-- `memcpy(p + off, src, n)` from a buffer of the caller holding the bytes `src`. -/
def memcpy_to (h : Heap) (p off : Nat) (src : List Nat) (n : Nat) : Option Heap :=
  if src.length < n then none else store h p off (src.take n)

/-- `memmove(p + dst, p + src, n)` inside one allocation: the source is read in full
before the destination is written. -/
def memmove (h : Heap) (p dst src n : Nat) : Option Heap :=
  match load h p src n with
  | none => none
  | some bytes => store h p dst bytes

/-! ## `vec.h` -/

/-- The `Vec` struct. -/
structure Vec where
  buf : RawVec
  len : Nat

/-- `Vec_new`. -/
def Vec_new : Vec :=
  { buf := RawVec_new GLOBAL_ALLOCATOR, len := 0 }

/-- `Vec_with_capacity`. -/
def Vec_with_capacity (capacity elem_size : Nat) (st : State) : Outcome Vec :=
  (RawVec_with_capacity capacity elem_size GLOBAL_ALLOCATOR st).bind fun buf st1 =>
    Outcome.ok { buf := buf, len := 0 } st1

/-- `Vec_capacity` (the header calls `RawVec_capacity` without an element size, which
`RawVec_capacity` does not use). -/
def Vec_capacity (vec : Vec) : Nat :=
  RawVec_capacity vec.buf 0

/-- `Vec_reserve`. -/
def Vec_reserve (vec : Vec) (additional elem_size : Nat) (st : State) : Outcome Vec :=
  (RawVec_reserve vec.buf vec.len additional elem_size st).bind fun buf st1 =>
    Outcome.ok { buf := buf, len := vec.len } st1

/-- `Vec_push`; `value` holds the bytes at the pointer passed in. -/
def Vec_push (vec : Vec) (value : List Nat) (elem_size : Nat) (st : State) : Outcome Vec :=
  (if vec.len = Vec_capacity vec then RawVec_reserve vec.buf vec.len 1 elem_size st
    else Outcome.ok vec.buf st).bind fun buf st1 =>
    match memcpy_to st1.heap buf.ptr (vec.len * elem_size % SIZE) value elem_size with
    | none => Outcome.fault
    | some h => Outcome.ok { buf := buf, len := (vec.len + 1) % SIZE } { st1 with heap := h }

/-- `Vec_pop`; `out` holds the bytes of the caller's buffer before the call, the
result its bytes after the call. -/
def Vec_pop (vec : Vec) (out : List Nat) (elem_size : Nat) (st : State) :
    Outcome (Bool × List Nat × Vec) :=
  if vec.len = 0 then Outcome.ok (false, out, vec) st
  else
    match load st.heap vec.buf.ptr ((vec.len - 1) * elem_size % SIZE) elem_size with
    | none => Outcome.fault
    | some bytes =>
      Outcome.ok (true, bytes ++ out.drop elem_size, { buf := vec.buf, len := vec.len - 1 }) st

/-- `Vec_get`: the pointer returned, as base and byte offset. -/
def Vec_get (vec : Vec) (index elem_size : Nat) (st : State) : Outcome (Nat × Nat) :=
  if index < vec.len then Outcome.ok (vec.buf.ptr, index * elem_size % SIZE) st
  else Outcome.abort

/-- `Vec_set`. -/
def Vec_set (vec : Vec) (index : Nat) (value : List Nat) (elem_size : Nat) (st : State) :
    Outcome Vec :=
  if index < vec.len then
    match memcpy_to st.heap vec.buf.ptr (index * elem_size % SIZE) value elem_size with
    | none => Outcome.fault
    | some h => Outcome.ok vec { st with heap := h }
  else Outcome.abort

/-- `Vec_len`. -/
def Vec_len (vec : Vec) : Nat :=
  vec.len

/-- `Vec_is_empty`. -/
def Vec_is_empty (vec : Vec) : Bool :=
  vec.len == 0

/-- `Vec_clear`. -/
def Vec_clear (vec : Vec) : Vec :=
  { buf := vec.buf, len := 0 }

/-- `Vec_truncate`. -/
def Vec_truncate (vec : Vec) (new_len : Nat) : Vec :=
  if new_len < vec.len then { buf := vec.buf, len := new_len } else vec

/-- The loop of `Vec_resize`: `n` iterations starting at index `i`. -/
def Vec_resize_loop (p : Nat) (value : List Nat) (elem_size : Nat) : Nat → Nat → Heap → Option Heap
  | 0, _, h => some h
  | n + 1, i, h =>
    match memcpy_to h p (i * elem_size % SIZE) value elem_size with
    | none => none
    | some h1 => Vec_resize_loop p value elem_size n (i + 1) h1

/-- `Vec_resize`; the loop `for (i = len; i < new_len; i++)` makes `new_len - len`
iterations. -/
def Vec_resize (vec : Vec) (new_len : Nat) (value : List Nat) (elem_size : Nat) (st : State) :
    Outcome Vec :=
  if new_len > vec.len then
    (Vec_reserve vec (new_len - vec.len) elem_size st).bind fun v st1 =>
      match Vec_resize_loop v.buf.ptr value elem_size (new_len - v.len) v.len st1.heap with
      | none => Outcome.fault
      | some h => Outcome.ok { buf := v.buf, len := new_len } { st1 with heap := h }
  else Outcome.ok { buf := vec.buf, len := new_len } st

/-- `Vec_drop`. -/
def Vec_drop (vec : Vec) (st : State) : Outcome Vec :=
  (RawVec_drop vec.buf st).bind fun buf st1 => Outcome.ok { buf := buf, len := 0 } st1

/-- `Vec_as_slice`. -/
def Vec_as_slice (vec : Vec) : Nat :=
  vec.buf.ptr

/-- `Vec_as_mut_slice`. -/
def Vec_as_mut_slice (vec : Vec) : Nat :=
  vec.buf.ptr

/-- The Vec invariant of the specification: length ≤ capacity. -/
def Vec.inv (vec : Vec) : Prop :=
  vec.len ≤ vec.buf.cap

/-- The Vec holds the elements `elems`, each of `e` bytes, at the start of a live
allocation of `cap * e` bytes obtained from the global allocator. -/
def Vec.holds (vec : Vec) (e : Nat) (h : Heap) (elems : List (List Nat)) : Prop :=
  vec.buf.alloc = GLOBAL_ALLOCATOR ∧ vec.len = elems.length ∧ vec.len ≤ vec.buf.cap ∧
  vec.buf.cap < SIZE ∧ vec.buf.cap * e < SIZE ∧ (∀ x, x ∈ elems → x.length = e) ∧
  ((vec.buf.ptr = NULL ∧ vec.buf.cap = 0) ∨
    (vec.buf.ptr ≠ NULL ∧ ∃ b, h.blocks vec.buf.ptr = some b ∧ b.length = vec.buf.cap * e ∧
      b.take (vec.len * e) = elems.flatten))

/-- The mutating operations of `vec.h` with their arguments. -/
inductive VecOp where
  | reserve (additional elem_size : Nat)
  | push (value : List Nat) (elem_size : Nat)
  | pop (out : List Nat) (elem_size : Nat)
  | set (index : Nat) (value : List Nat) (elem_size : Nat)
  | clear
  | truncate (new_len : Nat)
  | resize (new_len : Nat) (value : List Nat) (elem_size : Nat)
  | drop

/-- Run one operation of `vec.h`, keeping the Vec it leaves. -/
def VecOp.run : VecOp → Vec → State → Outcome Vec
  | VecOp.reserve additional elem_size, vec, st => Vec_reserve vec additional elem_size st
  | VecOp.push value elem_size, vec, st => Vec_push vec value elem_size st
  | VecOp.pop out elem_size, vec, st =>
    (Vec_pop vec out elem_size st).bind fun r st1 => Outcome.ok r.2.2 st1
  | VecOp.set index value elem_size, vec, st => Vec_set vec index value elem_size st
  | VecOp.clear, vec, st => Outcome.ok (Vec_clear vec) st
  | VecOp.truncate new_len, vec, st => Outcome.ok (Vec_truncate vec new_len) st
  | VecOp.resize new_len value elem_size, vec, st => Vec_resize vec new_len value elem_size st
  | VecOp.drop, vec, st => Vec_drop vec st

/-- The arguments of an operation are values of `size_t`. -/
def VecOp.in_range : VecOp → Prop
  | VecOp.reserve additional elem_size => additional < SIZE ∧ elem_size < SIZE
  | VecOp.push _ elem_size => elem_size < SIZE
  | VecOp.pop _ elem_size => elem_size < SIZE
  | VecOp.set index _ elem_size => index < SIZE ∧ elem_size < SIZE
  | VecOp.clear => True
  | VecOp.truncate new_len => new_len < SIZE
  | VecOp.resize new_len _ elem_size => new_len < SIZE ∧ elem_size < SIZE
  | VecOp.drop => True

/-- Push the given values in order with `Vec_push`. -/
def Vec_push_all (elem_size : Nat) : List (List Nat) → Vec → State → Outcome Vec
  | [], vec, st => Outcome.ok vec st
  | value :: rest, vec, st =>
    (Vec_push vec value elem_size st).bind fun vec1 st1 => Vec_push_all elem_size rest vec1 st1

/-- Call `Vec_pop` the given number of times into a zeroed buffer of `elem_size` bytes,
collecting the flag returned and the bytes of the buffer after each call. -/
def Vec_pop_n (elem_size : Nat) : Nat → Vec → State → Outcome (List (Bool × List Nat) × Vec)
  | 0, vec, st => Outcome.ok ([], vec) st
  | n + 1, vec, st =>
    (Vec_pop vec (List.replicate elem_size 0) elem_size st).bind fun r st1 =>
      (Vec_pop_n elem_size n r.2.2 st1).bind fun rs st2 =>
        Outcome.ok ((r.1, r.2.1) :: rs.1, rs.2) st2

/-! ## `string.h` -/

/-- The `String` struct. -/
structure String where
  vec : Vec

/-- The characters of the C string stored at a `const char *` argument whose bytes are
`s`: the bytes before the first 0 (a terminating 0 is implied at the end of `s`). -/
def c_chars (s : List Nat) : List Nat :=
  s.takeWhile (fun c => c != 0)

/-- The libc `strlen`. -/
def strlen (s : List Nat) : Nat :=
  (c_chars s).length

/-- `String_new`. -/
def String_new : String :=
  { vec := Vec_new }

/-- `String_with_capacity`; `sizeof(char)` is 1. -/
def String_with_capacity (capacity : Nat) (st : State) : Outcome String :=
  (Vec_with_capacity capacity 1 st).bind fun v st1 => Outcome.ok { vec := v } st1

/-- `String_from`: the `memcpy` of `len + 1` bytes copies the characters and the
terminator. -/
def String_from (s : List Nat) (st : State) : Outcome String :=
  (String_with_capacity ((strlen s + 1) % SIZE) st).bind fun str st1 =>
    match store st1.heap str.vec.buf.ptr 0 (c_chars s ++ [0]) with
    | none => Outcome.fault
    | some h =>
      Outcome.ok { vec := { buf := str.vec.buf, len := strlen s } } { st1 with heap := h }

/-- `String_len`. -/
def String_len (s : String) : Nat :=
  s.vec.len

/-- `String_capacity`. -/
def String_capacity (s : String) : Nat :=
  Vec_capacity s.vec

/-- `String_is_empty`. -/
def String_is_empty (s : String) : Bool :=
  s.vec.len == 0

/-- `String_push_str`. -/
def String_push_str (s : String) (str : List Nat) (st : State) : Outcome String :=
  (Vec_reserve s.vec (strlen str) 1 st).bind fun v st1 =>
    match store st1.heap v.buf.ptr v.len (c_chars str) with
    | none => Outcome.fault
    | some h1 =>
      match store h1 v.buf.ptr ((s.vec.len + strlen str) % SIZE) [0] with
      | none => Outcome.fault
      | some h2 =>
        Outcome.ok { vec := { buf := v.buf, len := (s.vec.len + strlen str) % SIZE } }
          { st1 with heap := h2 }

/-- `String_push`. -/
def String_push (s : String) (ch : Nat) (st : State) : Outcome String :=
  (Vec_reserve s.vec 1 1 st).bind fun v st1 =>
    match store st1.heap v.buf.ptr v.len [ch] with
    | none => Outcome.fault
    | some h1 =>
      match store h1 v.buf.ptr ((v.len + 1) % SIZE) [0] with
      | none => Outcome.fault
      | some h2 =>
        Outcome.ok { vec := { buf := v.buf, len := (v.len + 1) % SIZE } } { st1 with heap := h2 }

/-- `String_as_str`. -/
def String_as_str (s : String) : Nat :=
  s.vec.buf.ptr

/-- `String_clear`. -/
def String_clear (s : String) (st : State) : Outcome String :=
  if s.vec.buf.ptr ≠ NULL then
    match store st.heap s.vec.buf.ptr 0 [0] with
    | none => Outcome.fault
    | some h => Outcome.ok { vec := { buf := s.vec.buf, len := 0 } } { st with heap := h }
  else Outcome.ok { vec := { buf := s.vec.buf, len := 0 } } st

/-- `String_drop`. -/
def String_drop (s : String) (st : State) : Outcome String :=
  (Vec_drop s.vec st).bind fun v st1 => Outcome.ok { vec := v } st1

/-- `String_truncate`. -/
def String_truncate (s : String) (new_len : Nat) (st : State) : Outcome String :=
  if new_len ≤ s.vec.len then
    match store st.heap s.vec.buf.ptr new_len [0] with
    | none => Outcome.fault
    | some h => Outcome.ok { vec := { buf := s.vec.buf, len := new_len } } { st with heap := h }
  else Outcome.ok s st

/-- `String_pop`: the character returned and the String left. -/
def String_pop (s : String) (st : State) : Outcome (Nat × String) :=
  if s.vec.len = 0 then Outcome.ok (0, s) st
  else
    match load st.heap s.vec.buf.ptr (s.vec.len - 1) 1 with
    | none => Outcome.fault
    | some bytes =>
      match store st.heap s.vec.buf.ptr (s.vec.len - 1) [0] with
      | none => Outcome.fault
      | some h =>
        Outcome.ok (bytes.headD 0, { vec := { buf := s.vec.buf, len := s.vec.len - 1 } })
          { st with heap := h }

/-- `String_insert`. -/
def String_insert (s : String) (idx ch : Nat) (st : State) : Outcome String :=
  if idx ≤ s.vec.len then
    (Vec_reserve s.vec 1 1 st).bind fun v st1 =>
      match memmove st1.heap v.buf.ptr (idx + 1) idx ((v.len - idx + 1) % SIZE) with
      | none => Outcome.fault
      | some h1 =>
        match store h1 v.buf.ptr idx [ch] with
        | none => Outcome.fault
        | some h2 =>
          Outcome.ok { vec := { buf := v.buf, len := (v.len + 1) % SIZE } } { st1 with heap := h2 }
  else Outcome.abort

/-- `String_insert_str`. -/
def String_insert_str (s : String) (idx : Nat) (str : List Nat) (st : State) : Outcome String :=
  if idx ≤ s.vec.len then
    (Vec_reserve s.vec (strlen str) 1 st).bind fun v st1 =>
      match memmove st1.heap v.buf.ptr (idx + strlen str) idx ((v.len - idx + 1) % SIZE) with
      | none => Outcome.fault
      | some h1 =>
        match store h1 v.buf.ptr idx (c_chars str) with
        | none => Outcome.fault
        | some h2 =>
          Outcome.ok { vec := { buf := v.buf, len := (v.len + strlen str) % SIZE } }
            { st1 with heap := h2 }
  else Outcome.abort

/-- `String_remove`: the character returned and the String left. -/
def String_remove (s : String) (idx : Nat) (st : State) : Outcome (Nat × String) :=
  if idx < s.vec.len then
    match load st.heap s.vec.buf.ptr idx 1 with
    | none => Outcome.fault
    | some bytes =>
      match memmove st.heap s.vec.buf.ptr idx (idx + 1) (s.vec.len - idx) with
      | none => Outcome.fault
      | some h =>
        Outcome.ok (bytes.headD 0, { vec := { buf := s.vec.buf, len := s.vec.len - 1 } })
          { st with heap := h }
  else Outcome.abort

/-- `String_substring`. -/
def String_substring (s : String) (start stop : Nat) (st : State) : Outcome String :=
  if start ≤ stop ∧ stop ≤ s.vec.len then
    (String_with_capacity ((stop - start + 1) % SIZE) st).bind fun result st1 =>
      match load st1.heap s.vec.buf.ptr start (stop - start) with
      | none => Outcome.fault
      | some bytes =>
        match store st1.heap result.vec.buf.ptr 0 bytes with
        | none => Outcome.fault
        | some h1 =>
          match store h1 result.vec.buf.ptr (stop - start) [0] with
          | none => Outcome.fault
          | some h2 =>
            Outcome.ok { vec := { buf := result.vec.buf, len := stop - start } }
              { st1 with heap := h2 }
  else Outcome.abort

/-- `String_free`. -/
def String_free (s : String) (st : State) : Outcome String :=
  (Vec_drop s.vec st).bind fun v st1 => Outcome.ok { vec := v } st1

/-- The loop of the libc `strcmp` over the bytes found at the two pointers, up to the
ends of their allocations: the bytes are compared as `unsigned char` until two differ or
a terminator is reached; `none` when the comparison runs past the end of an allocation.
The value returned for a difference is the difference of the two bytes, one of the values
the C standard allows (it specifies the sign only). -/
def strcmp_loop : List Nat → List Nat → Option Int
  | x :: xs, y :: ys =>
    if x = y then (if x = 0 then some 0 else strcmp_loop xs ys)
    else some ((x : Int) - (y : Int))
  | _, _ => none

/-- The libc `strcmp` on two pointers to the bases of live allocations. -/
def strcmp (h : Heap) (p q : Nat) : Option Int :=
  match h.block p, h.block q with
  | some a, some b => strcmp_loop a b
  | _, _ => none

/-- `String_compare`. -/
def String_compare (s1 s2 : String) (st : State) : Outcome Int :=
  match strcmp st.heap (String_as_str s1) (String_as_str s2) with
  | none => Outcome.fault
  | some r => Outcome.ok r st

/-- `String_equals`. -/
def String_equals (s1 s2 : String) (st : State) : Outcome Bool :=
  (String_compare s1 s2 st).bind fun r st1 => Outcome.ok (r == 0) st1

/-- The byte of a String at an index of its region, when inside the allocation. -/
def String.byte (s : String) (st : State) (i : Nat) : Option Nat :=
  byte_at st.heap s.vec.buf.ptr i

/-! ## `examples/rawvec.c` -/

/-- One round of the loop of `main` in `examples/rawvec.c`:
`RawVec_reserve(&vec, len, 1, sizeof(Person)); ptr[len] = people[i]; len++`, the record
being given by its bytes. -/
def rawvec_example_append (vec : RawVec) (len : Nat) (person : List Nat) (elem_size : Nat)
    (st : State) : Outcome (RawVec × Nat) :=
  (RawVec_reserve vec len 1 elem_size st).bind fun vec1 st1 =>
    match store st1.heap (RawVec_ptr vec1) (len * elem_size) person with
    | none => Outcome.fault
    | some h => Outcome.ok (vec1, (len + 1) % SIZE) { st1 with heap := h }

/-- The loop of `main` in `examples/rawvec.c` over the given records, collecting the
capacity that `print_people` prints after each round. -/
def rawvec_example_loop (elem_size : Nat) :
    List (List Nat) → RawVec → Nat → State → Outcome (List Nat × RawVec × Nat)
  | [], vec, len, st => Outcome.ok ([], vec, len) st
  | person :: rest, vec, len, st =>
    (rawvec_example_append vec len person elem_size st).bind fun r st1 =>
      (rawvec_example_loop elem_size rest r.1 r.2 st1).bind fun rs st2 =>
        Outcome.ok (RawVec_capacity r.1 elem_size :: rs.1, rs.2) st2

/-- The start of `main` in `examples/rawvec.c`, for any element size and allocator:
`RawVec_with_capacity(2, elem_size, alloc)`, `len = 0`, then the loop. -/
def rawvec_example (elem_size : Nat) (alloc : Allocator) (people : List (List Nat))
    (st : State) : Outcome (List Nat × RawVec × Nat) :=
  (RawVec_with_capacity 2 elem_size alloc st).bind fun vec st1 =>
    rawvec_example_loop elem_size people vec 0 st1

/-! ## Specification vocabulary and test data -/

/-- `v` is the first value of the sequence `s, 2s, 4s, ...` that is at least `n`. -/
def IsFirstDoubling (s n v : Nat) : Prop :=
  ∃ k, v = s * 2 ^ k ∧ n ≤ v ∧ ∀ j, j < k → s * 2 ^ j < n

/-- An empty heap on which no request fails and fresh memory holds the byte 0xAA. -/
def heap0 : Heap :=
  { blocks := fun _ => none, next := 0, tick := 0, oom := fun _ => false, junk := fun _ => 170 }

/-- The initial machine state over `heap0`. -/
def state0 : State :=
  { heap := heap0, calls := [] }

/-- An allocation function over libc that never asks for 0 bytes:
`malloc(size ? size : 1)`. -/
def min_one_allocate (h : Heap) (size : Nat) : Nat × Heap :=
  malloc h (if size = 0 then 1 else size)

/-- A reallocation function over libc that never asks for 0 bytes:
`realloc(ptr, new_size ? new_size : 1)`. -/
def min_one_reallocate (h : Heap) (ptr _old_size new_size : Nat) : Nat × Heap :=
  realloc h ptr (if new_size = 0 then 1 else new_size)

/-- A custom allocator, `create_allocator(min_one_allocate, free, min_one_reallocate)`:
it answers a request of 0 bytes with a live allocation. -/
def min_one_allocator : Allocator :=
  create_allocator min_one_allocate free min_one_reallocate

/-- The RawVec left by `RawVec_with_capacity(4, 1, GLOBAL_ALLOCATOR)` in `state0`. -/
def rawvec4 : RawVec :=
  { ptr := 1, cap := 4, alloc := GLOBAL_ALLOCATOR }

/-- The machine state left by `RawVec_with_capacity(4, 1, GLOBAL_ALLOCATOR)` in `state0`. -/
def state4 : State :=
  (call_allocate GLOBAL_ALLOCATOR state0 4).2

/-- The Vec left by pushing the byte 7 on `Vec_new` in `state0`. -/
def vec1 : Vec :=
  { buf := { ptr := 1, cap := 1, alloc := GLOBAL_ALLOCATOR }, len := 1 }

/-- The String left by `String_from("abc")` in `state0`. -/
def string_abc : String :=
  { vec := { buf := { ptr := 1, cap := 4, alloc := GLOBAL_ALLOCATOR }, len := 3 } }

/-- The machine state left by `String_from("abc")` in `state0`: one allocation of four
bytes, holding `"abc"` and its terminator. -/
def state_abc : State :=
  { heap :=
      { blocks := Function.update (fun _ => none) 1 (some [97, 98, 99, 0])
        next := 5
        tick := 1
        oom := fun _ => false
        junk := fun _ => 170 }
    calls := [AllocCall.allocate 4] }

/-- A Vec reachable by the operations of `vec.h`: `Vec_new()`, a result of
`Vec_with_capacity`, or the Vec left by an operation that returned on a reachable Vec,
in whatever machine state it was run. -/
inductive Vec.Reachable : Vec → Prop
  | new : Vec.Reachable Vec_new
  | with_capacity (capacity elem_size : Nat) (st : State) (vec : Vec) (st' : State) :
      Vec_with_capacity capacity elem_size st = Outcome.ok vec st' → Vec.Reachable vec
  | step (op : VecOp) (vec : Vec) (st : State) (vec' : Vec) (st' : State) :
      Vec.Reachable vec → op.run vec st = Outcome.ok vec' st' → Vec.Reachable vec'

/-- Every live allocation of the heap lies at or below `next`, so that the address
`malloc` hands out is fresh. -/
def Heap.wf (h : Heap) : Prop :=
  ∀ p, h.next < p → h.blocks p = none

/-- The String holds the bytes `bytes` with the terminator in place: its region is a
live allocation of `cap` bytes from the global allocator, `len < cap`, the first `len`
bytes are `bytes` and the byte at index `len` is 0. -/
def String.holds (s : String) (h : Heap) (bytes : List Nat) : Prop :=
  s.vec.buf.alloc = GLOBAL_ALLOCATOR ∧ s.vec.len = bytes.length ∧ s.vec.len < s.vec.buf.cap ∧
  s.vec.buf.cap < SIZE ∧ s.vec.buf.ptr ≠ NULL ∧
  ∃ b, h.blocks s.vec.buf.ptr = some b ∧ b.length = s.vec.buf.cap ∧
    b.take s.vec.len = bytes ∧ b[s.vec.len]? = some 0

/-- The C string read at a pointer: the bytes of its allocation before the first 0;
`none` when the pointer is not the base of a live allocation, or when the allocation
holds no 0 (the read runs past its end). -/
def c_string_at (h : Heap) (p : Nat) : Option (List Nat) :=
  match h.block p with
  | none => none
  | some b => if 0 ∈ b then some (c_chars b) else none

/-- The element read through the pointer `Vec_get` returns,
`*(T *)Vec_get(vec, index, sizeof(T))`, as the tests read it. -/
def Vec_get_value (vec : Vec) (index elem_size : Nat) (st : State) : Outcome (List Nat) :=
  (Vec_get vec index elem_size st).bind fun r st1 =>
    match load st1.heap r.1 r.2 elem_size with
    | none => Outcome.fault
    | some bytes => Outcome.ok bytes st1

/-- The element `slice[index]` of the view `(T *)Vec_as_slice(vec)`; `none` outside a
live allocation. -/
def Vec_slice_value (vec : Vec) (index elem_size : Nat) (st : State) : Option (List Nat) :=
  load st.heap (Vec_as_slice vec) (index * elem_size) elem_size

/-- The reference growth policy of the specification, "start from max(1, capacity) and
double until >= needed", over the naturals, for at most `fuel` doublings. -/
def reference_policy_loop : Nat → Nat → Nat → Nat
  | 0, v, _ => v
  | fuel + 1, v, needed =>
    if v < needed then reference_policy_loop fuel (2 * v) needed else v

/-- The capacity the reference policy arrives at for a capacity and a needed capacity;
`needed` doublings are enough, since `2 ^ needed > needed`. -/
def reference_policy (capacity needed : Nat) : Nat :=
  reference_policy_loop needed (max 1 capacity) needed

/-! ## Theorems -/

/-! ### The doubling loop -/

theorem RawVec_grow_loop_ge (fuel : Nat) : ∀ (s n c : Nat),
    RawVec_grow_loop fuel s n = some c → n ≤ c := by
  induction fuel with
  | zero => intro s n c h; simp [RawVec_grow_loop] at h
  | succ f ih =>
    intro s n c h
    unfold RawVec_grow_loop at h
    split at h
    · exact ih _ _ _ h
    · simp at h; omega

theorem RawVec_grow_loop_first (k : Nat) : ∀ (fuel s n : Nat),
    (∀ j, j < k → s * 2 ^ j < n) → n ≤ s * 2 ^ k → s * 2 ^ k < SIZE → k < fuel →
    RawVec_grow_loop fuel s n = some (s * 2 ^ k) := by
  induction k with
  | zero =>
    intro fuel s n _ hk _ hf
    obtain ⟨f, rfl⟩ : ∃ f, fuel = f + 1 := ⟨fuel - 1, by omega⟩
    unfold RawVec_grow_loop
    simp at hk
    simp [Nat.not_lt.mpr hk]
  | succ k ih =>
    intro fuel s n hfirst hk hov hf
    obtain ⟨f, rfl⟩ : ∃ f, fuel = f + 1 := ⟨fuel - 1, by omega⟩
    have h0 : s < n := by simpa using hfirst 0 (Nat.succ_pos k)
    have hpow : s * 2 ^ (k + 1) = s * 2 * 2 ^ k := by rw [pow_succ]; ring
    have hle : s * 2 ≤ s * 2 * 2 ^ k := Nat.le_mul_of_pos_right _ (by positivity)
    have hmod : s * 2 % SIZE = s * 2 := Nat.mod_eq_of_lt (by omega)
    unfold RawVec_grow_loop
    rw [if_pos h0, hmod, hpow]
    apply ih
    · intro j hj
      have := hfirst (j + 1) (by omega)
      rw [pow_succ] at this
      calc s * 2 * 2 ^ j = s * (2 ^ j * 2) := by ring
        _ < n := this
    · omega
    · omega
    · omega

theorem doubling_index_lt (s k : Nat) (hs : 0 < s) (h : s * 2 ^ k < SIZE) : k < 64 := by
  by_contra hk
  have h1 : 2 ^ 64 ≤ 2 ^ k := Nat.pow_le_pow_right (by norm_num) (by omega)
  have h2 : 2 ^ k ≤ s * 2 ^ k := Nat.le_mul_of_pos_left _ hs
  unfold SIZE at h
  omega

theorem exists_first_doubling (s n : Nat) (hs : 0 < s) :
    ∃ k, n ≤ s * 2 ^ k ∧ ∀ j, j < k → s * 2 ^ j < n := by
  have hex : ∃ k, n ≤ s * 2 ^ k := by
    refine ⟨n, ?_⟩
    have h1 : n < 2 ^ n := Nat.lt_two_pow n
    have h2 : 2 ^ n ≤ s * 2 ^ n := Nat.le_mul_of_pos_left _ hs
    omega
  classical
  refine ⟨Nat.find hex, Nat.find_spec hex, ?_⟩
  intro j hj
  have := Nat.find_min hex hj
  omega

/-- The doubling loop started at `s` stops at the first value of `s, 2s, 4s, ...` that
reaches `n`, provided that value is a `size_t`. -/
theorem RawVec_grow_loop_eq (s n k : Nat)
    (hfirst : ∀ j, j < k → s * 2 ^ j < n) (hk : n ≤ s * 2 ^ k) (hov : s * 2 ^ k < SIZE) :
    RawVec_grow_loop GROW_FUEL s n = some (s * 2 ^ k) := by
  rcases Nat.eq_zero_or_pos s with hs | hs
  · subst hs
    have hk0 : k = 0 := by
      by_contra hne
      have := hfirst 0 (by omega)
      simp at hk
      omega
    subst hk0
    exact RawVec_grow_loop_first 0 _ _ _ hfirst hk hov (by unfold GROW_FUEL; omega)
  · have := doubling_index_lt s k hs hov
    exact RawVec_grow_loop_first k _ _ _ hfirst hk hov (by unfold GROW_FUEL; omega)

/-- What `RawVec_grow` returns once its loop has stopped at `c`. -/
theorem RawVec_grow_of_loop (vec : RawVec) (n e c : Nat) (st : State)
    (hloop : RawVec_grow_loop GROW_FUEL (if vec.cap = 0 then 1 else vec.cap * 2 % SIZE) n = some c)
    (hno : RawVec_grow vec n e st ≠ Outcome.abort) :
    ∃ vec' st', RawVec_grow vec n e st = Outcome.ok vec' st' ∧ vec'.cap = c ∧
      vec'.ptr ≠ NULL ∧ vec'.alloc = vec.alloc := by
  unfold RawVec_grow at hno ⊢
  rw [hloop] at hno ⊢
  simp only at hno ⊢
  generalize (if vec.ptr = NULL then call_allocate vec.alloc st (c * e % SIZE)
    else call_reallocate vec.alloc st vec.ptr (vec.cap * e % SIZE) (c * e % SIZE)) = r at hno ⊢
  by_cases hp : r.1 = NULL
  · rw [if_pos hp] at hno; exact absurd rfl hno
  · rw [if_neg hp]; exact ⟨_, _, rfl, rfl, hp, rfl⟩

/-- Every result of `RawVec_grow` has a non-null region and a capacity that reaches
the capacity asked for. -/
theorem RawVec_grow_ok (vec : RawVec) (n e : Nat) (st : State) (vec' : RawVec) (st' : State)
    (h : RawVec_grow vec n e st = Outcome.ok vec' st') :
    n ≤ vec'.cap ∧ vec'.ptr ≠ NULL ∧ vec'.alloc = vec.alloc ∧
      RawVec_grow_loop GROW_FUEL (if vec.cap = 0 then 1 else vec.cap * 2 % SIZE) n
        = some vec'.cap := by
  unfold RawVec_grow at h
  split at h
  · cases h
  · rename_i c hc
    simp only at h
    generalize (if vec.ptr = NULL then call_allocate vec.alloc st (c * e % SIZE)
      else call_reallocate vec.alloc st vec.ptr (vec.cap * e % SIZE) (c * e % SIZE)) = r at h
    by_cases hp : r.1 = NULL
    · rw [if_pos hp] at h; cases h
    · rw [if_neg hp] at h
      cases h
      exact ⟨RawVec_grow_loop_ge _ _ _ _ hc, hp, rfl, hc⟩

/-! ### `RawVec` -/

theorem rawvec4_built :
    RawVec_with_capacity 4 1 GLOBAL_ALLOCATOR state0 = Outcome.ok rawvec4 state4 := by
  simp [RawVec_with_capacity, call_allocate, GLOBAL_ALLOCATOR, malloc, state0, heap0, NULL,
    rawvec4, state4, SIZE]

theorem grow4 : ∃ st', RawVec_grow rawvec4 3 1 state4 = Outcome.ok { ptr := 6, cap := 8, alloc := GLOBAL_ALLOCATOR } st' := by
  simp [RawVec_grow, RawVec_grow_loop, GROW_FUEL, rawvec4, state4, call_allocate, call_reallocate,
    GLOBAL_ALLOCATOR, malloc, realloc_wrapper, realloc, state0, heap0, NULL, SIZE]

/-- C1, as stated, fails: `RawVec_grow` with needed capacity 3 on a buffer of capacity 4
leaves capacity 8, while the first value of `max(1,4), 2*max(1,4), ...` that is at least 3
is 4. -/
theorem RawVec_grow_capacity_counterexample :
    ∃ vec' st', RawVec_grow rawvec4 3 1 state4 = Outcome.ok vec' st' ∧
      ¬ IsFirstDoubling (max 1 rawvec4.cap) 3 vec'.cap := by
  obtain ⟨st', h⟩ := grow4
  refine ⟨_, st', h, ?_⟩
  rintro ⟨k, hk, -, hfirst⟩
  simp only [rawvec4] at hk hfirst
  have hk1 : k = 1 := by
    rcases k with _ | _ | k
    · simp at hk
    · rfl
    · rw [pow_succ, pow_succ] at hk
      have : 1 ≤ 2 ^ k := Nat.one_le_two_pow
      simp at hk
      omega
  subst hk1
  have := hfirst 0 (by omega)
  simp at this

/-- C1 (amended): `RawVec_grow` starts doubling at 1 for capacity 0 and at twice the
capacity otherwise.  When the allocator answers the request (the call does not abort) and
the result is a `size_t`: if the capacity `c` is 0 or below `needed_cap`, the capacity
afterwards is the first value of `max(1,c), 2*max(1,c), 4*max(1,c), ...` that is at least
`needed_cap`; if `0 < c` and `needed_cap ≤ c`, the capacity afterwards is `2 * c`. -/
theorem RawVec_grow_capacity :
    (∀ (vec : RawVec) (needed_cap elem_size : Nat) (st : State) (v : Nat),
      (vec.cap = 0 ∨ vec.cap < needed_cap) →
      IsFirstDoubling (max 1 vec.cap) needed_cap v → v < SIZE →
      RawVec_grow vec needed_cap elem_size st ≠ Outcome.abort →
      ∃ vec' st', RawVec_grow vec needed_cap elem_size st = Outcome.ok vec' st' ∧ vec'.cap = v) ∧
    (∀ (vec : RawVec) (needed_cap elem_size : Nat) (st : State),
      0 < vec.cap → needed_cap ≤ vec.cap → 2 * vec.cap < SIZE →
      RawVec_grow vec needed_cap elem_size st ≠ Outcome.abort →
      ∃ vec' st', RawVec_grow vec needed_cap elem_size st = Outcome.ok vec' st' ∧
        vec'.cap = 2 * vec.cap) := by
  constructor
  · rintro vec n e st v hc ⟨k, rfl, hk, hfirst⟩ hov hno
    rcases Nat.eq_zero_or_pos vec.cap with h0 | hpos
    · -- the buffer is empty: the loop starts at 1
      have hloop := RawVec_grow_loop_eq 1 n k (by simpa [h0] using hfirst) (by simpa [h0] using hk)
        (by simpa [h0] using hov)
      have hloop' : RawVec_grow_loop GROW_FUEL (if vec.cap = 0 then 1 else vec.cap * 2 % SIZE) n
          = some (max 1 vec.cap * 2 ^ k) := by simpa [h0] using hloop
      obtain ⟨vec', st', h, hcap, -, -⟩ := RawVec_grow_of_loop vec n e _ st hloop' hno
      exact ⟨vec', st', h, hcap⟩
    · -- the loop starts at twice the capacity, which the needed capacity exceeds
      have hlt : vec.cap < n := by omega
      have hmax : max 1 vec.cap = vec.cap := by omega
      rw [hmax] at hk hfirst hov ⊢
      obtain ⟨k', rfl⟩ : ∃ k', k = k' + 1 := by
        rcases k with _ | k'
        · simp at hk; omega
        · exact ⟨k', rfl⟩
      have hpow : ∀ j, vec.cap * 2 ^ (j + 1) = vec.cap * 2 * 2 ^ j := by
        intro j; rw [pow_succ]; ring
      have h2 : vec.cap * 2 ≤ vec.cap * 2 * 2 ^ k' := Nat.le_mul_of_pos_right _ (by positivity)
      have hmod : vec.cap * 2 % SIZE = vec.cap * 2 := Nat.mod_eq_of_lt (by rw [hpow] at hov; omega)
      have hloop := RawVec_grow_loop_eq (vec.cap * 2) n k'
        (by intro j hj; rw [← hpow]; exact hfirst (j + 1) (by omega))
        (by rw [← hpow]; exact hk) (by rw [← hpow]; exact hov)
      have hloop' : RawVec_grow_loop GROW_FUEL (if vec.cap = 0 then 1 else vec.cap * 2 % SIZE) n
          = some (vec.cap * 2 ^ (k' + 1)) := by
        rw [if_neg (by omega), hmod, hpow]; exact hloop
      obtain ⟨vec', st', h, hcap, -, -⟩ := RawVec_grow_of_loop vec n e _ st hloop' hno
      exact ⟨vec', st', h, hcap⟩
  · intro vec n e st hpos hle hov hno
    have hmod : vec.cap * 2 % SIZE = vec.cap * 2 := Nat.mod_eq_of_lt (by omega)
    have hloop := RawVec_grow_loop_eq (vec.cap * 2) n 0 (by intro j hj; omega) (by simp; omega)
      (by simp; omega)
    have hloop' : RawVec_grow_loop GROW_FUEL (if vec.cap = 0 then 1 else vec.cap * 2 % SIZE) n
        = some (2 * vec.cap) := by
      rw [if_neg (by omega), hmod]; simpa [Nat.mul_comm] using hloop
    obtain ⟨vec', st', h, hcap, -, -⟩ := RawVec_grow_of_loop vec n e _ st hloop' hno
    exact ⟨vec', st', h, hcap⟩

/-- C1, witness: growing the empty buffer to needed capacity 10 gives capacity 16, and
growing a buffer of capacity 4 to needed capacity 3 gives capacity 8. -/
theorem RawVec_grow_capacity_witness :
    (∃ vec' st', RawVec_grow (RawVec_new GLOBAL_ALLOCATOR) 10 1 state0 = Outcome.ok vec' st' ∧
      vec'.cap = 16) ∧
    (∃ vec' st', RawVec_grow rawvec4 3 1 state4 = Outcome.ok vec' st' ∧ vec'.cap = 2 * 4) :=
  ⟨RawVec_grow_capacity.1 (RawVec_new GLOBAL_ALLOCATOR) 10 1 state0 16 (Or.inl rfl)
      ⟨4, by decide, by decide, by decide⟩ (by decide)
      (by simp [RawVec_grow, RawVec_grow_loop, GROW_FUEL, RawVec_new, call_allocate,
        GLOBAL_ALLOCATOR, malloc, state0, heap0, NULL, SIZE]),
    RawVec_grow_capacity.2 rawvec4 3 1 state4 (by decide) (by decide) (by decide)
      (by obtain ⟨st', h⟩ := grow4; rw [h]; simp)⟩


/-- The doubling loop stops whenever the needed capacity exceeds the current one and
is at most `2 ^ 63`. -/
theorem RawVec_grow_loop_total (c n : Nat) (hlt : c < n) (hn : n ≤ 2 ^ 63) :
    ∃ k, RawVec_grow_loop GROW_FUEL (if c = 0 then 1 else c * 2 % SIZE) n
      = some ((if c = 0 then 1 else 2 * c) * 2 ^ k) ∧
      n ≤ (if c = 0 then 1 else 2 * c) * 2 ^ k ∧
      (∀ j, j < k → (if c = 0 then 1 else 2 * c) * 2 ^ j < n) ∧
      (if c = 0 then 1 else 2 * c) * 2 ^ k < SIZE := by
  have hstart : (if c = 0 then 1 else c * 2 % SIZE) = (if c = 0 then 1 else 2 * c) := by
    split
    · rfl
    · rw [Nat.mod_eq_of_lt (by unfold SIZE; omega)]; omega
  have hpos : 0 < (if c = 0 then 1 else 2 * c) := by split <;> omega
  have hs : (if c = 0 then 1 else 2 * c) < SIZE := by unfold SIZE; split <;> omega
  rw [hstart]
  generalize (if c = 0 then 1 else 2 * c) = s at hpos hs
  obtain ⟨k, hk, hfirst⟩ := exists_first_doubling s n hpos
  have hov : s * 2 ^ k < SIZE := by
    rcases k with _ | k
    · simpa using hs
    · have := hfirst k (by omega)
      have hring : s * 2 ^ (k + 1) = s * 2 ^ k * 2 := by rw [pow_succ]; ring
      rw [hring]
      unfold SIZE
      omega
  exact ⟨k, RawVec_grow_loop_eq s n k hfirst hk hov, hk, hfirst, hov⟩

/-- C3: `RawVec_shrink_to_fit(vec, len, elem_size)` returns the RawVec and the state
unchanged when `len ≥ cap`; when `len = 0 < cap` it calls `deallocate` on the region and
leaves capacity 0 and a null region; when `0 < len < cap` and the reallocation succeeds
(no abort) it calls `reallocate` and leaves capacity exactly `len` and a non-null
region. -/
theorem RawVec_shrink_to_fit_spec :
    (∀ (vec : RawVec) (len elem_size : Nat) (st : State), vec.cap ≤ len →
      RawVec_shrink_to_fit vec len elem_size st = Outcome.ok vec st) ∧
    (∀ (vec : RawVec) (elem_size : Nat) (st : State), 0 < vec.cap →
      RawVec_shrink_to_fit vec 0 elem_size st
        = Outcome.ok { ptr := NULL, cap := 0, alloc := vec.alloc }
            { heap := vec.alloc.deallocate st.heap vec.ptr,
              calls := st.calls ++ [AllocCall.deallocate vec.ptr] }) ∧
    (∀ (vec : RawVec) (len elem_size : Nat) (st : State), 0 < len → len < vec.cap →
      RawVec_shrink_to_fit vec len elem_size st ≠ Outcome.abort →
      ∃ vec' st', RawVec_shrink_to_fit vec len elem_size st = Outcome.ok vec' st' ∧
        vec'.cap = len ∧ vec'.ptr ≠ NULL ∧
        st'.calls = st.calls ++
          [AllocCall.reallocate vec.ptr (vec.cap * elem_size % SIZE) (len * elem_size % SIZE)]) := by
  refine ⟨?_, ?_, ?_⟩
  · intro vec len e st h
    unfold RawVec_shrink_to_fit
    rw [if_neg (by omega)]
  · intro vec e st h
    unfold RawVec_shrink_to_fit
    rw [if_pos h, if_pos rfl]
    rfl
  · intro vec len e st hpos hlt hno
    unfold RawVec_shrink_to_fit at hno ⊢
    rw [if_pos hlt, if_neg (by omega)] at hno ⊢
    simp only at hno ⊢
    by_cases hp : (call_reallocate vec.alloc st vec.ptr (vec.cap * e % SIZE) (len * e % SIZE)).1 = NULL
    · rw [if_pos hp] at hno; exact absurd rfl hno
    · rw [if_neg hp]; exact ⟨_, _, rfl, rfl, hp, rfl⟩

/-- C3, witness: the three cases on a buffer of capacity 4 (`len` 4, 0 and 2). -/
theorem RawVec_shrink_to_fit_spec_witness :
    RawVec_shrink_to_fit rawvec4 4 1 state4 = Outcome.ok rawvec4 state4 ∧
    RawVec_shrink_to_fit rawvec4 0 1 state4
      = Outcome.ok { ptr := NULL, cap := 0, alloc := rawvec4.alloc }
          { heap := rawvec4.alloc.deallocate state4.heap rawvec4.ptr,
            calls := state4.calls ++ [AllocCall.deallocate rawvec4.ptr] } ∧
    (∃ vec' st', RawVec_shrink_to_fit rawvec4 2 1 state4 = Outcome.ok vec' st' ∧
        vec'.cap = 2 ∧ vec'.ptr ≠ NULL ∧
        st'.calls = state4.calls ++
          [AllocCall.reallocate rawvec4.ptr (rawvec4.cap * 1 % SIZE) (2 * 1 % SIZE)]) :=
  ⟨RawVec_shrink_to_fit_spec.1 rawvec4 4 1 state4 (by decide),
    RawVec_shrink_to_fit_spec.2.1 rawvec4 1 state4 (by decide),
    RawVec_shrink_to_fit_spec.2.2 rawvec4 2 1 state4 (by decide) (by decide)
      (by simp [RawVec_shrink_to_fit, rawvec4, state4, call_allocate, call_reallocate,
        GLOBAL_ALLOCATOR, malloc, realloc_wrapper, realloc, state0, heap0, NULL, SIZE])⟩


theorem Outcome.bind_eq_ok {α β : Type} (x : Outcome α) (f : α → State → Outcome β)
    (b : β) (st' : State) :
    x.bind f = Outcome.ok b st' ↔ ∃ a st1, x = Outcome.ok a st1 ∧ f a st1 = Outcome.ok b st' := by
  cases x with
  | ok a st =>
    simp only [Outcome.bind]
    constructor
    · intro h; exact ⟨a, st, rfl, h⟩
    · rintro ⟨a', st1, h1, h⟩; cases h1; exact h
  | abort => simp [Outcome.bind]
  | fault => simp [Outcome.bind]
  | diverge => simp [Outcome.bind]

theorem Outcome.ne_abort_of_ok {α : Type} (x : Outcome α) (a : α) (st : State)
    (h : x = Outcome.ok a st) : x ≠ Outcome.abort := by
  rw [h]; intro hc; cases hc

theorem RawVec_grow_loop_zero (fuel s : Nat) (c : Nat)
    (h : RawVec_grow_loop fuel s 0 = some c) : c = s := by
  cases fuel with
  | zero => simp [RawVec_grow_loop] at h
  | succ f => simpa [RawVec_grow_loop, eq_comm] using h

theorem RawVec_reserve_ok (vec : RawVec) (len additional e : Nat) (st : State)
    (vec' : RawVec) (st' : State)
    (h : RawVec_reserve vec len additional e st = Outcome.ok vec' st') :
    (len + additional) % SIZE ≤ vec'.cap ∧ vec.cap ≤ vec'.cap ∧ vec'.alloc = vec.alloc ∧
      (vec.inv → vec'.inv) := by
  unfold RawVec_reserve at h
  simp only at h
  split at h
  · rename_i hgt
    obtain ⟨hle, hp, ha, -⟩ := RawVec_grow_ok _ _ _ _ _ _ h
    refine ⟨hle, by omega, ha, fun _ => ?_⟩
    unfold RawVec.inv
    constructor
    · intro h0; omega
    · intro h0; exact absurd h0 hp
  · cases h
    exact ⟨by omega, le_refl _, rfl, id⟩

/-- With `GLOBAL_ALLOCATOR`, growing a buffer of capacity `2^63` with needed capacity 0
aborts: twice the capacity wraps to 0, the loop is skipped, and `realloc(ptr, 0)` returns
`NULL`. -/
theorem RawVec_grow_zero_global_aborts :
    ∃ vec st, RawVec_with_capacity (2 ^ 63) 0 GLOBAL_ALLOCATOR state0 = Outcome.ok vec st ∧
      RawVec_grow vec 0 0 st = Outcome.abort := by
  have h1 : RawVec_with_capacity (2 ^ 63) 0 GLOBAL_ALLOCATOR state0
      = Outcome.ok { ptr := 1, cap := 2 ^ 63, alloc := GLOBAL_ALLOCATOR }
          (call_allocate GLOBAL_ALLOCATOR state0 0).2 := by
    simp [RawVec_with_capacity, call_allocate, GLOBAL_ALLOCATOR, malloc, state0, heap0, NULL, SIZE]
  have h2 : RawVec_grow { ptr := 1, cap := 2 ^ 63, alloc := GLOBAL_ALLOCATOR } 0 0
      (call_allocate GLOBAL_ALLOCATOR state0 0).2 = Outcome.abort := by
    simp [RawVec_grow, RawVec_grow_loop, GROW_FUEL, call_allocate, call_reallocate,
      GLOBAL_ALLOCATOR, malloc, realloc_wrapper, realloc, state0, heap0, NULL, SIZE]
  exact ⟨_, _, h1, h2⟩

/-- C4, as stated, fails: with the custom allocator `min_one_allocator`, which answers
every request with a non-null region, `RawVec_with_capacity(2^63, 0, alloc)` returns a
RawVec that satisfies the invariant, and `RawVec_grow` with needed capacity 0 on it
returns (twice the capacity wraps to 0, the loop is skipped, the allocator answers the
request of 0 bytes) with capacity 0 and a non-null region. -/
theorem RawVec_inv_counterexample :
    ∃ vec st vec' st', RawVec_with_capacity (2 ^ 63) 0 min_one_allocator state0 = Outcome.ok vec st ∧
      vec.inv ∧ RawVec_grow vec 0 0 st = Outcome.ok vec' st' ∧
      vec'.cap = 0 ∧ vec'.ptr ≠ NULL ∧ ¬ vec'.inv := by
  have h1 : RawVec_with_capacity (2 ^ 63) 0 min_one_allocator state0
      = Outcome.ok { ptr := 1, cap := 2 ^ 63, alloc := min_one_allocator }
          (call_allocate min_one_allocator state0 0).2 := by
    simp [RawVec_with_capacity, call_allocate, min_one_allocator, create_allocator,
      min_one_allocate, malloc, state0, heap0, NULL, SIZE]
  have h2 : RawVec_grow { ptr := 1, cap := 2 ^ 63, alloc := min_one_allocator } 0 0
      (call_allocate min_one_allocator state0 0).2
      = Outcome.ok { ptr := 3, cap := 0, alloc := min_one_allocator }
          (call_reallocate min_one_allocator (call_allocate min_one_allocator state0 0).2 1 0 0).2 := by
    simp [RawVec_grow, RawVec_grow_loop, GROW_FUEL, call_allocate, call_reallocate,
      min_one_allocator, create_allocator, min_one_allocate, min_one_reallocate, malloc, realloc,
      state0, heap0, NULL, SIZE]
  exact ⟨_, _, _, _, h1, by simp [RawVec.inv, NULL], h2, rfl, by simp [NULL],
    by simp [RawVec.inv, NULL]⟩

/-- C4 (amended): the invariant `cap = 0 ↔ ptr = NULL` holds for `RawVec_new` and for
every result of `RawVec_with_capacity`; a result of `RawVec_grow` on a RawVec whose
capacity is a `size_t` satisfies it in every case but one, the call with `needed_cap = 0`
on a capacity of exactly `2^63`; and it is preserved by every call of `RawVec_reserve`,
`RawVec_shrink_to_fit` and `RawVec_drop` that returns. -/
theorem RawVec_inv_preserved :
    (∀ alloc : Allocator, (RawVec_new alloc).inv) ∧
    (∀ (capacity elem_size : Nat) (alloc : Allocator) (st : State) (vec' : RawVec) (st' : State),
      RawVec_with_capacity capacity elem_size alloc st = Outcome.ok vec' st' → vec'.inv) ∧
    (∀ (vec : RawVec) (needed_cap elem_size : Nat) (st : State) (vec' : RawVec) (st' : State),
      vec.cap < SIZE → RawVec_grow vec needed_cap elem_size st = Outcome.ok vec' st' →
      (vec'.inv ↔ ¬ (needed_cap = 0 ∧ vec.cap = 2 ^ 63))) ∧
    (∀ (vec : RawVec) (len additional elem_size : Nat) (st : State) (vec' : RawVec) (st' : State),
      vec.inv → RawVec_reserve vec len additional elem_size st = Outcome.ok vec' st' → vec'.inv) ∧
    (∀ (vec : RawVec) (len elem_size : Nat) (st : State) (vec' : RawVec) (st' : State),
      vec.inv → RawVec_shrink_to_fit vec len elem_size st = Outcome.ok vec' st' → vec'.inv) ∧
    (∀ (vec : RawVec) (st : State) (vec' : RawVec) (st' : State),
      vec.inv → RawVec_drop vec st = Outcome.ok vec' st' → vec'.inv) := by
  refine ⟨?_, ?_, ?_, ?_, ?_, ?_⟩
  · intro alloc
    simp [RawVec.inv, RawVec_new]
  · intro capacity e alloc st vec' st' h
    unfold RawVec_with_capacity at h
    split at h
    · rename_i hpos
      simp only at h
      split at h
      · cases h
      · rename_i hp
        cases h
        simp only [RawVec.inv]
        constructor
        · intro h0; omega
        · intro h0; exact absurd h0 hp
    · rename_i hz
      cases h
      simp only [RawVec.inv]
      constructor <;> intro _ <;> first | trivial | omega
  · intro vec n e st vec' st' hcap h
    obtain ⟨hle, hp, -, hloop⟩ := RawVec_grow_ok _ _ _ _ _ _ h
    have hS : SIZE = 2 ^ 64 := rfl
    simp only [RawVec.inv]
    constructor
    · rintro hinv ⟨hn, hc⟩
      subst hn
      have hc0 := RawVec_grow_loop_zero _ _ _ hloop
      rw [hc, if_neg (by norm_num)] at hc0
      have hz : (2 ^ 63 * 2 % SIZE : Nat) = 0 := by rw [hS]; norm_num
      rw [hz] at hc0
      exact hp (hinv.mp hc0)
    · intro hcond
      have hne : vec'.cap ≠ 0 := by
        rcases Nat.eq_zero_or_pos n with hn | hn
        · subst hn
          have hc := RawVec_grow_loop_zero _ _ _ hloop
          rw [hc]
          have hc63 : vec.cap ≠ 2 ^ 63 := fun hc63 => hcond ⟨rfl, hc63⟩
          rw [hS] at hcap ⊢
          split
          · omega
          · omega
        · omega
      exact ⟨fun h0 => absurd h0 hne, fun h0 => absurd h0 hp⟩
  · intro vec len additional e st vec' st' hinv h
    exact (RawVec_reserve_ok _ _ _ _ _ _ _ h).2.2.2 hinv
  · intro vec len e st vec' st' hinv h
    unfold RawVec_shrink_to_fit at h
    split at h
    · rename_i hlt
      split at h
      · cases h; simp [RawVec.inv]
      · rename_i hne
        simp only at h
        split at h
        · cases h
        · rename_i hp
          cases h
          simp only [RawVec.inv]
          exact ⟨fun h0 => absurd h0 hne, fun h0 => absurd h0 hp⟩
    · cases h; exact hinv
  · intro vec st vec' st' hinv h
    unfold RawVec_drop at h
    split at h
    · cases h; simp [RawVec.inv]
    · cases h; exact hinv

/-- C4, witness: the invariant after growing and after shrinking to length 0 a buffer of
capacity 4. -/
theorem RawVec_inv_preserved_witness :
    (∃ vec' st', RawVec_grow rawvec4 3 1 state4 = Outcome.ok vec' st' ∧ vec'.inv) ∧
    (∃ vec' st', RawVec_shrink_to_fit rawvec4 0 1 state4 = Outcome.ok vec' st' ∧ vec'.inv) := by
  obtain ⟨st', h⟩ := grow4
  have hs : RawVec_shrink_to_fit rawvec4 0 1 state4
      = Outcome.ok { ptr := NULL, cap := 0, alloc := rawvec4.alloc }
          (call_deallocate rawvec4.alloc state4 rawvec4.ptr) := rfl
  exact ⟨⟨_, st', h, (RawVec_inv_preserved.2.2.1 rawvec4 3 1 state4 _ st' (by decide) h).mpr (by decide)⟩,
    ⟨_, _, hs, RawVec_inv_preserved.2.2.2.2.1 rawvec4 0 1 state4 _ _
      (by simp [RawVec.inv, rawvec4, NULL]) hs⟩⟩


/-! ### `Vec` -/

theorem Vec_reserve_ok (vec : Vec) (additional e : Nat) (st : State) (vec' : Vec) (st' : State)
    (h : Vec_reserve vec additional e st = Outcome.ok vec' st') :
    vec'.len = vec.len ∧ (vec.len + additional) % SIZE ≤ vec'.buf.cap ∧
      vec.buf.cap ≤ vec'.buf.cap ∧ vec'.buf.alloc = vec.buf.alloc := by
  unfold Vec_reserve at h
  rw [Outcome.bind_eq_ok] at h
  obtain ⟨buf, st1, hr, h⟩ := h
  cases h
  obtain ⟨h1, h2, h3, -⟩ := RawVec_reserve_ok _ _ _ _ _ _ _ hr
  exact ⟨rfl, h1, h2, h3⟩

theorem Vec_push_ok (vec : Vec) (value : List Nat) (e : Nat) (st : State) (vec' : Vec)
    (st' : State) (h : Vec_push vec value e st = Outcome.ok vec' st') :
    vec'.len = (vec.len + 1) % SIZE ∧ vec.buf.cap ≤ vec'.buf.cap ∧
      (vec.len = vec.buf.cap → (vec.len + 1) % SIZE ≤ vec'.buf.cap) ∧
      (vec.len ≠ vec.buf.cap → vec'.buf = vec.buf ∧ st'.calls = st.calls) := by
  unfold Vec_push at h
  rw [Outcome.bind_eq_ok] at h
  obtain ⟨buf, st1, hr, h⟩ := h
  split at h
  · cases h
  · cases h
    simp only [Vec_capacity, RawVec_capacity] at hr
    split at hr
    · obtain ⟨h1, h2, -, -⟩ := RawVec_reserve_ok _ _ _ _ _ _ _ hr
      exact ⟨rfl, h2, fun _ => h1, fun hne => absurd ‹vec.len = vec.buf.cap› hne⟩
    · cases hr
      exact ⟨rfl, le_refl _, fun heq => absurd heq ‹¬ vec.len = vec.buf.cap›, fun _ => ⟨rfl, rfl⟩⟩

/-- C5: the invariant `len ≤ cap` holds for `Vec_new` and for every result of
`Vec_with_capacity`, and every operation of `vec.h` (`Vec_reserve`, `Vec_push`, `Vec_pop`,
`Vec_set`, `Vec_clear`, `Vec_truncate`, `Vec_resize`, `Vec_drop`) that returns, with
arguments that are values of `size_t`, preserves it. -/
theorem Vec_inv_preserved :
    Vec_new.inv ∧
    (∀ (capacity elem_size : Nat) (st : State) (vec : Vec) (st' : State),
      Vec_with_capacity capacity elem_size st = Outcome.ok vec st' → vec.inv) ∧
    (∀ (op : VecOp) (vec : Vec) (st : State) (vec' : Vec) (st' : State),
      vec.inv → op.in_range → op.run vec st = Outcome.ok vec' st' → vec'.inv) := by
  refine ⟨?_, ?_, ?_⟩
  · simp [Vec.inv, Vec_new]
  · intro capacity e st vec st' h
    unfold Vec_with_capacity at h
    rw [Outcome.bind_eq_ok] at h
    obtain ⟨buf, st1, -, h⟩ := h
    cases h
    simp [Vec.inv]
  · intro op vec st vec' st' hinv hr h
    unfold Vec.inv at hinv ⊢
    cases op with
    | reserve additional e =>
      obtain ⟨h1, -, h3, -⟩ := Vec_reserve_ok _ _ _ _ _ _ h
      omega
    | push value e =>
      obtain ⟨h1, h2, h3, -⟩ := Vec_push_ok _ _ _ _ _ _ h
      by_cases heq : vec.len = vec.buf.cap
      · have := h3 heq; omega
      · have := Nat.mod_le (vec.len + 1) SIZE
        omega
    | pop out e =>
      simp only [VecOp.run] at h
      rw [Outcome.bind_eq_ok] at h
      obtain ⟨r, st1, hp, h⟩ := h
      cases h
      unfold Vec_pop at hp
      split at hp
      · cases hp; exact hinv
      · split at hp
        · cases hp
        · cases hp; simp only; omega
    | set index value e =>
      simp only [VecOp.run, Vec_set] at h
      split at h
      · split at h
        · cases h
        · cases h; exact hinv
      · cases h
    | clear =>
      simp only [VecOp.run, Vec_clear] at h
      cases h; simp
    | truncate new_len =>
      simp only [VecOp.run, Vec_truncate] at h
      cases h
      split
      · simp only; omega
      · exact hinv
    | resize new_len value e =>
      simp only [VecOp.run, Vec_resize] at h
      simp only [VecOp.in_range] at hr
      split at h
      · rename_i hgt
        rw [Outcome.bind_eq_ok] at h
        obtain ⟨v, st1, hres, h⟩ := h
        split at h
        · cases h
        · cases h
          obtain ⟨-, h2, -, -⟩ := Vec_reserve_ok _ _ _ _ _ _ hres
          have hsum : vec.len + (new_len - vec.len) = new_len := by omega
          rw [hsum, Nat.mod_eq_of_lt hr.1] at h2
          exact h2
      · cases h; simp only; omega
    | drop =>
      simp only [VecOp.run, Vec_drop] at h
      rw [Outcome.bind_eq_ok] at h
      obtain ⟨buf, st1, -, h⟩ := h
      cases h; simp

theorem vec1_built : ∃ st', Vec_push Vec_new [7] 1 state0 = Outcome.ok vec1 st' := by
  simp [Vec_push, Vec_new, Vec_capacity, RawVec_capacity, RawVec_new, RawVec_reserve, RawVec_grow,
    RawVec_grow_loop, GROW_FUEL, call_allocate, GLOBAL_ALLOCATOR, malloc, state0, heap0, NULL, SIZE,
    Outcome.bind, memcpy_to, store, Heap.block, fresh_bytes, vec1]

/-- C5, witness: the invariant after one `Vec_push` on `Vec_new`. -/
theorem Vec_inv_preserved_witness :
    ∃ vec' st', (VecOp.push [7] 1).run Vec_new state0 = Outcome.ok vec' st' ∧ vec'.inv := by
  obtain ⟨st', h⟩ := vec1_built
  exact ⟨vec1, st', h, Vec_inv_preserved.2.2 (VecOp.push [7] 1) Vec_new state0 vec1 st'
    Vec_inv_preserved.1 (by simp [VecOp.in_range, SIZE]) h⟩


/-! ### `Vec` over the heap of the global allocator -/

theorem fresh_bytes_length (h : Heap) (base size : Nat) : (fresh_bytes h base size).length = size := by
  simp [fresh_bytes]

theorem flatten_length_of_forall (e : Nat) (elems : List (List Nat))
    (h : ∀ x, x ∈ elems → x.length = e) : elems.flatten.length = elems.length * e := by
  induction elems with
  | nil => simp
  | cons x xs ih =>
    have hx := h x (List.mem_cons_self _ _)
    have hxs := ih (fun y hy => h y (List.mem_cons_of_mem _ hy))
    simp [hx, hxs, Nat.succ_mul]
    omega

/-- The first value of a doubling sequence that reaches `n` is below `2 * n` when the
sequence starts at 1 or at twice a capacity below `n`. -/
theorem first_doubling_lt (c n k : Nat) (hlt : c < n)
    (hfirst : ∀ j, j < k → (if c = 0 then 1 else 2 * c) * 2 ^ j < n) :
    (if c = 0 then 1 else 2 * c) * 2 ^ k < 2 * n := by
  rcases k with _ | k
  · split <;> simp <;> omega
  · have := hfirst k (by omega)
    rw [pow_succ]
    generalize (if c = 0 then 1 else 2 * c) = s at this ⊢
    have hring : s * (2 ^ k * 2) = s * 2 ^ k * 2 := by ring
    omega

/-- `RawVec_grow` of a RawVec of the global allocator, when the call does not abort
(the allocation request is answered): it returns, and the new region starts with the
bytes of the old one. -/
theorem RawVec_grow_global (vec : RawVec) (n e c : Nat) (st : State) (old : List Nat)
    (ha : vec.alloc = GLOBAL_ALLOCATOR)
    (hno : RawVec_grow vec n e st ≠ Outcome.abort)
    (hloop : RawVec_grow_loop GROW_FUEL (if vec.cap = 0 then 1 else vec.cap * 2 % SIZE) n = some c)
    (hsize : c * e < SIZE)
    (hold : (vec.ptr = NULL ∧ old = []) ∨ (vec.ptr ≠ NULL ∧ st.heap.blocks vec.ptr = some old))
    (hlen : old.length ≤ c * e) :
    ∃ vec' st', RawVec_grow vec n e st = Outcome.ok vec' st' ∧ vec'.cap = c ∧
      vec'.alloc = GLOBAL_ALLOCATOR ∧ vec'.ptr ≠ NULL ∧
      ∃ b, st'.heap.blocks vec'.ptr = some b ∧ b.length = c * e ∧ b.take old.length = old := by
  unfold RawVec_grow at hno ⊢
  rw [hloop] at hno ⊢
  simp only [ha, Nat.mod_eq_of_lt hsize] at hno ⊢
  rcases hold with ⟨hp, hold⟩ | ⟨hp, hold⟩
  · subst hold
    rw [if_pos hp] at hno ⊢
    have hoom : st.heap.oom st.heap.tick = false := by
      by_contra hc
      simp only [Bool.not_eq_false] at hc
      apply hno
      simp [call_allocate, GLOBAL_ALLOCATOR, malloc, hc]
    simp only [call_allocate, GLOBAL_ALLOCATOR, malloc, hoom, Bool.false_eq_true, if_false]
    rw [if_neg (by simp [NULL])]
    refine ⟨_, _, rfl, rfl, rfl, by simp [NULL], ?_⟩
    simp [fresh_bytes_length]
  · rw [if_neg hp] at hno ⊢
    have hsz : ¬ c * e = 0 := by
      intro hc
      apply hno
      simp [call_reallocate, GLOBAL_ALLOCATOR, realloc_wrapper, realloc, hold, if_neg hp, hc]
    have hoom : st.heap.oom st.heap.tick = false := by
      by_contra hc
      simp only [Bool.not_eq_false] at hc
      apply hno
      simp [call_reallocate, GLOBAL_ALLOCATOR, realloc_wrapper, realloc, hold, if_neg hp, hc, hsz]
    simp only [call_reallocate, GLOBAL_ALLOCATOR, realloc_wrapper, realloc, hoom, hold, if_neg hp,
      Bool.false_eq_true, if_false, hsz]
    rw [if_neg (by simp [NULL])]
    refine ⟨_, _, rfl, rfl, rfl, by simp [NULL], ?_⟩
    simp only [Function.update_same]
    refine ⟨_, rfl, ?_, ?_⟩
    · simp [fresh_bytes_length]; omega
    · rw [List.take_of_length_le hlen, List.take_left]

/-- `RawVec_reserve` on the buffer of a Vec that holds `elems`, with sizes that do not
overflow, when the call does not abort: it returns, and the Vec still holds `elems`, now
with room for `additional` more. -/
theorem RawVec_reserve_holds (vec : Vec) (additional e : Nat) (st : State)
    (elems : List (List Nat)) (hh : vec.holds e st.heap elems)
    (hno : RawVec_reserve vec.buf vec.len additional e st ≠ Outcome.abort)
    (hn : 2 * (vec.len + additional) ≤ SIZE) (hne : 2 * (vec.len + additional) * e ≤ SIZE) :
    ∃ buf' st', RawVec_reserve vec.buf vec.len additional e st = Outcome.ok buf' st' ∧
      Vec.holds { buf := buf', len := vec.len } e st'.heap elems ∧
      vec.len + additional ≤ buf'.cap := by
  obtain ⟨ha, hlen, hle, hcap, hcape, hel, hblk⟩ := hh
  have hS : SIZE = 2 ^ 64 := rfl
  have hmod : (vec.len + additional) % SIZE = vec.len + additional :=
    Nat.mod_eq_of_lt (by omega)
  unfold RawVec_reserve at hno ⊢
  simp only [hmod] at hno ⊢
  by_cases hgt : vec.len + additional > vec.buf.cap
  · rw [if_pos hgt] at hno ⊢
    obtain ⟨k, hloop, hk, hfirst, hov⟩ :=
      RawVec_grow_loop_total vec.buf.cap (vec.len + additional) hgt (by omega)
    have hlt2 := first_doubling_lt vec.buf.cap (vec.len + additional) k hgt hfirst
    generalize hc : (if vec.buf.cap = 0 then 1 else 2 * vec.buf.cap) * 2 ^ k = c at *
    have hsize : c * e < SIZE := by
      rcases Nat.eq_zero_or_pos e with he | he
      · subst he; simp [hS]
      · calc c * e < 2 * (vec.len + additional) * e := Nat.mul_lt_mul_of_pos_right hlt2 he
          _ ≤ SIZE := hne
    have hcc : vec.buf.cap * e ≤ c * e := Nat.mul_le_mul_right e (by omega)
    rcases hblk with ⟨hp, hc0⟩ | ⟨hp, b, hb, hbl, hbt⟩
    · obtain ⟨vec', st', hg, hcap', ha', hp', b', hb', hbl', -⟩ :=
        RawVec_grow_global vec.buf _ e c st [] ha hno hloop hsize (Or.inl ⟨hp, rfl⟩) (by simp)
      refine ⟨vec', st', hg, ⟨ha', hlen, by simp only; omega, by simp only; omega,
        by simp only; rw [hcap']; exact hsize, hel, Or.inr ⟨hp', b', hb', by rw [hcap']; exact hbl', ?_⟩⟩,
        by omega⟩
      have hl0 : vec.len = 0 := by omega
      have he0 : elems = [] := List.eq_nil_of_length_eq_zero (by omega)
      simp [hl0, he0]
    · obtain ⟨vec', st', hg, hcap', ha', hp', b', hb', hbl', hbt'⟩ :=
        RawVec_grow_global vec.buf _ e c st b ha hno hloop hsize (Or.inr ⟨hp, hb⟩) (by omega)
      refine ⟨vec', st', hg, ⟨ha', hlen, by simp only; omega, by simp only; omega,
        by simp only; rw [hcap']; exact hsize, hel, Or.inr ⟨hp', b', hb', by rw [hcap']; exact hbl', ?_⟩⟩,
        by omega⟩
      have hle' : vec.len * e ≤ b.length := by rw [hbl]; exact Nat.mul_le_mul_right e hle
      simp only
      rw [← hbt, ← hbt', List.take_take, Nat.min_eq_left hle']
  · rw [if_neg hgt]
    exact ⟨vec.buf, st, rfl, ⟨ha, hlen, hle, hcap, hcape, hel, hblk⟩, by omega⟩

/-- `Vec_push` on a Vec that holds `elems`, when the call does not abort: it returns
and the Vec holds `elems` followed by the value pushed. -/
theorem Vec_push_holds (vec : Vec) (value : List Nat) (e : Nat) (st : State)
    (elems : List (List Nat)) (hh : vec.holds e st.heap elems) (hv : value.length = e)
    (hno : Vec_push vec value e st ≠ Outcome.abort)
    (hn : 2 * (vec.len + 1) ≤ SIZE) (hne : 2 * (vec.len + 1) * e ≤ SIZE) :
    ∃ vec' st', Vec_push vec value e st = Outcome.ok vec' st' ∧
      vec'.holds e st'.heap (elems ++ [value]) := by
  have hS : SIZE = 2 ^ 64 := rfl
  have hstep : ∃ buf1 st1,
      (if vec.len = Vec_capacity vec then RawVec_reserve vec.buf vec.len 1 e st
        else Outcome.ok vec.buf st) = Outcome.ok buf1 st1 ∧
      Vec.holds { buf := buf1, len := vec.len } e st1.heap elems ∧
      vec.len + 1 ≤ buf1.cap := by
    by_cases heq : vec.len = Vec_capacity vec
    · rw [if_pos heq]
      refine RawVec_reserve_holds vec 1 e st elems hh ?_ hn hne
      intro habort
      apply hno
      simp only [Vec_push, if_pos heq, habort, Outcome.bind]
    · rw [if_neg heq]
      have hle := hh.2.2.1
      simp only [Vec_capacity, RawVec_capacity] at heq
      exact ⟨vec.buf, st, rfl, hh, by omega⟩
  obtain ⟨buf1, st1, h1, ⟨ha, hlen, hle, hcap, hcape, hel, hblk⟩, hroom⟩ := hstep
  simp only at hlen hle hcap hcape hblk
  unfold Vec_push
  rw [h1]
  simp only [Outcome.bind]
  have hoff : vec.len * e % SIZE = vec.len * e :=
    Nat.mod_eq_of_lt (lt_of_le_of_lt (Nat.mul_le_mul_right e hle) hcape)
  have hlen1 : (vec.len + 1) % SIZE = vec.len + 1 := Nat.mod_eq_of_lt (by omega)
  have hel' : ∀ x, x ∈ elems ++ [value] → x.length = e := by
    intro x hx
    rcases List.mem_append.mp hx with hx | hx
    · exact hel x hx
    · simp at hx; rw [hx]; exact hv
  have hfl : elems.flatten.length = vec.len * e := by
    rw [flatten_length_of_forall e elems hel, hlen]
  simp only [memcpy_to, hv, lt_irrefl, if_false, List.take_of_length_le (le_of_eq hv), hoff, hlen1]
  rcases hblk with ⟨hp, hc0⟩ | ⟨hp, b, hb, hbl, hbt⟩
  · omega
  · rcases Nat.eq_zero_or_pos e with he | he
    · subst he
      have hv0 : value = [] := List.eq_nil_of_length_eq_zero hv
      subst hv0
      simp only [store, List.length_nil, if_true]
      refine ⟨_, _, rfl, ⟨ha, by simp [hlen], by simp only; omega, hcap, hcape, hel',
        Or.inr ⟨hp, b, hb, hbl, ?_⟩⟩⟩
      have : elems.flatten = [] := List.eq_nil_of_length_eq_zero (by rw [hfl]; simp)
      simp [this]
    · have hfit : vec.len * e + value.length ≤ b.length := by
        rw [hbl, hv]
        calc vec.len * e + e = (vec.len + 1) * e := by ring
          _ ≤ buf1.cap * e := Nat.mul_le_mul_right e hroom
      simp only [store, hv, Nat.pos_iff_ne_zero.mp he, if_false, Heap.block, if_neg hp, hb]
      rw [if_pos (by rw [hv] at hfit; exact hfit)]
      refine ⟨_, _, rfl, ⟨ha, by simp [hlen], by simp only; omega, hcap, hcape, hel',
        Or.inr ⟨hp, _, Function.update_same _ _ _, ?_, ?_⟩⟩⟩
      · simp only [List.length_append, List.length_take, List.length_drop, hv]
        rw [hv] at hfit
        omega
      · simp only
        have h1 : (vec.len + 1) * e = (List.take (vec.len * e) b ++ value).length := by
          simp only [List.length_append, List.length_take, hv]
          rw [hv] at hfit
          have : (vec.len + 1) * e = vec.len * e + e := by ring
          omega
        rw [h1, List.take_left, hbt]
        simp


/-- `Vec_pop` on a Vec that holds `elems` followed by `x`: it returns `x` and the Vec
holds `elems`; nothing else changes. -/
theorem Vec_pop_holds (vec : Vec) (out : List Nat) (e : Nat) (st : State)
    (elems : List (List Nat)) (x : List Nat) (hh : vec.holds e st.heap (elems ++ [x])) :
    Vec_pop vec out e st
        = Outcome.ok (true, x ++ out.drop e, { buf := vec.buf, len := vec.len - 1 }) st ∧
      Vec.holds { buf := vec.buf, len := vec.len - 1 } e st.heap elems := by
  obtain ⟨ha, hlen, hle, hcap, hcape, hel, hblk⟩ := hh
  simp only [List.length_append, List.length_singleton] at hlen
  have hx : x.length = e := hel x (by simp)
  have hel' : ∀ y, y ∈ elems → y.length = e := fun y hy => hel y (by simp [hy])
  have hfl : elems.flatten.length = (vec.len - 1) * e := by
    rw [flatten_length_of_forall e elems hel']; congr 1; omega
  have hoff : (vec.len - 1) * e % SIZE = (vec.len - 1) * e :=
    Nat.mod_eq_of_lt (lt_of_le_of_lt (Nat.mul_le_mul_right e (by omega)) hcape)
  have hsplit : vec.len * e = (vec.len - 1) * e + e := by
    have : vec.len = (vec.len - 1) + 1 := by omega
    conv_lhs => rw [this]
    ring
  unfold Vec_pop
  rw [if_neg (by omega)]
  simp only [hoff]
  rcases hblk with ⟨hp, hc0⟩ | ⟨hp, b, hb, hbl, hbt⟩
  · omega
  · have hbt1 : b.take ((vec.len - 1) * e) = elems.flatten := by
      have := congrArg (List.take ((vec.len - 1) * e)) hbt
      rw [List.take_take, Nat.min_eq_left (by omega)] at this
      rw [this]
      simp only [List.flatten_append, List.flatten_singleton, List.flatten_nil, List.append_nil]
      rw [← hfl, List.take_left]
    have hholds : Vec.holds { buf := vec.buf, len := vec.len - 1 } e st.heap elems :=
      ⟨ha, by simp only; omega, by simp only; omega, hcap, hcape, hel',
        Or.inr ⟨hp, b, hb, hbl, hbt1⟩⟩
    refine ⟨?_, hholds⟩
    rcases Nat.eq_zero_or_pos e with he | he
    · subst he
      have hx0 : x = [] := List.eq_nil_of_length_eq_zero hx
      simp [load, hx0]
    · have hfit : (vec.len - 1) * e + e ≤ b.length := by
        rw [hbl, ← hsplit]; exact Nat.mul_le_mul_right e hle
      have hread : List.take e (List.drop ((vec.len - 1) * e) b) = x := by
        rw [List.take_drop, ← hsplit, hbt]
        simp only [List.flatten_append, List.flatten_singleton, List.flatten_nil, List.append_nil]
        rw [← hfl, List.drop_left]
      simp only [load, Nat.pos_iff_ne_zero.mp he, if_false, Heap.block, if_neg hp, hb, if_pos hfit,
        hread]

/-- `Vec_push_all` on a Vec that holds `elems`, when the run does not abort: it returns
and the Vec holds `elems` followed by the values pushed, in order. -/
theorem Vec_push_all_holds (e : Nat) (vals : List (List Nat)) :
    ∀ (vec : Vec) (st : State) (elems : List (List Nat)), vec.holds e st.heap elems →
      (∀ x, x ∈ vals → x.length = e) → Vec_push_all e vals vec st ≠ Outcome.abort →
      2 * (vec.len + vals.length) ≤ SIZE → 2 * (vec.len + vals.length) * e ≤ SIZE →
      ∃ vec' st', Vec_push_all e vals vec st = Outcome.ok vec' st' ∧
        vec'.holds e st'.heap (elems ++ vals) := by
  induction vals with
  | nil =>
    intro vec st elems hh _ _ _ _
    exact ⟨vec, st, rfl, by simpa using hh⟩
  | cons v vs ih =>
    intro vec st elems hh hv hno hn hne
    simp only [List.length_cons] at hn hne
    have hne1 : 2 * (vec.len + 1) * e ≤ SIZE :=
      le_trans (Nat.mul_le_mul_right e (by omega)) hne
    have hno1 : Vec_push vec v e st ≠ Outcome.abort := by
      intro habort
      apply hno
      simp only [Vec_push_all, habort, Outcome.bind]
    obtain ⟨vec1, st1, h1, hh1⟩ :=
      Vec_push_holds vec v e st elems hh (hv v (by simp)) hno1 (by omega) hne1
    have hlen1 : vec1.len = vec.len + 1 := by
      rw [hh1.2.1, hh.2.1]; simp
    have hno2 : Vec_push_all e vs vec1 st1 ≠ Outcome.abort := by
      intro habort
      apply hno
      simp only [Vec_push_all, h1, Outcome.bind, habort]
    obtain ⟨vec2, st2, h2, hh2⟩ :=
      ih vec1 st1 (elems ++ [v]) hh1 (fun x hx => hv x (by simp [hx])) hno2
        (by rw [hlen1]; omega)
        (by rw [hlen1]; have : vec.len + 1 + vs.length = vec.len + (vs.length + 1) := by omega
            rw [this]; exact hne)
    refine ⟨vec2, st2, ?_, by simpa using hh2⟩
    simp only [Vec_push_all, h1, Outcome.bind, h2]

/-- `Vec_pop_n` on a Vec that holds `elems` followed by the reverse of `rs`: the calls
return the values of `rs` in order, each with the flag `true`, and leave the Vec holding
`elems`; the heap and the allocator calls are untouched. -/
theorem Vec_pop_n_holds (e : Nat) (rs : List (List Nat)) :
    ∀ (vec : Vec) (st : State) (elems : List (List Nat)),
      vec.holds e st.heap (elems ++ rs.reverse) →
      ∃ vec', Vec_pop_n e rs.length vec st
          = Outcome.ok (rs.map (fun x => (true, x)), vec') st ∧
        vec'.holds e st.heap elems ∧ vec'.buf = vec.buf := by
  induction rs with
  | nil =>
    intro vec st elems hh
    exact ⟨vec, rfl, by simpa using hh, rfl⟩
  | cons x xs ih =>
    intro vec st elems hh
    have hh' : vec.holds e st.heap ((elems ++ xs.reverse) ++ [x]) := by
      simpa [List.append_assoc] using hh
    have hx : x.length = e := hh'.2.2.2.2.2.1 x (by simp)
    obtain ⟨hpop, hh1⟩ := Vec_pop_holds vec (List.replicate e 0) e st _ x hh'
    obtain ⟨vec', hrest, hh2, hbuf⟩ := ih _ st elems hh1
    refine ⟨vec', ?_, hh2, by rw [hbuf]⟩
    simp only [List.length_cons, Vec_pop_n, hpop, Outcome.bind, hrest, List.map_cons]
    simp [List.drop_of_length_le]


theorem Vec_new_holds (e : Nat) (h : Heap) : Vec_new.holds e h [] := by
  refine ⟨rfl, rfl, le_refl _, ?_, ?_, ?_, Or.inl ⟨rfl, rfl⟩⟩
  · simp [Vec_new, RawVec_new, SIZE]
  · simp [Vec_new, RawVec_new, SIZE]
  · intro x hx; simp at hx

/-- C7: when every value has `elem_size` bytes and the sizes involved fit in `size_t`,
pushing `v1 .. vn` on `Vec_new` returns a Vec of length `n` unless an allocation failure
aborts the run, and `n` calls of `Vec_pop` on it then each return `true` and yield
`vn, ..., v1` in that order, leaving the Vec empty (same buffer, same machine state).  `Vec_pop` on an
empty Vec returns `false` and leaves the output buffer, the Vec and the machine state
unchanged. -/
theorem Vec_push_pop_reverse :
    (∀ (e : Nat) (vals : List (List Nat)) (st : State),
      (∀ x, x ∈ vals → x.length = e) → Vec_push_all e vals Vec_new st ≠ Outcome.abort →
      2 * vals.length ≤ SIZE → 2 * vals.length * e ≤ SIZE →
      ∃ vec st1, Vec_push_all e vals Vec_new st = Outcome.ok vec st1 ∧
        Vec_len vec = vals.length ∧
        ∃ vec', Vec_pop_n e vals.length vec st1
            = Outcome.ok (vals.reverse.map (fun x => (true, x)), vec') st1 ∧
          Vec_is_empty vec' = true ∧ vec'.buf = vec.buf) ∧
    (∀ (vec : Vec) (out : List Nat) (e : Nat) (st : State), Vec_len vec = 0 →
      Vec_pop vec out e st = Outcome.ok (false, out, vec) st) := by
  constructor
  · intro e vals st hv hno hn hne
    obtain ⟨vec, st1, hpush, hh⟩ :=
      Vec_push_all_holds e vals Vec_new st [] (Vec_new_holds e st.heap) hv hno
        (by simpa [Vec_new] using hn) (by simpa [Vec_new] using hne)
    simp only [List.nil_append] at hh
    have hh' : vec.holds e st1.heap ([] ++ vals.reverse.reverse) := by simpa using hh
    obtain ⟨vec', hpop, hh2, hbuf⟩ := Vec_pop_n_holds e vals.reverse vec st1 [] hh'
    rw [List.length_reverse] at hpop
    refine ⟨vec, st1, hpush, hh.2.1, vec', hpop, ?_, hbuf⟩
    simp [Vec_is_empty, hh2.2.1]
  · intro vec out e st hlen
    simp only [Vec_len] at hlen
    simp [Vec_pop, hlen]

theorem push123_returns :
    ∃ vec st', Vec_push_all 1 [[1], [2], [3]] Vec_new state0 = Outcome.ok vec st' :=
  ⟨_, _, rfl⟩

/-- C7, witness: pushing 1, 2, 3 and popping three times yields 3, 2, 1; popping the empty
Vec yields `false`. -/
theorem Vec_push_pop_reverse_witness :
    (∃ vec st1, Vec_push_all 1 [[1], [2], [3]] Vec_new state0 = Outcome.ok vec st1 ∧
        Vec_len vec = 3 ∧
        ∃ vec', Vec_pop_n 1 3 vec st1 = Outcome.ok ([(true, [3]), (true, [2]), (true, [1])], vec') st1 ∧
          Vec_is_empty vec' = true ∧ vec'.buf = vec.buf) ∧
    Vec_pop Vec_new [0] 1 state0 = Outcome.ok (false, [0], Vec_new) state0 :=
  ⟨Vec_push_pop_reverse.1 1 [[1], [2], [3]] state0 (by decide)
      (by obtain ⟨v, s, h⟩ := push123_returns; exact Outcome.ne_abort_of_ok _ v s h)
      (by decide) (by decide),
    Vec_push_pop_reverse.2 Vec_new [0] 1 state0 rfl⟩

/-- A value the doubling loop stops at is a `size_t` when its start is. -/
theorem RawVec_grow_loop_lt (fuel : Nat) : ∀ (s n c : Nat), s < SIZE →
    RawVec_grow_loop fuel s n = some c → c < SIZE := by
  induction fuel with
  | zero => intro s n c _ h; simp [RawVec_grow_loop] at h
  | succ f ih =>
    intro s n c hs h
    simp only [RawVec_grow_loop] at h
    split at h
    · exact ih _ n c (Nat.mod_lt _ (by decide)) h
    · cases h; exact hs

/-- The start of the doubling loop is a `size_t`. -/
theorem grow_start_lt (c : Nat) : (if c = 0 then 1 else c * 2 % SIZE) < SIZE := by
  split
  · decide
  · exact Nat.mod_lt _ (by decide)

/-- The two ways a `Vec_push` returns: after a growth, with the capacity the doubling
loop stopped at, or without touching the buffer and the allocator. -/
theorem Vec_push_cases (vec : Vec) (value : List Nat) (e : Nat) (st : State) (vec' : Vec)
    (st' : State) (h : Vec_push vec value e st = Outcome.ok vec' st') :
    vec'.len = (vec.len + 1) % SIZE ∧
    ((vec.len = vec.buf.cap ∧ vec.buf.cap < (vec.len + 1) % SIZE ∧
        RawVec_grow_loop GROW_FUEL (if vec.buf.cap = 0 then 1 else vec.buf.cap * 2 % SIZE)
          ((vec.len + 1) % SIZE) = some vec'.buf.cap) ∨
      (vec'.buf = vec.buf ∧ st'.calls = st.calls)) := by
  unfold Vec_push at h
  rw [Outcome.bind_eq_ok] at h
  obtain ⟨buf, st1, hr, h⟩ := h
  split at h
  · cases h
  · cases h
    refine ⟨rfl, ?_⟩
    simp only [Vec_capacity, RawVec_capacity] at hr
    split at hr
    · rename_i heq
      unfold RawVec_reserve at hr
      simp only at hr
      split at hr
      · rename_i hgt
        exact Or.inl ⟨heq, hgt, (RawVec_grow_ok _ _ _ _ _ _ hr).2.2.2⟩
      · cases hr; exact Or.inr ⟨rfl, rfl⟩
    · cases hr; exact Or.inr ⟨rfl, rfl⟩

theorem RawVec_grow_loop_stuck (fuel n : Nat) (hn : 0 < n) : RawVec_grow_loop fuel 0 n = none := by
  induction fuel with
  | zero => rfl
  | succ f ih => unfold RawVec_grow_loop; rw [if_pos hn]; simpa using ih

/-- One `Vec_push` on a Vec whose capacity is `c * 2 ^ k`: the length grows by one and
the capacity stays of that form, as long as doubling it does not overflow (which for
`c = 1` would stop the call from returning). -/
theorem Vec_push_scaled (c : Nat) (vec : Vec) (value : List Nat) (e : Nat) (st : State)
    (vec' : Vec) (st' : State) (hc : 0 < c) (hcap : ∃ k, vec.buf.cap = c * 2 ^ k)
    (hle : vec.len ≤ vec.buf.cap) (hlt : vec.buf.cap < SIZE)
    (hb : c = 1 ∨ vec.len + 1 ≤ 2 ^ 63)
    (h : Vec_push vec value e st = Outcome.ok vec' st') :
    vec'.len = vec.len + 1 ∧ (∃ k, vec'.buf.cap = c * 2 ^ k) ∧ vec'.len ≤ vec'.buf.cap ∧
      vec'.buf.cap < SIZE := by
  have hS : SIZE = 2 ^ 64 := rfl
  obtain ⟨k, hk⟩ := hcap
  have hpos : 0 < vec.buf.cap := by rw [hk]; positivity
  -- the capacity is never `SIZE - 1` here
  have hne : vec.len = vec.buf.cap → vec.buf.cap + 1 < SIZE := by
    intro heq
    rcases hb with hb | hb
    · subst hb
      by_contra hcon
      have h63 : vec.buf.cap = 2 ^ 64 - 1 := by omega
      rcases k with _ | k
      · simp at hk; omega
      · rw [pow_succ] at hk; omega
    · omega
  obtain ⟨hlen, hcase⟩ := Vec_push_cases _ _ _ _ _ _ h
  rcases hcase with ⟨heq, hgt, hloop⟩ | ⟨hbuf, -⟩
  · have hlt1 := hne heq
    have hmod : (vec.len + 1) % SIZE = vec.len + 1 := Nat.mod_eq_of_lt (by omega)
    rw [hmod] at hloop hlen
    rw [if_neg (by omega)] at hloop
    by_cases h2 : vec.buf.cap * 2 < SIZE
    · rw [Nat.mod_eq_of_lt h2] at hloop
      have := RawVec_grow_loop_eq (vec.buf.cap * 2) (vec.len + 1) 0 (by intro j hj; omega)
        (by simp; omega) (by simpa using h2)
      rw [this] at hloop
      simp only [pow_zero, Nat.mul_one, Option.some.injEq] at hloop
      refine ⟨hlen, ⟨k + 1, ?_⟩, by omega, by omega⟩
      rw [← hloop, hk, pow_succ]; ring
    · exfalso
      rcases hb with hb | hb
      · subst hb
        have hk63 : k = 63 := by
          have h1 : 2 ^ k < 2 ^ 64 := by rw [← hS]; simpa [hk] using hlt
          have h2' : 2 ^ 64 ≤ 2 ^ (k + 1) := by
            have := Nat.le_of_not_lt h2
            rw [hk, hS] at this
            rw [pow_succ]; omega
          have hk1 : k < 64 := (Nat.pow_lt_pow_iff_right (by norm_num)).mp h1
          have hk2 : 64 ≤ k + 1 := (Nat.pow_le_pow_iff_right (by norm_num)).mp h2'
          omega
        subst hk63
        have hz : vec.buf.cap * 2 % SIZE = 0 := by rw [hk, hS]; norm_num
        rw [hz, RawVec_grow_loop_stuck _ _ (by omega)] at hloop
        cases hloop
      · omega
  · rw [hbuf]
    by_cases heq : vec.len = vec.buf.cap
    · have := hne heq
      rw [Nat.mod_eq_of_lt (by omega)] at hlen
      by_cases h2 : vec.buf.cap * 2 < SIZE
      all_goals
        -- without a growth the length stays below the capacity
        have hcases := Vec_push_ok _ _ _ _ _ _ h
        have := hcases.2.2.1 heq
        rw [Nat.mod_eq_of_lt (by omega)] at this
        rw [hbuf] at this
        omega
    · rw [Nat.mod_eq_of_lt (by omega)] at hlen
      exact ⟨hlen, ⟨k, hk⟩, by omega, hlt⟩

/-- Pushes on a Vec whose capacity is `c * 2 ^ k` (length and capacity only). -/
theorem Vec_push_all_scaled (c e : Nat) (vals : List (List Nat)) :
    ∀ (vec : Vec) (st : State) (vec' : Vec) (st' : State), 0 < c →
      (∃ k, vec.buf.cap = c * 2 ^ k) → vec.len ≤ vec.buf.cap → vec.buf.cap < SIZE →
      (c = 1 ∨ vec.len + vals.length ≤ 2 ^ 63) →
      Vec_push_all e vals vec st = Outcome.ok vec' st' →
      vec'.len = vec.len + vals.length ∧ (∃ k, vec'.buf.cap = c * 2 ^ k) ∧
        vec'.len ≤ vec'.buf.cap := by
  induction vals with
  | nil =>
    intro vec st vec' st' _ hcap hle _ _ h
    simp only [Vec_push_all] at h
    cases h
    exact ⟨rfl, hcap, hle⟩
  | cons v vs ih =>
    intro vec st vec' st' hc hcap hle hlt hb h
    simp only [Vec_push_all] at h
    rw [Outcome.bind_eq_ok] at h
    obtain ⟨vec1, st1, h1, h2⟩ := h
    simp only [List.length_cons] at hb ⊢
    obtain ⟨hl1, hcap1, hle1, hlt1⟩ :=
      Vec_push_scaled c vec v e st vec1 st1 hc hcap hle hlt (by omega) h1
    obtain ⟨hl2, hcap2, hle2⟩ := ih vec1 st1 vec' st' hc hcap1 hle1 hlt1 (by omega) h2
    exact ⟨by omega, hcap2, hle2⟩

/-- The first `Vec_push` on `Vec_new` leaves length 1 and capacity 1. -/
theorem Vec_push_new (value : List Nat) (e : Nat) (st : State) (vec' : Vec) (st' : State)
    (h : Vec_push Vec_new value e st = Outcome.ok vec' st') :
    vec'.len = 1 ∧ vec'.buf.cap = 1 := by
  obtain ⟨hlen, hcase⟩ := Vec_push_cases _ _ _ _ _ _ h
  have hS : SIZE = 2 ^ 64 := rfl
  have hmod : (0 + 1) % SIZE = 1 := by rw [hS]; norm_num
  simp only [Vec_new, RawVec_new, hmod] at hlen hcase
  rcases hcase with ⟨-, -, hloop⟩ | ⟨hbuf, -⟩
  · have := RawVec_grow_loop_eq 1 1 0 (by intro j hj; omega) (by simp) (by rw [hS]; norm_num)
    simp only [if_true] at hloop
    rw [this] at hloop
    simp at hloop
    exact ⟨hlen, hloop.symm⟩
  · -- without a growth the push would have stored through the null pointer of a full Vec
    have := (Vec_push_ok _ _ _ _ _ _ h).2.2.1 rfl
    simp only [Vec_new, RawVec_new, hmod] at this
    rw [hbuf] at this
    simp at this


theorem Vec_push_all_append (e : Nat) (xs ys : List (List Nat)) :
    ∀ (vec : Vec) (st : State),
      Vec_push_all e (xs ++ ys) vec st
        = (Vec_push_all e xs vec st).bind fun v s => Vec_push_all e ys v s := by
  induction xs with
  | nil => intro vec st; rfl
  | cons x xs ih =>
    intro vec st
    simp only [List.cons_append, Vec_push_all]
    cases hpush : Vec_push vec x e st with
    | ok v s => exact ih v s
    | abort => rfl
    | fault => rfl
    | diverge => rfl

/-- Pushing values of size 0 into spare capacity only counts them. -/
theorem Vec_push_all_zero_size (m : Nat) :
    ∀ (vec : Vec) (st : State), vec.len + m ≤ vec.buf.cap → vec.buf.cap < SIZE →
      Vec_push_all 0 (List.replicate m []) vec st
        = Outcome.ok { buf := vec.buf, len := vec.len + m } st := by
  induction m with
  | zero => intro vec st _ _; rfl
  | succ m ih =>
    intro vec st hle hlt
    have hne : vec.len ≠ Vec_capacity vec := by
      simp only [Vec_capacity, RawVec_capacity]; omega
    have hmod : (vec.len + 1) % SIZE = vec.len + 1 := Nat.mod_eq_of_lt (by omega)
    have hpush : Vec_push vec [] 0 st = Outcome.ok { buf := vec.buf, len := vec.len + 1 } st := by
      simp [Vec_push, hne, Outcome.bind, memcpy_to, store, hmod]
    simp only [List.replicate_succ, Vec_push_all, hpush, Outcome.bind]
    rw [ih { buf := vec.buf, len := vec.len + 1 } st (by simp only; omega) hlt]
    simp only [Nat.add_assoc, Nat.add_comm 1 m]

/-- `Vec_with_capacity`, when the call does not abort: it returns an empty Vec that owns
`capacity * elem_size` bytes. -/
theorem Vec_with_capacity_holds (c e : Nat) (st : State)
    (hno : Vec_with_capacity c e st ≠ Outcome.abort) (hc : c < SIZE) (hce : c * e < SIZE) :
    ∃ vec st', Vec_with_capacity c e st = Outcome.ok vec st' ∧ vec.holds e st'.heap [] ∧
      vec.buf.cap = c ∧ vec.len = 0 := by
  unfold Vec_with_capacity RawVec_with_capacity at hno ⊢
  rcases Nat.eq_zero_or_pos c with h0 | hpos
  · subst h0
    simp only [gt_iff_lt, lt_irrefl, if_false, Outcome.bind]
    exact ⟨_, _, rfl, ⟨rfl, rfl, le_refl _, hc, hce, by intro x hx; simp at hx,
      Or.inl ⟨rfl, rfl⟩⟩, rfl, rfl⟩
  · have hoom : st.heap.oom st.heap.tick = false := by
      by_contra hcon
      simp only [Bool.not_eq_false] at hcon
      apply hno
      simp [hpos, call_allocate, GLOBAL_ALLOCATOR, malloc, hcon, Outcome.bind]
    simp only [gt_iff_lt, hpos, if_true, call_allocate, GLOBAL_ALLOCATOR, malloc, hoom,
      Bool.false_eq_true, if_false, Nat.mod_eq_of_lt hce]
    rw [if_neg (by simp [NULL])]
    simp only [Outcome.bind]
    exact ⟨_, _, rfl, ⟨rfl, rfl, Nat.zero_le _, hc, hce, by intro x hx; simp at hx,
      Or.inr ⟨by simp [NULL], _, Function.update_same _ _ _, by simp [fresh_bytes_length],
        by simp⟩⟩, rfl, rfl⟩

theorem Vec_with_capacity_ok (c e : Nat) (st : State) (vec : Vec) (st' : State)
    (h : Vec_with_capacity c e st = Outcome.ok vec st') : vec.len = 0 ∧ vec.buf.cap = c := by
  unfold Vec_with_capacity at h
  rw [Outcome.bind_eq_ok] at h
  obtain ⟨buf, st1, hb, h⟩ := h
  cases h
  refine ⟨rfl, ?_⟩
  unfold RawVec_with_capacity at hb
  split at hb
  · simp only at hb
    split at hb
    · cases hb
    · cases hb; rfl
  · cases hb; rfl

/-- One `Vec_push` on a Vec whose capacity is `c * 2 ^ k`, when the new length is at most
some `c * 2 ^ K` that is a `size_t`: the length grows by one and the capacity stays of
that form. -/
theorem Vec_push_bounded (c K : Nat) (vec : Vec) (value : List Nat) (e : Nat) (st : State)
    (vec' : Vec) (st' : State) (hc : 0 < c) (hcap : ∃ k, vec.buf.cap = c * 2 ^ k)
    (hle : vec.len ≤ vec.buf.cap) (hb : vec.len + 1 ≤ c * 2 ^ K) (hK : c * 2 ^ K < SIZE)
    (h : Vec_push vec value e st = Outcome.ok vec' st') :
    vec'.len = vec.len + 1 ∧ (∃ k, vec'.buf.cap = c * 2 ^ k) ∧ vec'.len ≤ vec'.buf.cap := by
  obtain ⟨k, hk⟩ := hcap
  have hpos : 0 < vec.buf.cap := by rw [hk]; positivity
  have hmod : (vec.len + 1) % SIZE = vec.len + 1 := Nat.mod_eq_of_lt (by omega)
  obtain ⟨hlen, hcase⟩ := Vec_push_cases _ _ _ _ _ _ h
  rw [hmod] at hlen hcase
  rcases hcase with ⟨heq, -, hloop⟩ | ⟨hbuf, -⟩
  · have hkK : k < K := by
      by_contra hcon
      have h1 : 2 ^ K ≤ 2 ^ k := Nat.pow_le_pow_right (by norm_num) (by omega)
      have h2 : c * 2 ^ K ≤ c * 2 ^ k := Nat.mul_le_mul_left _ h1
      omega
    have h2 : vec.buf.cap * 2 ≤ c * 2 ^ K := by
      have h1 : 2 ^ (k + 1) ≤ 2 ^ K := Nat.pow_le_pow_right (by norm_num) (by omega)
      have h3 : c * 2 ^ (k + 1) ≤ c * 2 ^ K := Nat.mul_le_mul_left _ h1
      rw [pow_succ] at h3
      rw [hk]
      calc c * 2 ^ k * 2 = c * (2 ^ k * 2) := by ring
        _ ≤ c * 2 ^ K := h3
    rw [if_neg (by omega), Nat.mod_eq_of_lt (by omega)] at hloop
    have := RawVec_grow_loop_eq (vec.buf.cap * 2) (vec.len + 1) 0 (by intro j hj; omega)
      (by simp; omega) (by simp; omega)
    rw [this] at hloop
    simp only [pow_zero, Nat.mul_one, Option.some.injEq] at hloop
    refine ⟨hlen, ⟨k + 1, ?_⟩, by omega⟩
    rw [← hloop, hk, pow_succ]; ring
  · rw [hbuf]
    by_cases heq : vec.len = vec.buf.cap
    · have := (Vec_push_ok _ _ _ _ _ _ h).2.2.1 heq
      rw [hmod, hbuf] at this
      omega
    · exact ⟨hlen, ⟨k, hk⟩, by omega⟩

/-- Pushes on a Vec whose capacity is `c * 2 ^ k`, when the final length is at most some
`c * 2 ^ K` that is a `size_t` (length and capacity only). -/
theorem Vec_push_all_bounded (c K e : Nat) (vals : List (List Nat)) :
    ∀ (vec : Vec) (st : State) (vec' : Vec) (st' : State), 0 < c →
      (∃ k, vec.buf.cap = c * 2 ^ k) → vec.len ≤ vec.buf.cap →
      vec.len + vals.length ≤ c * 2 ^ K → c * 2 ^ K < SIZE →
      Vec_push_all e vals vec st = Outcome.ok vec' st' →
      vec'.len = vec.len + vals.length ∧ (∃ k, vec'.buf.cap = c * 2 ^ k) ∧
        vec'.len ≤ vec'.buf.cap := by
  induction vals with
  | nil =>
    intro vec st vec' st' _ hcap hle _ _ h
    simp only [Vec_push_all] at h
    cases h
    exact ⟨rfl, hcap, hle⟩
  | cons v vs ih =>
    intro vec st vec' st' hc hcap hle hb hK h
    simp only [Vec_push_all] at h
    rw [Outcome.bind_eq_ok] at h
    obtain ⟨vec1, st1, h1, h2⟩ := h
    simp only [List.length_cons] at hb ⊢
    obtain ⟨hl1, hcap1, hle1⟩ :=
      Vec_push_bounded c K vec v e st vec1 st1 hc hcap hle (by omega) hK h1
    obtain ⟨hl2, hcap2, hle2⟩ := ih vec1 st1 vec' st' hc hcap1 hle1 (by omega) hK h2
    exact ⟨by omega, hcap2, hle2⟩

/-- A `Vec_push` that returns leaves a capacity that is a `size_t` when it found one. -/
theorem Vec_push_cap_lt (vec : Vec) (value : List Nat) (e : Nat) (st : State) (vec' : Vec)
    (st' : State) (hlt : vec.buf.cap < SIZE) (h : Vec_push vec value e st = Outcome.ok vec' st') :
    vec'.buf.cap < SIZE := by
  obtain ⟨-, hcase⟩ := Vec_push_cases _ _ _ _ _ _ h
  rcases hcase with ⟨-, -, hloop⟩ | ⟨hbuf, -⟩
  · exact RawVec_grow_loop_lt _ _ _ _ (grow_start_lt _) hloop
  · rw [hbuf]; exact hlt

/-- Pushes that return leave a capacity that is a `size_t` when they found one. -/
theorem Vec_push_all_cap_lt (e : Nat) (vals : List (List Nat)) :
    ∀ (vec : Vec) (st : State) (vec' : Vec) (st' : State), vec.buf.cap < SIZE →
      Vec_push_all e vals vec st = Outcome.ok vec' st' → vec'.buf.cap < SIZE := by
  induction vals with
  | nil =>
    intro vec st vec' st' hlt h
    simp only [Vec_push_all] at h
    cases h
    exact hlt
  | cons v vs ih =>
    intro vec st vec' st' hlt h
    simp only [Vec_push_all] at h
    rw [Outcome.bind_eq_ok] at h
    obtain ⟨vec1, st1, h1, h2⟩ := h
    exact ih vec1 st1 vec' st' (Vec_push_cap_lt _ _ _ _ _ _ hlt h1) h2

/-- On `Vec_with_capacity(2^64 - 1, 0)`, `2^64` pushes of values of size 0 all return
without any reallocation: the first `2^64 - 1` fill the capacity, the last one finds the
Vec full, the sum `len + 1` wraps to 0 in `RawVec_reserve`, which does nothing, and the
length wraps to 0. -/
theorem Vec_push_all_wraps :
    ∃ v0 st0, Vec_with_capacity (2 ^ 64 - 1) 0 state0 = Outcome.ok v0 st0 ∧
      Vec_push_all 0 (List.replicate (2 ^ 64) []) v0 st0
        = Outcome.ok (Vec.mk (RawVec.mk 1 (2 ^ 64 - 1) GLOBAL_ALLOCATOR) 0) st0 := by
  have hS : SIZE = 2 ^ 64 := rfl
  have h0 : Vec_with_capacity (2 ^ 64 - 1) 0 state0
      = Outcome.ok { buf := { ptr := 1, cap := 2 ^ 64 - 1, alloc := GLOBAL_ALLOCATOR }, len := 0 }
          (call_allocate GLOBAL_ALLOCATOR state0 0).2 := by
    simp [Vec_with_capacity, RawVec_with_capacity, call_allocate, GLOBAL_ALLOCATOR, malloc, state0,
      heap0, NULL, SIZE, Outcome.bind]
  have h1 := Vec_push_all_zero_size (2 ^ 64 - 1)
    { buf := { ptr := 1, cap := 2 ^ 64 - 1, alloc := GLOBAL_ALLOCATOR }, len := 0 }
    (call_allocate GLOBAL_ALLOCATOR state0 0).2 (by simp) (by rw [hS]; norm_num)
  have h2 : Vec_push
      { buf := { ptr := 1, cap := 2 ^ 64 - 1, alloc := GLOBAL_ALLOCATOR }, len := 0 + (2 ^ 64 - 1) }
      [] 0 (call_allocate GLOBAL_ALLOCATOR state0 0).2
      = Outcome.ok (Vec.mk (RawVec.mk 1 (2 ^ 64 - 1) GLOBAL_ALLOCATOR) 0)
          (call_allocate GLOBAL_ALLOCATOR state0 0).2 := by
    have hlen : (0 + (2 ^ 64 - 1) + 1) % SIZE = 0 := by rw [hS]; norm_num
    simp only [Vec_push, Vec_capacity, RawVec_capacity, Nat.zero_add, if_true, RawVec_reserve]
    simp only [Nat.zero_add] at hlen
    rw [hlen, if_neg (by norm_num)]
    simp [Outcome.bind, memcpy_to, store]
  refine ⟨_, _, h0, ?_⟩
  have hrep : List.replicate (2 ^ 64) ([] : List Nat)
      = List.replicate (2 ^ 64 - 1) [] ++ [[]] := by
    rw [show (2 ^ 64 : Nat) = (2 ^ 64 - 1) + 1 by norm_num, List.replicate_succ']
    norm_num
  rw [hrep, Vec_push_all_append, h1]
  simp only [Outcome.bind, Vec_push_all, h2]

/-- C6, as stated, fails: on `Vec_with_capacity(2^64 - 1, 0)`, `2^64` pushes of values of
size 0 all return, and no allocator operation is called by them (the machine state is
unchanged); the last push finds the Vec full, the sum `len + 1` wraps to 0 in
`RawVec_reserve`, which does nothing, and the length wraps to 0: after `2^64` pushes the
length is 0 and the capacity `2^64 - 1` is below the number of pushes. -/
theorem Vec_push_capacity_counterexample :
    ∃ v0 st0 vec st', Vec_with_capacity (2 ^ 64 - 1) 0 state0 = Outcome.ok v0 st0 ∧
      Vec_push_all 0 (List.replicate (2 ^ 64) []) v0 st0 = Outcome.ok vec st' ∧
      Vec_len vec = 0 ∧ Vec_len vec ≠ 2 ^ 64 ∧ Vec_capacity vec = 2 ^ 64 - 1 ∧
      ¬ 2 ^ 64 ≤ Vec_capacity vec ∧ st' = st0 := by
  obtain ⟨v0, st0, h0, h⟩ := Vec_push_all_wraps
  refine ⟨v0, st0, _, _, h0, h, rfl, ?_, rfl, ?_, rfl⟩
  · simp [Vec_len]
  · simp [Vec_capacity, RawVec_capacity]

/-- C6 (amended): after `n` pushes on `Vec_new` the length is `n` and, for `n ≥ 1`, the
capacity is a power of two that is at least `n`; after `n ≤ 2^63` pushes on
`Vec_with_capacity(c, elem_size)` with `c > 0` a value of `size_t` the length is `n` and
the capacity is `c * 2^k` for some `k` and at least `n`.  Both are stated for every run of pushes that
returns; the next two parts show that the pushes do return unless an allocation failure
aborts them, when every value has `elem_size` bytes and the sizes involved fit in
`size_t`.  The last two parts give the exact range of `n` in the second statement: it
holds whenever `n ≤ c * 2^K < 2^64` for some `K`, and for any other `n` no run of pushes
that returns leaves a capacity `c * 2^k` that is at least `n`. -/
theorem Vec_push_capacity :
    (∀ (e : Nat) (vals : List (List Nat)) (st : State) (vec : Vec) (st' : State),
      Vec_push_all e vals Vec_new st = Outcome.ok vec st' →
      Vec_len vec = vals.length ∧
        (1 ≤ vals.length → ∃ k, Vec_capacity vec = 2 ^ k ∧ vals.length ≤ Vec_capacity vec)) ∧
    (∀ (c e : Nat) (vals : List (List Nat)) (st : State) (v0 : Vec) (st0 : State) (vec : Vec)
        (st' : State),
      0 < c → c < SIZE → vals.length ≤ 2 ^ 63 →
      Vec_with_capacity c e st = Outcome.ok v0 st0 →
      Vec_push_all e vals v0 st0 = Outcome.ok vec st' →
      Vec_len vec = vals.length ∧
        ∃ k, Vec_capacity vec = c * 2 ^ k ∧ vals.length ≤ Vec_capacity vec) ∧
    (∀ (e : Nat) (vals : List (List Nat)) (st : State),
      (∀ x, x ∈ vals → x.length = e) → Vec_push_all e vals Vec_new st ≠ Outcome.abort →
      2 * vals.length ≤ SIZE → 2 * vals.length * e ≤ SIZE →
      ∃ vec st', Vec_push_all e vals Vec_new st = Outcome.ok vec st') ∧
    (∀ (c e : Nat) (vals : List (List Nat)) (st : State),
      (∀ x, x ∈ vals → x.length = e) →
      ((Vec_with_capacity c e st).bind fun v0 st0 => Vec_push_all e vals v0 st0) ≠ Outcome.abort →
      c < SIZE → c * e < SIZE → 2 * vals.length ≤ SIZE → 2 * vals.length * e ≤ SIZE →
      ∃ v0 st0 vec st', Vec_with_capacity c e st = Outcome.ok v0 st0 ∧
        Vec_push_all e vals v0 st0 = Outcome.ok vec st') ∧
    (∀ (c e : Nat) (vals : List (List Nat)) (st : State) (v0 : Vec) (st0 : State) (vec : Vec)
        (st' : State),
      0 < c → (∃ K, vals.length ≤ c * 2 ^ K ∧ c * 2 ^ K < SIZE) →
      Vec_with_capacity c e st = Outcome.ok v0 st0 →
      Vec_push_all e vals v0 st0 = Outcome.ok vec st' →
      Vec_len vec = vals.length ∧
        ∃ k, Vec_capacity vec = c * 2 ^ k ∧ vals.length ≤ Vec_capacity vec) ∧
    (∀ (c e : Nat) (vals : List (List Nat)) (st : State) (v0 : Vec) (st0 : State) (vec : Vec)
        (st' : State),
      c < SIZE → (¬ ∃ K, vals.length ≤ c * 2 ^ K ∧ c * 2 ^ K < SIZE) →
      Vec_with_capacity c e st = Outcome.ok v0 st0 →
      Vec_push_all e vals v0 st0 = Outcome.ok vec st' →
      ¬ ∃ k, Vec_capacity vec = c * 2 ^ k ∧ vals.length ≤ Vec_capacity vec) := by
  refine ⟨?_, ?_, ?_, ?_, ?_, ?_⟩
  · intro e vals st vec st' h
    cases vals with
    | nil =>
      simp only [Vec_push_all] at h
      cases h
      exact ⟨rfl, fun h1 => by simp at h1⟩
    | cons v vs =>
      simp only [Vec_push_all] at h
      rw [Outcome.bind_eq_ok] at h
      obtain ⟨vec1, st1, h1, h2⟩ := h
      obtain ⟨hl1, hc1⟩ := Vec_push_new v e st vec1 st1 h1
      obtain ⟨hl, ⟨k, hk⟩, hle⟩ := Vec_push_all_scaled 1 e vs vec1 st1 vec st' (by norm_num)
        ⟨0, by simpa using hc1⟩ (by omega) (by rw [hc1]; simp [SIZE]) (Or.inl rfl) h2
      simp only [Vec_len, Vec_capacity, RawVec_capacity, List.length_cons]
      refine ⟨by omega, fun _ => ⟨k, by simpa using hk, by omega⟩⟩
  · intro c e vals st v0 st0 vec st' hc hlt hn h0 h
    obtain ⟨hl0, hc0⟩ := Vec_with_capacity_ok c e st v0 st0 h0
    obtain ⟨hl, ⟨k, hk⟩, hle⟩ := Vec_push_all_scaled c e vals v0 st0 vec st' hc
      ⟨0, by simpa using hc0⟩ (by omega) (by omega) (Or.inr (by omega)) h
    simp only [Vec_len, Vec_capacity, RawVec_capacity]
    exact ⟨by omega, k, hk, by omega⟩
  · intro e vals st hv hno hn hne
    obtain ⟨vec, st', h, -⟩ :=
      Vec_push_all_holds e vals Vec_new st [] (Vec_new_holds e st.heap) hv hno
        (by simpa [Vec_new] using hn) (by simpa [Vec_new] using hne)
    exact ⟨vec, st', h⟩
  · intro c e vals st hv hno hc hce hn hne
    have hno0 : Vec_with_capacity c e st ≠ Outcome.abort := by
      intro habort
      apply hno
      simp only [habort, Outcome.bind]
    obtain ⟨v0, st0, h0, hh0, -, hl0⟩ := Vec_with_capacity_holds c e st hno0 hc hce
    have hno1 : Vec_push_all e vals v0 st0 ≠ Outcome.abort := by
      intro habort
      apply hno
      simp only [h0, Outcome.bind, habort]
    obtain ⟨vec, st', h, -⟩ :=
      Vec_push_all_holds e vals v0 st0 [] hh0 hv hno1
        (by rw [hl0]; simpa using hn) (by rw [hl0]; simpa using hne)
    exact ⟨v0, st0, vec, st', h0, h⟩
  · intro c e vals st v0 st0 vec st' hc hK h0 h
    obtain ⟨K, hn, hK⟩ := hK
    obtain ⟨hl0, hc0⟩ := Vec_with_capacity_ok c e st v0 st0 h0
    obtain ⟨hl, ⟨k, hk⟩, hle⟩ := Vec_push_all_bounded c K e vals v0 st0 vec st' hc
      ⟨0, by simpa using hc0⟩ (by omega) (by omega) hK h
    simp only [Vec_len, Vec_capacity, RawVec_capacity]
    exact ⟨by omega, k, hk, by omega⟩
  · intro c e vals st v0 st0 vec st' hc hK h0 h
    rintro ⟨k, hk, hn⟩
    obtain ⟨-, hc0⟩ := Vec_with_capacity_ok c e st v0 st0 h0
    have hlt := Vec_push_all_cap_lt e vals v0 st0 vec st' (by omega) h
    simp only [Vec_capacity, RawVec_capacity] at hk hn
    exact hK ⟨k, by omega, by omega⟩

theorem push1234_returns :
    ∃ vec st', ((Vec_with_capacity 3 1 state0).bind fun v0 st0 =>
      Vec_push_all 1 [[1], [2], [3], [4]] v0 st0) = Outcome.ok vec st' :=
  ⟨_, _, rfl⟩

/-- C6, witness: three pushes on `Vec_new`, four pushes on `Vec_with_capacity(3, 1)`, and
`2^64` pushes of values of size 0 on `Vec_with_capacity(2^64 - 1, 0)`, which leave no
capacity `(2^64 - 1) * 2^k` that is at least `2^64`. -/
theorem Vec_push_capacity_witness :
    (∃ vec st', Vec_push_all 1 [[1], [2], [3]] Vec_new state0 = Outcome.ok vec st' ∧
      Vec_len vec = 3 ∧ ∃ k, Vec_capacity vec = 2 ^ k ∧ 3 ≤ Vec_capacity vec) ∧
    (∃ v0 st0 vec st', Vec_with_capacity 3 1 state0 = Outcome.ok v0 st0 ∧
      Vec_push_all 1 [[1], [2], [3], [4]] v0 st0 = Outcome.ok vec st' ∧
      Vec_len vec = 4 ∧ ∃ k, Vec_capacity vec = 3 * 2 ^ k ∧ 4 ≤ Vec_capacity vec) ∧
    (∃ v0 st0 vec st', Vec_with_capacity (2 ^ 64 - 1) 0 state0 = Outcome.ok v0 st0 ∧
      Vec_push_all 0 (List.replicate (2 ^ 64) []) v0 st0 = Outcome.ok vec st' ∧
      ¬ ∃ k, Vec_capacity vec = (2 ^ 64 - 1) * 2 ^ k ∧
        (List.replicate (2 ^ 64) ([] : List Nat)).length ≤ Vec_capacity vec) := by
  obtain ⟨vec, st', h⟩ := Vec_push_capacity.2.2.1 1 [[1], [2], [3]] state0 (by decide)
    (by obtain ⟨v, s, h⟩ := push123_returns; exact Outcome.ne_abort_of_ok _ v s h)
    (by decide) (by decide)
  obtain ⟨v0, st0, vec2, st2, h0, h2⟩ := Vec_push_capacity.2.2.2.1 3 1 [[1], [2], [3], [4]] state0
    (by decide) (by obtain ⟨v, s, h⟩ := push1234_returns; exact Outcome.ne_abort_of_ok _ v s h)
    (by decide) (by decide) (by decide) (by decide)
  have r1 := Vec_push_capacity.1 1 [[1], [2], [3]] state0 vec st' h
  have r2 := Vec_push_capacity.2.2.2.2.1 3 1 [[1], [2], [3], [4]] state0 v0 st0 vec2 st2 (by decide)
    ⟨1, by decide, by decide⟩ h0 h2
  obtain ⟨w0, s0, hw0, hw⟩ := Vec_push_all_wraps
  have r3 := Vec_push_capacity.2.2.2.2.2 (2 ^ 64 - 1) 0 (List.replicate (2 ^ 64) []) state0 w0 s0
    _ s0 (by decide)
    (by
      rintro ⟨K, h1, h2⟩
      have hS : SIZE = 2 ^ 64 := rfl
      rw [List.length_replicate] at h1
      rw [hS] at h2
      omega)
    hw0 hw
  exact ⟨⟨vec, st', h, r1.1, r1.2 (by decide)⟩, ⟨v0, st0, vec2, st2, h0, h2, r2.1, r2.2⟩,
    ⟨w0, s0, _, s0, hw0, hw, r3⟩⟩


/-- Pushes into spare capacity touch neither the buffer nor the allocator. -/
theorem Vec_push_all_spare (e : Nat) (vals : List (List Nat)) :
    ∀ (vec : Vec) (st : State) (vec' : Vec) (st' : State),
      vec.len + vals.length ≤ vec.buf.cap → vec.len + vals.length < SIZE →
      Vec_push_all e vals vec st = Outcome.ok vec' st' →
      vec'.buf = vec.buf ∧ st'.calls = st.calls ∧ vec'.len = vec.len + vals.length := by
  induction vals with
  | nil =>
    intro vec st vec' st' _ _ h
    simp only [Vec_push_all] at h
    cases h
    exact ⟨rfl, rfl, rfl⟩
  | cons v vs ih =>
    intro vec st vec' st' hle hlt h
    simp only [List.length_cons] at hle hlt ⊢
    simp only [Vec_push_all] at h
    rw [Outcome.bind_eq_ok] at h
    obtain ⟨vec1, st1, h1, h2⟩ := h
    obtain ⟨hlen, hcase⟩ := Vec_push_cases _ _ _ _ _ _ h1
    rw [Nat.mod_eq_of_lt (by omega)] at hlen
    rcases hcase with ⟨heq, -, -⟩ | ⟨hbuf, hcalls⟩
    · omega
    · obtain ⟨hb2, hc2, hl2⟩ := ih vec1 st1 vec' st' (by rw [hbuf, hlen]; omega)
        (by rw [hlen]; omega) h2
      exact ⟨by rw [hb2, hbuf], by rw [hc2, hcalls], by rw [hl2, hlen]; omega⟩

/-- Pushes into spare capacity never abort: they make no allocator call. -/
theorem Vec_push_all_spare_no_abort (e : Nat) (vals : List (List Nat)) :
    ∀ (vec : Vec) (st : State), vec.len + vals.length ≤ vec.buf.cap →
      vec.len + vals.length < SIZE → Vec_push_all e vals vec st ≠ Outcome.abort := by
  induction vals with
  | nil =>
    intro vec st _ _ h
    simp only [Vec_push_all] at h
    cases h
  | cons v vs ih =>
    intro vec st hle hlt h
    simp only [List.length_cons] at hle hlt
    have hne : vec.len ≠ Vec_capacity vec := by
      simp only [Vec_capacity, RawVec_capacity]; omega
    cases hm : memcpy_to st.heap vec.buf.ptr (vec.len * e % SIZE) v e with
    | none =>
      simp only [Vec_push_all, Vec_push, if_neg hne, Outcome.bind, hm] at h
      cases h
    | some h1 =>
      simp only [Vec_push_all, Vec_push, if_neg hne, Outcome.bind, hm] at h
      refine ih (Vec.mk vec.buf ((vec.len + 1) % SIZE)) _ ?_ ?_ h
      · simp only; rw [Nat.mod_eq_of_lt (by omega)]; omega
      · simp only; rw [Nat.mod_eq_of_lt (by omega)]; omega

/-- C8: after `Vec_reserve(vec, k, elem_size)` has returned (with `len + k` not
overflowing), any run of at most `k` pushes that returns leaves the buffer (region,
capacity, allocator) and the list of allocator calls unchanged: no push grows the buffer.
The second part shows that on a Vec that holds its elements in an allocation of the
global allocator, with sizes that fit in `size_t`, the pushes do return after every
reserve that does not abort. -/
theorem Vec_reserve_then_push :
    (∀ (vec : Vec) (k e : Nat) (st : State) (v1 : Vec) (st1 : State) (vals : List (List Nat))
        (v2 : Vec) (st2 : State),
      vec.len + k < SIZE → Vec_reserve vec k e st = Outcome.ok v1 st1 → vals.length ≤ k →
      Vec_push_all e vals v1 st1 = Outcome.ok v2 st2 →
      Vec_capacity v2 = Vec_capacity v1 ∧ v2.buf = v1.buf ∧ st2.calls = st1.calls) ∧
    (∀ (vec : Vec) (k e : Nat) (st : State) (elems vals : List (List Nat)),
      vec.holds e st.heap elems → Vec_reserve vec k e st ≠ Outcome.abort →
      2 * (vec.len + k) ≤ SIZE → 2 * (vec.len + k) * e ≤ SIZE →
      vals.length ≤ k → (∀ x, x ∈ vals → x.length = e) →
      ∃ v1 st1 v2 st2, Vec_reserve vec k e st = Outcome.ok v1 st1 ∧
        Vec_push_all e vals v1 st1 = Outcome.ok v2 st2 ∧
        Vec_capacity v2 = Vec_capacity v1 ∧ v2.buf = v1.buf ∧ st2.calls = st1.calls) := by
  have hS : SIZE = 2 ^ 64 := rfl
  have part1 : ∀ (vec : Vec) (k e : Nat) (st : State) (v1 : Vec) (st1 : State)
      (vals : List (List Nat)) (v2 : Vec) (st2 : State),
      vec.len + k < SIZE → Vec_reserve vec k e st = Outcome.ok v1 st1 → vals.length ≤ k →
      Vec_push_all e vals v1 st1 = Outcome.ok v2 st2 →
      Vec_capacity v2 = Vec_capacity v1 ∧ v2.buf = v1.buf ∧ st2.calls = st1.calls := by
    intro vec k e st v1 st1 vals v2 st2 hov hres hk hpush
    obtain ⟨hl1, hroom, -, -⟩ := Vec_reserve_ok _ _ _ _ _ _ hres
    rw [Nat.mod_eq_of_lt hov] at hroom
    obtain ⟨hbuf, hcalls, -⟩ := Vec_push_all_spare e vals v1 st1 v2 st2 (by omega) (by omega) hpush
    exact ⟨by simp only [Vec_capacity, RawVec_capacity, hbuf], hbuf, hcalls⟩
  refine ⟨part1, ?_⟩
  intro vec k e st elems vals hh hno hn hne hk hv
  have hov : vec.len + k < SIZE := by
    rcases Nat.eq_zero_or_pos (vec.len + k) with h0 | h0
    · rw [h0, hS]; norm_num
    · omega
  have hno' : RawVec_reserve vec.buf vec.len k e st ≠ Outcome.abort := by
    intro habort
    apply hno
    simp only [Vec_reserve, habort, Outcome.bind]
  obtain ⟨buf1, st1, hres, hh1, hroom⟩ := RawVec_reserve_holds vec k e st elems hh hno' hn hne
  have hres' : Vec_reserve vec k e st = Outcome.ok (Vec.mk buf1 vec.len) st1 := by
    simp only [Vec_reserve, hres, Outcome.bind]
  have hbound : 2 * (vec.len + vals.length) ≤ SIZE := by omega
  have hbounde : 2 * (vec.len + vals.length) * e ≤ SIZE :=
    le_trans (Nat.mul_le_mul_right e (by omega)) hne
  have hno2 : Vec_push_all e vals (Vec.mk buf1 vec.len) st1 ≠ Outcome.abort :=
    Vec_push_all_spare_no_abort e vals (Vec.mk buf1 vec.len) st1 (by simp only; omega)
      (by simp only; omega)
  obtain ⟨v2, st2, hpush, -⟩ :=
    Vec_push_all_holds e vals (Vec.mk buf1 vec.len) st1 elems hh1 hv hno2 hbound hbounde
  exact ⟨_, st1, v2, st2, hres', hpush, part1 vec k e st _ st1 vals v2 st2 hov hres' hk hpush⟩

theorem reserve3_returns :
    ∃ vec st', Vec_reserve Vec_new 3 1 state0 = Outcome.ok vec st' :=
  ⟨_, _, rfl⟩

/-- C8, witness: `Vec_reserve(3)` on `Vec_new` followed by three pushes. -/
theorem Vec_reserve_then_push_witness :
    ∃ v1 st1 v2 st2, Vec_reserve Vec_new 3 1 state0 = Outcome.ok v1 st1 ∧
      Vec_push_all 1 [[1], [2], [3]] v1 st1 = Outcome.ok v2 st2 ∧
      Vec_capacity v2 = Vec_capacity v1 ∧ v2.buf = v1.buf ∧ st2.calls = st1.calls :=
  Vec_reserve_then_push.2 Vec_new 3 1 state0 [] [[1], [2], [3]] (Vec_new_holds 1 state0.heap)
    (by obtain ⟨v, s, h⟩ := reserve3_returns; exact Outcome.ne_abort_of_ok _ v s h)
    (by decide) (by decide) (by decide) (by decide)

/-! ### `String` -/

theorem string_abc_built : String_from [97, 98, 99] state0 = Outcome.ok string_abc state_abc := by
  simp [String_from, String_with_capacity, Vec_with_capacity, RawVec_with_capacity, strlen,
    c_chars, call_allocate, GLOBAL_ALLOCATOR, malloc, state0, heap0, NULL, SIZE, Outcome.bind,
    store, Heap.block, fresh_bytes, List.range, List.range.loop, string_abc, state_abc]

/-- C9 (code defect): `String_from("abc")` returns a String of length 3 and capacity 4,
the terminator filling the allocation.  `String_push` then reserves room for one more
byte only, which the capacity already has, stores the character at index 3 and faults on
the store of the terminator at index 4, outside the allocation of 4 bytes; the length it
has assigned by then, 4, equals the capacity. -/
theorem String_push_terminator_out_of_bounds :
    String_from [97, 98, 99] state0 = Outcome.ok string_abc state_abc ∧
      String_len string_abc = 3 ∧ String_capacity string_abc = 4 ∧
      Vec_reserve string_abc.vec 1 1 state_abc = Outcome.ok string_abc.vec state_abc ∧
      (∃ h1, store state_abc.heap string_abc.vec.buf.ptr 3 [100] = some h1 ∧
        store h1 string_abc.vec.buf.ptr 4 [0] = none) ∧
      (String_len string_abc + 1) % SIZE = String_capacity string_abc ∧
      String_push string_abc 100 state_abc = Outcome.fault := by
  refine ⟨string_abc_built, rfl, rfl, ?_, ?_, by decide, ?_⟩
  · simp [Vec_reserve, RawVec_reserve, Outcome.bind, SIZE, string_abc]
  · refine ⟨{ state_abc.heap with
        blocks := Function.update state_abc.heap.blocks 1 (some [97, 98, 99, 100]) }, ?_, ?_⟩
    · simp [store, Heap.block, NULL, string_abc, state_abc]
    · simp [store, Heap.block, NULL, string_abc, state_abc]
  · simp [String_push, Vec_reserve, RawVec_reserve, Outcome.bind, store, Heap.block, NULL, SIZE,
      string_abc, state_abc]


theorem Heap.block_ne_null (h : Heap) (p : Nat) (b : List Nat) (hb : h.block p = some b) :
    p ≠ NULL := by
  intro hp
  simp [Heap.block, hp] at hb

theorem Heap.block_eq_blocks (h : Heap) (p : Nat) (hp : p ≠ NULL) : h.block p = h.blocks p := by
  simp [Heap.block, hp]

/-- Reading a list into which `bytes` were written at offset `off`. -/
theorem getElem?_splice (b bytes : List Nat) (off i : Nat) (hfit : off + bytes.length ≤ b.length) :
    (b.take off ++ bytes ++ b.drop (off + bytes.length))[i]?
      = if i < off then b[i]? else if i < off + bytes.length then bytes[i - off]? else b[i]? := by
  have hl1 : (b.take off).length = off := by simp; omega
  by_cases h1 : i < off
  · rw [if_pos h1, List.append_assoc, List.getElem?_append_left (by omega), List.getElem?_take,
      if_pos h1]
  · rw [if_neg h1, List.append_assoc, List.getElem?_append_right (by omega), hl1]
    by_cases h2 : i < off + bytes.length
    · rw [if_pos h2, List.getElem?_append_left (by omega)]
    · rw [if_neg h2, List.getElem?_append_right (by omega), List.getElem?_drop]
      congr 1
      omega

/-- A `store` of at least one byte that returns: the allocation written and its new
contents. -/
theorem store_spec (h : Heap) (p off : Nat) (bytes : List Nat) (h' : Heap)
    (hs : store h p off bytes = some h') (hne : bytes.length ≠ 0) :
    ∃ b, h.block p = some b ∧ off + bytes.length ≤ b.length ∧
      h'.block p = some (b.take off ++ bytes ++ b.drop (off + bytes.length)) := by
  unfold store at hs
  rw [if_neg hne] at hs
  split at hs
  · cases hs
  · rename_i b hb
    split at hs
    · rename_i hfit
      cases hs
      have hp := Heap.block_ne_null h p b hb
      refine ⟨b, hb, hfit, ?_⟩
      simp [Heap.block, hp]
    · cases hs

theorem store_nil (h : Heap) (p off : Nat) : store h p off [] = some h := by
  simp [store]

/-- A `load` of at least one byte that returns: the allocation read and the bytes. -/
theorem load_spec (h : Heap) (p off n : Nat) (bytes : List Nat)
    (hl : load h p off n = some bytes) (hne : n ≠ 0) :
    ∃ b, h.block p = some b ∧ off + n ≤ b.length ∧ bytes = (b.drop off).take n := by
  unfold load at hl
  rw [if_neg hne] at hl
  split at hl
  · cases hl
  · rename_i b hb
    split at hl
    · rename_i hfit
      cases hl
      exact ⟨b, hb, hfit, rfl⟩
    · cases hl

/-- The byte written by a one-byte `store` is read back. -/
theorem byte_at_store (h : Heap) (p off x : Nat) (h' : Heap)
    (hs : store h p off [x] = some h') : byte_at h' p off = some x := by
  obtain ⟨b, -, hfit, hb'⟩ := store_spec h p off [x] h' hs (by simp)
  simp only [byte_at, hb']
  rw [getElem?_splice b [x] off off hfit]
  simp

/-- `Vec_reserve` on a region of the global allocator keeps every byte that lies in both
the old and the new allocation. -/
theorem Vec_reserve_bytes (vec : Vec) (additional e : Nat) (st : State) (vec' : Vec)
    (st' : State) (b : List Nat) (ha : vec.buf.alloc = GLOBAL_ALLOCATOR)
    (hb : st.heap.block vec.buf.ptr = some b)
    (h : Vec_reserve vec additional e st = Outcome.ok vec' st') :
    vec'.len = vec.len ∧ ∃ b', st'.heap.block vec'.buf.ptr = some b' ∧
      ∀ i, i < b.length → i < b'.length → b'[i]? = b[i]? := by
  have hp := Heap.block_ne_null _ _ _ hb
  rw [Heap.block_eq_blocks _ _ hp] at hb
  unfold Vec_reserve at h
  rw [Outcome.bind_eq_ok] at h
  obtain ⟨buf, st1, hr, h⟩ := h
  cases h
  refine ⟨rfl, ?_⟩
  unfold RawVec_reserve at hr
  simp only at hr
  split at hr
  · unfold RawVec_grow at hr
    split at hr
    · cases hr
    · rename_i c hc
      simp only [ha, if_neg hp, call_reallocate, GLOBAL_ALLOCATOR, realloc_wrapper, realloc, hb] at hr
      by_cases hsz : c * e % SIZE = 0
      · simp [hsz, NULL] at hr
      by_cases hoom : st.heap.oom st.heap.tick = true
      · simp [hsz, hoom, NULL] at hr
      · simp only [hsz, hoom, Bool.false_eq_true, if_false] at hr
        rw [if_neg (by simp [NULL])] at hr
        cases hr
        refine ⟨List.take (c * e % SIZE) b ++
          fresh_bytes st.heap (st.heap.next + 1 + b.length) (c * e % SIZE - b.length), ?_, ?_⟩
        · simp only [Heap.block]
          rw [if_neg (by simp [NULL])]
          exact Function.update_same _ _ _
        · intro i hi hi'
          simp only [List.length_append, List.length_take, fresh_bytes_length] at hi'
          rw [List.getElem?_append_left (by simp only [List.length_take]; omega),
            List.getElem?_take, if_pos (by omega)]
  · cases hr
    exact ⟨b, by rw [Heap.block_eq_blocks _ _ hp]; exact hb, fun _ _ _ => rfl⟩


theorem byte_at_of_block (h : Heap) (p i : Nat) (b : List Nat) (hb : h.block p = some b) :
    byte_at h p i = b[i]? := by
  simp [byte_at, hb]

theorem block_of_byte_at (h : Heap) (p i x : Nat) (hx : byte_at h p i = some x) :
    ∃ b, h.block p = some b ∧ b[i]? = some x ∧ i < b.length := by
  unfold byte_at at hx
  split at hx
  · cases hx
  · rename_i b hb
    refine ⟨b, hb, hx, ?_⟩
    by_contra hcon
    rw [List.getElem?_eq_none (by omega)] at hx
    cases hx

/-- A `memmove` of at least one byte that returns: the source range lies inside the
allocation, whose new contents are the old ones with the source bytes written at the
destination. -/
theorem memmove_spec (h : Heap) (p dst src n : Nat) (h1 : Heap) (b : List Nat)
    (hb : h.block p = some b) (hn : n ≠ 0) (hm : memmove h p dst src n = some h1) :
    src + n ≤ b.length ∧ dst + n ≤ b.length ∧
      h1.block p = some (b.take dst ++ (b.drop src).take n ++ b.drop (dst + n)) := by
  unfold memmove at hm
  split at hm
  · cases hm
  · rename_i bytes hl
    obtain ⟨b0, hb0, hfit, hbytes⟩ := load_spec h p src n bytes hl hn
    rw [hb] at hb0
    cases hb0
    have hlen : bytes.length = n := by
      rw [hbytes, List.length_take, List.length_drop]; omega
    obtain ⟨b1, hb1, hfit1, hres⟩ := store_spec h p dst bytes h1 hm (by omega)
    rw [hb] at hb1
    cases hb1
    rw [hlen] at hfit1 hres
    exact ⟨hfit, hfit1, by rw [hres, hbytes]⟩

/-- The terminator after the tail has been moved right by `k` and `k` bytes written
at `idx`. -/
theorem insert_core (h : Heap) (p idx k len : Nat) (bytes : List Nat) (h1 h2 : Heap)
    (b : List Nat) (hb : h.block p = some b) (hterm : b[len]? = some 0) (hidx : idx ≤ len)
    (hk : bytes.length = k)
    (hmove : memmove h p (idx + k) idx (len - idx + 1) = some h1)
    (hstore : store h1 p idx bytes = some h2) : byte_at h2 p (len + k) = some 0 := by
  obtain ⟨hsrc, hdst, hb1⟩ := memmove_spec h p (idx + k) idx (len - idx + 1) h1 b hb (by omega) hmove
  have hmid : ((b.drop idx).take (len - idx + 1)).length = len - idx + 1 := by
    rw [List.length_take, List.length_drop]; omega
  have hmoved : (b.take (idx + k) ++ (b.drop idx).take (len - idx + 1)
      ++ b.drop (idx + k + (len - idx + 1)))[len + k]? = some 0 := by
    have := getElem?_splice b ((b.drop idx).take (len - idx + 1)) (idx + k) (len + k)
      (by rw [hmid]; exact hdst)
    rw [hmid] at this
    rw [this, if_neg (by omega), if_pos (by omega), List.getElem?_take, if_pos (by omega),
      List.getElem?_drop]
    rw [← hterm]
    congr 1
    omega
  rcases Nat.eq_zero_or_pos k with hk0 | hkpos
  · subst hk0
    have hnil : bytes = [] := List.eq_nil_of_length_eq_zero hk
    subst hnil
    rw [store_nil] at hstore
    cases hstore
    rw [byte_at_of_block _ _ _ _ hb1]
    exact hmoved
  · obtain ⟨b1, hb1', hfit, hb2⟩ := store_spec h1 p idx bytes h2 hstore (by omega)
    rw [hb1] at hb1'
    cases hb1'
    rw [byte_at_of_block _ _ _ _ hb2, getElem?_splice _ bytes idx (len + k) hfit, if_neg (by omega),
      if_neg (by omega)]
    exact hmoved

/-- The terminator after the tail has been moved left over the byte at `idx`. -/
theorem remove_core (h : Heap) (p idx len : Nat) (h1 : Heap) (b : List Nat)
    (hb : h.block p = some b) (hterm : b[len]? = some 0) (hidx : idx < len)
    (hmove : memmove h p idx (idx + 1) (len - idx) = some h1) :
    byte_at h1 p (len - 1) = some 0 := by
  obtain ⟨hsrc, hdst, hb1⟩ := memmove_spec h p idx (idx + 1) (len - idx) h1 b hb (by omega) hmove
  have hmid : ((b.drop (idx + 1)).take (len - idx)).length = len - idx := by
    rw [List.length_take, List.length_drop]; omega
  rw [byte_at_of_block _ _ _ _ hb1]
  have := getElem?_splice b ((b.drop (idx + 1)).take (len - idx)) idx (len - 1)
    (by rw [hmid]; exact hdst)
  rw [hmid] at this
  rw [this, if_neg (by omega), if_pos (by omega), List.getElem?_take, if_pos (by omega),
    List.getElem?_drop]
  rw [← hterm]
  congr 1
  omega


theorem String_push_str_terminated (s : String) (str : List Nat) (st : State) (s' : String)
    (st' : State) (h : String_push_str s str st = Outcome.ok s' st') :
    s'.byte st' (String_len s') = some 0 := by
  unfold String_push_str at h
  rw [Outcome.bind_eq_ok] at h
  obtain ⟨v, st1, -, h⟩ := h
  split at h
  · cases h
  · split at h
    · cases h
    · rename_i h2 hs2
      cases h
      exact byte_at_store _ _ _ _ _ hs2

theorem String_push_terminated (s : String) (ch : Nat) (st : State) (s' : String)
    (st' : State) (h : String_push s ch st = Outcome.ok s' st') :
    s'.byte st' (String_len s') = some 0 := by
  unfold String_push at h
  rw [Outcome.bind_eq_ok] at h
  obtain ⟨v, st1, -, h⟩ := h
  split at h
  · cases h
  · split at h
    · cases h
    · rename_i h2 hs2
      cases h
      exact byte_at_store _ _ _ _ _ hs2

theorem String_truncate_terminated (s : String) (new_len : Nat) (st : State) (s' : String)
    (st' : State) (hle : new_len ≤ String_len s)
    (h : String_truncate s new_len st = Outcome.ok s' st') :
    s'.byte st' (String_len s') = some 0 := by
  unfold String_truncate at h
  simp only [String_len] at hle
  rw [if_pos hle] at h
  split at h
  · cases h
  · rename_i h1 hs
    cases h
    exact byte_at_store _ _ _ _ _ hs

theorem String_clear_terminated (s : String) (st : State) (s' : String) (st' : State)
    (hp : s.vec.buf.ptr ≠ NULL) (h : String_clear s st = Outcome.ok s' st') :
    s'.byte st' (String_len s') = some 0 := by
  unfold String_clear at h
  rw [if_pos hp] at h
  split at h
  · cases h
  · rename_i h1 hs
    cases h
    exact byte_at_store _ _ _ _ _ hs

theorem String_insert_terminated (s : String) (idx ch : Nat) (st : State) (s' : String)
    (st' : State) (ha : s.vec.buf.alloc = GLOBAL_ALLOCATOR) (hsz : String_len s + 1 < SIZE)
    (hterm : s.byte st (String_len s) = some 0)
    (h : String_insert s idx ch st = Outcome.ok s' st') :
    s'.byte st' (String_len s') = some 0 := by
  simp only [String_len] at hsz hterm ⊢
  obtain ⟨b, hb, hbt, hlt⟩ := block_of_byte_at _ _ _ _ hterm
  unfold String_insert at h
  split at h
  · rename_i hidx
    rw [Outcome.bind_eq_ok] at h
    obtain ⟨v, st1, hres, h⟩ := h
    obtain ⟨hvl, b1, hb1, hkeep⟩ := Vec_reserve_bytes s.vec 1 1 st v st1 b ha hb hres
    rw [hvl, Nat.mod_eq_of_lt (by omega), Nat.mod_eq_of_lt hsz] at h
    split at h
    · cases h
    · rename_i h1 hm
      split at h
      · cases h
      · rename_i h2 hs2
        cases h
        obtain ⟨hsrc, -, -⟩ := memmove_spec _ _ _ _ _ _ b1 hb1 (by omega) hm
        have hterm1 : b1[s.vec.len]? = some 0 := by
          rw [hkeep s.vec.len hlt (by omega)]; exact hbt
        exact insert_core _ _ idx 1 s.vec.len [ch] h1 h2 b1 hb1 hterm1 hidx rfl hm hs2
  · cases h

theorem String_insert_str_terminated (s : String) (idx : Nat) (str : List Nat) (st : State)
    (s' : String) (st' : State) (ha : s.vec.buf.alloc = GLOBAL_ALLOCATOR)
    (hsz : String_len s + strlen str + 1 < SIZE)
    (hterm : s.byte st (String_len s) = some 0)
    (h : String_insert_str s idx str st = Outcome.ok s' st') :
    s'.byte st' (String_len s') = some 0 := by
  simp only [String_len] at hsz hterm ⊢
  obtain ⟨b, hb, hbt, hlt⟩ := block_of_byte_at _ _ _ _ hterm
  unfold String_insert_str at h
  split at h
  · rename_i hidx
    rw [Outcome.bind_eq_ok] at h
    obtain ⟨v, st1, hres, h⟩ := h
    obtain ⟨hvl, b1, hb1, hkeep⟩ := Vec_reserve_bytes s.vec (strlen str) 1 st v st1 b ha hb hres
    rw [hvl, Nat.mod_eq_of_lt (by omega), Nat.mod_eq_of_lt (by omega)] at h
    split at h
    · cases h
    · rename_i h1 hm
      split at h
      · cases h
      · rename_i h2 hs2
        cases h
        obtain ⟨hsrc, -, -⟩ := memmove_spec _ _ _ _ _ _ b1 hb1 (by omega) hm
        have hterm1 : b1[s.vec.len]? = some 0 := by
          rw [hkeep s.vec.len hlt (by omega)]; exact hbt
        exact insert_core _ _ idx (strlen str) s.vec.len (c_chars str) h1 h2 b1 hb1 hterm1 hidx
          rfl hm hs2
  · cases h

theorem String_remove_terminated (s : String) (idx : Nat) (st : State) (r : Nat × String)
    (st' : State) (hterm : s.byte st (String_len s) = some 0)
    (h : String_remove s idx st = Outcome.ok r st') :
    r.2.byte st' (String_len r.2) = some 0 := by
  simp only [String_len] at hterm ⊢
  obtain ⟨b, hb, hbt, hlt⟩ := block_of_byte_at _ _ _ _ hterm
  unfold String_remove at h
  split at h
  · rename_i hidx
    split at h
    · cases h
    · split at h
      · cases h
      · rename_i h1 hm
        cases h
        exact remove_core _ _ idx s.vec.len h1 b hb hbt hidx hm
  · cases h


theorem string_abc_terminated : string_abc.byte state_abc (String_len string_abc) = some 0 := by
  simp [String.byte, byte_at, Heap.block, string_abc, state_abc, String_len, NULL]

theorem string_abc_push_str :
    ∃ s' st', String_push_str string_abc [100, 101] state_abc = Outcome.ok s' st' :=
  ⟨_, _, rfl⟩

theorem string_abc_remove :
    ∃ r st', String_remove string_abc 0 state_abc = Outcome.ok r st' :=
  ⟨_, _, rfl⟩

/-- C10, as stated, fails: `String_with_capacity(2)` returns a String of capacity 2 whose
bytes are indeterminate (0xAA here); `String_insert(s, 0, 'x')` on it returns, all writes
inside the allocation, with length 1 and the byte 0xAA at index 1. -/
theorem String_insert_without_terminator :
    ∃ s st s' st', String_with_capacity 2 state0 = Outcome.ok s st ∧ 0 < String_capacity s ∧
      String_insert s 0 120 st = Outcome.ok s' st' ∧ String_len s' = 1 ∧
      s'.byte st' (String_len s') = some 170 := by
  have h1 : String_with_capacity 2 state0
      = Outcome.ok (String.mk (Vec.mk (RawVec.mk 1 2 GLOBAL_ALLOCATOR) 0))
          (call_allocate GLOBAL_ALLOCATOR state0 2).2 := by
    simp [String_with_capacity, Vec_with_capacity, RawVec_with_capacity, call_allocate,
      GLOBAL_ALLOCATOR, malloc, state0, heap0, NULL, SIZE, Outcome.bind]
  have h2 : ∃ st', String_insert (String.mk (Vec.mk (RawVec.mk 1 2 GLOBAL_ALLOCATOR) 0)) 0 120
      (call_allocate GLOBAL_ALLOCATOR state0 2).2
      = Outcome.ok (String.mk (Vec.mk (RawVec.mk 1 2 GLOBAL_ALLOCATOR) 1)) st' ∧
      byte_at st'.heap 1 1 = some 170 := by
    refine ⟨_, rfl, ?_⟩
    simp [byte_at, Heap.block, call_allocate, GLOBAL_ALLOCATOR, malloc, state0, heap0, NULL,
      fresh_bytes, List.range, List.range.loop, SIZE]
  obtain ⟨st', h2, h3⟩ := h2
  exact ⟨_, _, _, st', h1, by simp [String_capacity, Vec_capacity, RawVec_capacity], h2, rfl, h3⟩


/-- C10 (amended): whenever the call returns (every write inside the allocation), the
byte at index `length` of the resulting String is 0x00 after `String_push_str`, after
`String_push`, after `String_truncate` with `new_len ≤ length` and after `String_clear` on
an allocated String; after `String_insert`, `String_insert_str` and `String_remove` it is
0x00 provided the byte at index `length` was 0x00 before the call (the String being one
of the global allocator whose new length and terminator index are values of `size_t`). -/
theorem String_terminator_after_mutation :
    (∀ (s : String) (str : List Nat) (st : State) (s' : String) (st' : State),
      String_push_str s str st = Outcome.ok s' st' → s'.byte st' (String_len s') = some 0) ∧
    (∀ (s : String) (ch : Nat) (st : State) (s' : String) (st' : State),
      String_push s ch st = Outcome.ok s' st' → s'.byte st' (String_len s') = some 0) ∧
    (∀ (s : String) (new_len : Nat) (st : State) (s' : String) (st' : State),
      new_len ≤ String_len s → String_truncate s new_len st = Outcome.ok s' st' →
      s'.byte st' (String_len s') = some 0) ∧
    (∀ (s : String) (st : State) (s' : String) (st' : State),
      0 < String_capacity s → s.vec.buf.inv → String_clear s st = Outcome.ok s' st' →
      s'.byte st' (String_len s') = some 0) ∧
    (∀ (s : String) (idx ch : Nat) (st : State) (s' : String) (st' : State),
      s.vec.buf.alloc = GLOBAL_ALLOCATOR → String_len s + 1 < SIZE →
      s.byte st (String_len s) = some 0 → String_insert s idx ch st = Outcome.ok s' st' →
      s'.byte st' (String_len s') = some 0) ∧
    (∀ (s : String) (idx : Nat) (str : List Nat) (st : State) (s' : String) (st' : State),
      s.vec.buf.alloc = GLOBAL_ALLOCATOR → String_len s + strlen str + 1 < SIZE →
      s.byte st (String_len s) = some 0 → String_insert_str s idx str st = Outcome.ok s' st' →
      s'.byte st' (String_len s') = some 0) ∧
    (∀ (s : String) (idx : Nat) (st : State) (r : Nat × String) (st' : State),
      s.byte st (String_len s) = some 0 → String_remove s idx st = Outcome.ok r st' →
      r.2.byte st' (String_len r.2) = some 0) := by
  refine ⟨String_push_str_terminated, String_push_terminated, String_truncate_terminated, ?_,
    String_insert_terminated, String_insert_str_terminated, String_remove_terminated⟩
  intro s st s' st' hcap hinv h
  refine String_clear_terminated s st s' st' ?_ h
  intro hp
  have := hinv.mpr hp
  simp only [String_capacity, Vec_capacity, RawVec_capacity] at hcap
  omega

/-- C10, witness: `String_push_str` and `String_remove` on the String `"abc"`. -/
theorem String_terminator_after_mutation_witness :
    (∃ s' st', String_push_str string_abc [100, 101] state_abc = Outcome.ok s' st' ∧
      s'.byte st' (String_len s') = some 0) ∧
    (∃ r st', String_remove string_abc 0 state_abc = Outcome.ok r st' ∧
      r.2.byte st' (String_len r.2) = some 0) := by
  obtain ⟨s', st', h1⟩ := string_abc_push_str
  obtain ⟨r, st2, h2⟩ := string_abc_remove
  exact ⟨⟨s', st', h1, String_terminator_after_mutation.1 string_abc [100, 101] state_abc s' st' h1⟩,
    ⟨r, st2, h2, String_terminator_after_mutation.2.2.2.2.2.2 string_abc 0 state_abc r st2
      string_abc_terminated h2⟩⟩

/-! ### RawVec_drop and RawVec_with_capacity -/

/-- `RawVec_drop` leaves a null region and keeps the allocator; it resets the capacity
when the region was non-null and changes nothing when it was null. -/
theorem RawVec_drop_null (vec : RawVec) (st : State) (vec' : RawVec) (st' : State)
    (h : RawVec_drop vec st = Outcome.ok vec' st') :
    vec'.ptr = NULL ∧ vec'.alloc = vec.alloc ∧ (vec.ptr ≠ NULL → vec'.cap = 0) ∧
      (vec.ptr = NULL → vec' = vec ∧ st' = st) := by
  unfold RawVec_drop at h
  split at h
  · rename_i hp
    cases h
    exact ⟨rfl, rfl, fun _ => rfl, fun h0 => absurd h0 hp⟩
  · rename_i hp
    cases h
    have hp' : vec.ptr = NULL := by
      by_contra hc; exact hp hc
    exact ⟨hp', rfl, fun h0 => absurd hp' h0, fun _ => ⟨rfl, rfl⟩⟩

/-- A RawVec returned by `RawVec_with_capacity` has capacity 0 when its region is
null. -/
theorem RawVec_with_capacity_null (n e : Nat) (alloc : Allocator) (st : State) (vec : RawVec)
    (st' : State) (h : RawVec_with_capacity n e alloc st = Outcome.ok vec st') :
    (vec.ptr = NULL → vec.cap = 0) ∧ vec.alloc = alloc := by
  unfold RawVec_with_capacity at h
  split at h
  · simp only at h
    split at h
    · cases h
    · rename_i hp
      cases h
      exact ⟨fun h0 => absurd h0 hp, rfl⟩
  · rename_i hn
    cases h
    exact ⟨fun _ => by simp only; omega, rfl⟩

/-- `RawVec_reserve` keeps "capacity 0 when the region is null". -/
theorem RawVec_reserve_null (vec : RawVec) (len additional e : Nat) (st : State)
    (vec' : RawVec) (st' : State)
    (h : RawVec_reserve vec len additional e st = Outcome.ok vec' st')
    (hv : vec.ptr = NULL → vec.cap = 0) : (vec'.ptr = NULL → vec'.cap = 0) := by
  unfold RawVec_reserve at h
  simp only at h
  split at h
  · obtain ⟨-, hp, -, -⟩ := RawVec_grow_ok _ _ _ _ _ _ h
    intro h0; exact absurd h0 hp
  · cases h; exact hv

/-- `RawVec_shrink_to_fit` keeps "capacity 0 when the region is null". -/
theorem RawVec_shrink_to_fit_null (vec : RawVec) (len e : Nat) (st : State)
    (vec' : RawVec) (st' : State)
    (h : RawVec_shrink_to_fit vec len e st = Outcome.ok vec' st')
    (hv : vec.ptr = NULL → vec.cap = 0) : (vec'.ptr = NULL → vec'.cap = 0) := by
  unfold RawVec_shrink_to_fit at h
  split at h
  · split at h
    · cases h; intro _; rfl
    · simp only at h
      split at h
      · cases h
      · rename_i hp
        cases h
        intro h0; exact absurd h0 hp
  · cases h; exact hv

/-- C17: for every RawVec and machine state, `RawVec_drop` returns a RawVec with a null
region (`RawVec_ptr` returns `NULL`) and the same allocator, having made one `deallocate`
call when the region was non-null and none otherwise, and a second `RawVec_drop` returns
the same RawVec in the same machine state: nothing changes and no call is added to the
log.  The capacity after the drop is 0 for every RawVec whose capacity is 0 when its
region is null, which is the case of `RawVec_new`, of every result of
`RawVec_with_capacity` and `RawVec_grow`, and is kept by `RawVec_reserve`,
`RawVec_shrink_to_fit` and `RawVec_drop`. -/
theorem RawVec_drop_idempotent :
    (∀ (vec : RawVec) (st : State),
      ∃ vec' st', RawVec_drop vec st = Outcome.ok vec' st' ∧
        RawVec_ptr vec' = NULL ∧ vec'.alloc = vec.alloc ∧
        ((vec.ptr = NULL → vec.cap = 0) → ∀ e, RawVec_capacity vec' e = 0) ∧
        st'.calls
          = st.calls ++ (if vec.ptr = NULL then [] else [AllocCall.deallocate vec.ptr]) ∧
        RawVec_drop vec' st' = Outcome.ok vec' st') ∧
    (∀ alloc : Allocator, (RawVec_new alloc).ptr = NULL → (RawVec_new alloc).cap = 0) ∧
    (∀ (n e : Nat) (alloc : Allocator) (st : State) (vec : RawVec) (st' : State),
      RawVec_with_capacity n e alloc st = Outcome.ok vec st' → vec.ptr = NULL → vec.cap = 0) ∧
    (∀ (vec : RawVec) (n e : Nat) (st : State) (vec' : RawVec) (st' : State),
      RawVec_grow vec n e st = Outcome.ok vec' st' → vec'.ptr = NULL → vec'.cap = 0) ∧
    (∀ (vec : RawVec) (len additional e : Nat) (st : State) (vec' : RawVec) (st' : State),
      RawVec_reserve vec len additional e st = Outcome.ok vec' st' →
      (vec.ptr = NULL → vec.cap = 0) → vec'.ptr = NULL → vec'.cap = 0) ∧
    (∀ (vec : RawVec) (len e : Nat) (st : State) (vec' : RawVec) (st' : State),
      RawVec_shrink_to_fit vec len e st = Outcome.ok vec' st' →
      (vec.ptr = NULL → vec.cap = 0) → vec'.ptr = NULL → vec'.cap = 0) := by
  refine ⟨?_, fun _ _ => rfl, ?_, ?_, ?_, ?_⟩
  · intro vec st
    by_cases hp : vec.ptr = NULL
    · refine ⟨vec, st, ?_, hp, rfl, fun hv _ => hv hp, by simp [hp], ?_⟩ <;>
        simp [RawVec_drop, hp]
    · refine ⟨{ ptr := NULL, cap := 0, alloc := vec.alloc },
        call_deallocate vec.alloc st vec.ptr, ?_, rfl, rfl, fun _ _ => rfl, ?_, ?_⟩
      · simp [RawVec_drop, hp]
      · simp [call_deallocate, hp]
      · simp [RawVec_drop]
  · intro n e alloc st vec st' h
    exact (RawVec_with_capacity_null n e alloc st vec st' h).1
  · intro vec n e st vec' st' h h0
    exact absurd h0 (RawVec_grow_ok _ _ _ _ _ _ h).2.1
  · intro vec len additional e st vec' st' h hv
    exact RawVec_reserve_null vec len additional e st vec' st' h hv
  · intro vec len e st vec' st' h hv
    exact RawVec_shrink_to_fit_null vec len e st vec' st' h hv

/-- Witness of C17: `RawVec_drop` twice on the RawVec left by
`RawVec_with_capacity(4, 1, GLOBAL_ALLOCATOR)` on the empty heap. -/
theorem RawVec_drop_idempotent_witness :
    ∃ vec' st', RawVec_drop rawvec4 state4 = Outcome.ok vec' st' ∧
      RawVec_ptr vec' = NULL ∧ RawVec_capacity vec' 1 = 0 ∧
      st'.calls = [AllocCall.allocate 4, AllocCall.deallocate 1] ∧
      RawVec_drop vec' st' = Outcome.ok vec' st' := by
  obtain ⟨vec', st', h, hp, -, hc, hcalls, h2⟩ := RawVec_drop_idempotent.1 rawvec4 state4
  exact ⟨vec', st', h, hp, hc (by decide) 1, hcalls, h2⟩

/-- C19, as stated, fails: `RawVec_with_capacity(2^62, 4, GLOBAL_ALLOCATOR)` computes
the size of its request in `size_t`, where `2^62 * 4` wraps to 0: the one allocator
call asks for 0 bytes, not for `2^62 * 4`, and the RawVec returned has capacity `2^62`
over an allocation of no bytes. -/
theorem RawVec_with_capacity_request_counterexample :
    ∃ vec st', RawVec_with_capacity (2 ^ 62) 4 GLOBAL_ALLOCATOR state0 = Outcome.ok vec st' ∧
      RawVec_capacity vec 4 = 2 ^ 62 ∧
      st'.calls = [AllocCall.allocate 0] ∧
      st'.calls ≠ [AllocCall.allocate (2 ^ 62 * 4)] ∧
      st'.heap.blocks vec.ptr = some [] :=
  ⟨_, _, rfl, rfl, rfl, by decide, rfl⟩

/-- C19, amended: `RawVec_with_capacity(0, elem_size, alloc)` returns capacity 0 with a
null region in an unchanged machine state (no allocator call).  For `n > 0` it makes
the one call `alloc.allocate(n * elem_size mod 2^64)`; when the allocator returns
non-null, it returns that region with capacity exactly `n` (which `RawVec_capacity`
returns), and it aborts exactly when the allocator returns null.  The request is
`n * elem_size` bytes when that product is below `2^64`. -/
theorem RawVec_with_capacity_spec :
    (∀ (e : Nat) (alloc : Allocator) (st : State),
      RawVec_with_capacity 0 e alloc st
        = Outcome.ok { ptr := NULL, cap := 0, alloc := alloc } st) ∧
    (∀ (n e : Nat) (alloc : Allocator) (st : State), 0 < n →
      (alloc.allocate st.heap (n * e % SIZE)).1 ≠ NULL →
      ∃ vec, RawVec_with_capacity n e alloc st
          = Outcome.ok vec
              { heap := (alloc.allocate st.heap (n * e % SIZE)).2,
                calls := st.calls ++ [AllocCall.allocate (n * e % SIZE)] } ∧
        vec.ptr = (alloc.allocate st.heap (n * e % SIZE)).1 ∧
        RawVec_ptr vec ≠ NULL ∧ vec.cap = n ∧ vec.alloc = alloc ∧ RawVec_capacity vec e = n) ∧
    (∀ (n e : Nat) (alloc : Allocator) (st : State), 0 < n →
      (RawVec_with_capacity n e alloc st = Outcome.abort ↔
        (alloc.allocate st.heap (n * e % SIZE)).1 = NULL)) ∧
    (∀ n e : Nat, n * e < SIZE → n * e % SIZE = n * e) := by
  refine ⟨?_, ?_, ?_, ?_⟩
  · intro e alloc st
    simp [RawVec_with_capacity]
  · intro n e alloc st hn hp
    refine ⟨{ ptr := (alloc.allocate st.heap (n * e % SIZE)).1, cap := n, alloc := alloc },
      ?_, rfl, hp, rfl, rfl, rfl⟩
    simp [RawVec_with_capacity, hn, call_allocate, hp]
  · intro n e alloc st hn
    simp only [RawVec_with_capacity, hn, if_true, gt_iff_lt, call_allocate]
    constructor
    · intro h
      by_contra hc
      simp [hc] at h
    · intro h
      simp [h]
  · intro n e h
    exact Nat.mod_eq_of_lt h

/-- Witness of C19: `RawVec_with_capacity(4, 1, GLOBAL_ALLOCATOR)` on the empty heap. -/
theorem RawVec_with_capacity_spec_witness :
    ∃ vec, RawVec_with_capacity 4 1 GLOBAL_ALLOCATOR state0 = Outcome.ok vec state4 ∧
      RawVec_ptr vec ≠ NULL ∧ RawVec_capacity vec 1 = 4 := by
  obtain ⟨vec, h, -, hp, -, -, hc⟩ :=
    RawVec_with_capacity_spec.2.1 4 1 GLOBAL_ALLOCATOR state0 (by decide) (by decide)
  exact ⟨vec, h, hp, hc⟩

/-! ### The example of `examples/rawvec.c` -/

/-- `RawVec_reserve` changes nothing when the capacity covers `len + additional`. -/
theorem RawVec_reserve_fits (vec : RawVec) (len additional e : Nat) (st : State)
    (h : (len + additional) % SIZE ≤ vec.cap) :
    RawVec_reserve vec len additional e st = Outcome.ok vec st := by
  unfold RawVec_reserve
  simp only
  rw [if_neg (by omega)]

/-- A round of the example loop that returns has called `RawVec_reserve(vec, len, 1)`
and incremented the length. -/
theorem rawvec_example_append_ok (vec : RawVec) (len : Nat) (person : List Nat) (e : Nat)
    (st : State) (r : RawVec × Nat) (st' : State)
    (h : rawvec_example_append vec len person e st = Outcome.ok r st') :
    r.2 = (len + 1) % SIZE ∧ ∃ st1, RawVec_reserve vec len 1 e st = Outcome.ok r.1 st1 := by
  unfold rawvec_example_append at h
  rw [Outcome.bind_eq_ok] at h
  obtain ⟨vec1, st1, h1, h2⟩ := h
  split at h2
  · cases h2
  · cases h2
    exact ⟨rfl, st1, h1⟩

/-- A round of the example loop keeps the RawVec when the capacity covers `len + 1`. -/
theorem rawvec_example_append_fits (vec : RawVec) (len : Nat) (person : List Nat) (e : Nat)
    (st : State) (r : RawVec × Nat) (st' : State)
    (h : rawvec_example_append vec len person e st = Outcome.ok r st')
    (hfit : (len + 1) % SIZE ≤ vec.cap) : r.1 = vec ∧ r.2 = (len + 1) % SIZE := by
  obtain ⟨h2, st1, h1⟩ := rawvec_example_append_ok _ _ _ _ _ _ _ h
  rw [RawVec_reserve_fits _ _ _ _ _ hfit] at h1
  cases h1
  exact ⟨rfl, h2⟩

/-- The third round of the example loop grows capacity 2 to capacity 4. -/
theorem rawvec_example_append_third (vec : RawVec) (person : List Nat) (e : Nat)
    (st : State) (r : RawVec × Nat) (st' : State)
    (h : rawvec_example_append vec 2 person e st = Outcome.ok r st')
    (hcap : vec.cap = 2) : r.1.cap = 4 ∧ r.2 = 3 := by
  obtain ⟨h2, st1, h1⟩ := rawvec_example_append_ok _ _ _ _ _ _ _ h
  refine ⟨?_, h2⟩
  unfold RawVec_reserve at h1
  simp only at h1
  rw [if_pos (by rw [hcap]; decide)] at h1
  obtain ⟨-, -, -, hl⟩ := RawVec_grow_ok _ _ _ _ _ _ h1
  rw [hcap] at hl
  have h4 : RawVec_grow_loop GROW_FUEL (if 2 = 0 then 1 else 2 * 2 % SIZE) ((2 + 1) % SIZE)
      = some 4 := by decide
  rw [h4] at hl
  exact (Option.some.inj hl).symm

/-- The capacities seen by a run of the example over four records that returns. -/
theorem rawvec_example_caps (e : Nat) (alloc : Allocator) (p1 p2 p3 p4 : List Nat)
    (st : State) (caps : List Nat) (vec : RawVec) (len : Nat) (st' : State)
    (h : rawvec_example e alloc [p1, p2, p3, p4] st = Outcome.ok (caps, vec, len) st') :
    caps = [2, 2, 4, 4] ∧ len = 4 ∧ RawVec_capacity vec e = 4 := by
  unfold rawvec_example at h
  rw [Outcome.bind_eq_ok] at h
  obtain ⟨v0, s0, h0, h⟩ := h
  have hc0 : v0.cap = 2 := by
    unfold RawVec_with_capacity at h0
    simp only [gt_iff_lt, Nat.ofNat_pos, if_true] at h0
    split at h0
    · cases h0
    · cases h0; rfl
  simp only [rawvec_example_loop] at h
  rw [Outcome.bind_eq_ok] at h
  obtain ⟨r1, s1, h1, h⟩ := h
  rw [Outcome.bind_eq_ok] at h
  obtain ⟨rs1, s1', h, hr1⟩ := h
  rw [Outcome.bind_eq_ok] at h
  obtain ⟨r2, s2, h2, h⟩ := h
  rw [Outcome.bind_eq_ok] at h
  obtain ⟨rs2, s2', h, hr2⟩ := h
  rw [Outcome.bind_eq_ok] at h
  obtain ⟨r3, s3, h3, h⟩ := h
  rw [Outcome.bind_eq_ok] at h
  obtain ⟨rs3, s3', h, hr3⟩ := h
  rw [Outcome.bind_eq_ok] at h
  obtain ⟨r4, s4, h4, h⟩ := h
  rw [Outcome.bind_eq_ok] at h
  obtain ⟨rs4, s4', h, hr4⟩ := h
  cases h
  cases hr4
  cases hr3
  cases hr2
  cases hr1
  obtain ⟨e1, l1⟩ := rawvec_example_append_fits _ _ _ _ _ _ _ h1 (by rw [hc0]; decide)
  rw [e1, l1] at h2
  obtain ⟨e2, l2⟩ := rawvec_example_append_fits _ _ _ _ _ _ _ h2 (by rw [hc0]; decide)
  rw [e2, l2] at h3
  obtain ⟨e3, l3⟩ := rawvec_example_append_third _ _ _ _ _ _ h3 hc0
  rw [l3] at h4
  obtain ⟨e4, l4⟩ := rawvec_example_append_fits _ _ _ _ _ _ _ h4 (by rw [e3]; decide)
  simp only [RawVec_capacity, e1, e2, e3, e4, hc0, l4]
  decide



/-- A round of the example loop is `Vec_push` on the Vec made of the RawVec and the
length, when the length is within the capacity. -/
theorem rawvec_example_append_eq_push (vec : RawVec) (len : Nat) (value : List Nat) (e : Nat)
    (st : State) (hle : len ≤ vec.cap) (hn : len + 1 < SIZE) (hoff : len * e < SIZE)
    (hv : value.length = e) :
    rawvec_example_append vec len value e st
      = (Vec_push { buf := vec, len := len } value e st).bind fun v s =>
          Outcome.ok (v.buf, v.len) s := by
  have hstep : (if len = vec.cap then RawVec_reserve vec len 1 e st else Outcome.ok vec st)
      = RawVec_reserve vec len 1 e st := by
    by_cases heq : len = vec.cap
    · rw [if_pos heq]
    · rw [if_neg heq, RawVec_reserve_fits]
      rw [Nat.mod_eq_of_lt hn]
      omega
  unfold rawvec_example_append Vec_push
  simp only [Vec_capacity, RawVec_capacity, RawVec_ptr, memcpy_to, hv, lt_irrefl, if_false,
    List.take_of_length_le (le_of_eq hv), Nat.mod_eq_of_lt hoff, hstep]
  cases hr : RawVec_reserve vec len 1 e st with
  | ok buf st1 =>
    simp only [Outcome.bind]
    cases hs : store st1.heap buf.ptr (len * e) value <;> rfl
  | abort => rfl
  | fault => rfl
  | diverge => rfl

/-- A round of the example loop on a well-formed buffer returns unless the allocation
fails, and appends the record. -/
theorem rawvec_example_append_holds (vec : RawVec) (len : Nat) (value : List Nat) (e : Nat)
    (st : State) (elems : List (List Nat))
    (hh : Vec.holds { buf := vec, len := len } e st.heap elems) (hv : value.length = e)
    (hno : rawvec_example_append vec len value e st ≠ Outcome.abort)
    (hn : 2 * (len + 1) ≤ SIZE) (hne : 2 * (len + 1) * e ≤ SIZE) :
    ∃ vec' st', rawvec_example_append vec len value e st = Outcome.ok (vec', len + 1) st' ∧
      Vec.holds { buf := vec', len := len + 1 } e st'.heap (elems ++ [value]) := by
  have hS : SIZE = 2 ^ 64 := rfl
  have hle : len ≤ vec.cap := hh.2.2.1
  have hoff : len * e < SIZE := lt_of_le_of_lt (Nat.mul_le_mul_right e hle) hh.2.2.2.2.1
  have heq := rawvec_example_append_eq_push vec len value e st hle (by omega) hoff hv
  rw [heq] at hno ⊢
  obtain ⟨vec', st', hp, hh'⟩ := Vec_push_holds { buf := vec, len := len } value e st elems hh hv
    (by intro hc; apply hno; rw [hc]; rfl) hn hne
  have hl : vec'.len = len + 1 := by
    rw [hh'.2.1, List.length_append, ← hh.2.1]
    rfl
  refine ⟨vec'.buf, st', ?_, ?_⟩
  · rw [hp]
    simp only [Outcome.bind, hl]
  · rw [← hl]
    exact hh'

/-- The example loop on a well-formed buffer returns unless an allocation fails, and
appends the records in order. -/
theorem rawvec_example_loop_holds (e : Nat) (people : List (List Nat)) :
    ∀ (vec : RawVec) (len : Nat) (st : State) (elems : List (List Nat)),
      Vec.holds { buf := vec, len := len } e st.heap elems →
      (∀ x, x ∈ people → x.length = e) →
      rawvec_example_loop e people vec len st ≠ Outcome.abort →
      2 * (len + people.length) ≤ SIZE → 2 * (len + people.length) * e ≤ SIZE →
      ∃ caps vec' st', rawvec_example_loop e people vec len st
          = Outcome.ok (caps, vec', len + people.length) st' ∧
        Vec.holds { buf := vec', len := len + people.length } e st'.heap (elems ++ people) := by
  induction people with
  | nil =>
    intro vec len st elems hh _ _ _ _
    exact ⟨[], vec, st, rfl, by simpa using hh⟩
  | cons p rest ih =>
    intro vec len st elems hh hp hno hn hne
    simp only [List.length_cons] at hn hne
    have hne1 : 2 * (len + 1) * e ≤ SIZE := by
      refine le_trans (Nat.mul_le_mul_right e ?_) hne
      omega
    simp only [rawvec_example_loop] at hno ⊢
    obtain ⟨v1, s1, h1, hh1⟩ := rawvec_example_append_holds vec len p e st elems hh
      (hp p (List.mem_cons_self _ _))
      (by intro hc; apply hno; rw [hc]; rfl) (by omega) hne1
    rw [h1] at hno ⊢
    simp only [Outcome.bind] at hno ⊢
    have hlen : len + 1 + rest.length = len + (rest.length + 1) := by omega
    obtain ⟨caps, v2, s2, h2, hh2⟩ := ih v1 (len + 1) s1 (elems ++ [p]) hh1
      (fun x hx => hp x (List.mem_cons_of_mem _ hx))
      (by intro hc; apply hno; rw [hc]) (by omega) (by rw [hlen]; exact hne)
    rw [h2]
    refine ⟨RawVec_capacity v1 e :: caps, v2, s2, ?_, ?_⟩
    · simp only [List.length_cons, hlen]
    · simpa [hlen, List.append_assoc] using hh2

/-- The example over `GLOBAL_ALLOCATOR` returns unless an allocation fails. -/
theorem rawvec_example_returns (e : Nat) (people : List (List Nat)) (st : State)
    (hp : ∀ x, x ∈ people → x.length = e)
    (hno : rawvec_example e GLOBAL_ALLOCATOR people st ≠ Outcome.abort)
    (hn : 2 * people.length ≤ SIZE) (hne : 2 * people.length * e ≤ SIZE) (he : 2 * e < SIZE) :
    ∃ caps vec st', rawvec_example e GLOBAL_ALLOCATOR people st
        = Outcome.ok (caps, vec, people.length) st' ∧
      Vec.holds { buf := vec, len := people.length } e st'.heap people := by
  unfold rawvec_example at hno ⊢
  obtain ⟨v0, s0, h0, hh0, -, hl0⟩ := Vec_with_capacity_holds 2 e st
    (by
      intro hc
      apply hno
      unfold Vec_with_capacity at hc
      cases hr : RawVec_with_capacity 2 e GLOBAL_ALLOCATOR st with
      | ok a b => rw [hr] at hc; simp [Outcome.bind] at hc
      | abort => rfl
      | fault => rw [hr] at hc; simp [Outcome.bind] at hc
      | diverge => rw [hr] at hc; simp [Outcome.bind] at hc)
    (by decide) he
  unfold Vec_with_capacity at h0
  rw [Outcome.bind_eq_ok] at h0
  obtain ⟨buf, s0', hb, h0⟩ := h0
  cases h0
  rw [hb] at hno ⊢
  simp only [Outcome.bind] at hno ⊢
  obtain ⟨caps, v, s, h, hh⟩ := rawvec_example_loop_holds e people buf 0 _ [] hh0 hp hno
    (by omega) (by simpa using hne)
  refine ⟨caps, v, s, ?_, ?_⟩
  · simpa using h
  · simpa using hh



/-- C20: start from `RawVec_with_capacity(2, elem_size, alloc)` with length 0 and run
the loop of `examples/rawvec.c` over four records (`RawVec_reserve(&vec, len, 1,
elem_size)`, the store of the record, `len++`).  For every element size, allocator and
machine state, a run that returns has seen the capacities 2, 2, 4, 4 after the four
rounds and ends with length 4 and capacity 4.  With `GLOBAL_ALLOCATOR`, records of
`elem_size` bytes and `8 * elem_size ≤ 2^64`, the run does return unless an allocation
fails, and the region then holds the four records in order. -/
theorem rawvec_example_capacities :
    (∀ (e : Nat) (alloc : Allocator) (p1 p2 p3 p4 : List Nat) (st : State) (caps : List Nat)
        (vec : RawVec) (len : Nat) (st' : State),
      rawvec_example e alloc [p1, p2, p3, p4] st = Outcome.ok (caps, vec, len) st' →
      caps = [2, 2, 4, 4] ∧ len = 4 ∧ RawVec_capacity vec e = 4) ∧
    (∀ (e : Nat) (p1 p2 p3 p4 : List Nat) (st : State),
      p1.length = e → p2.length = e → p3.length = e → p4.length = e → 8 * e ≤ SIZE →
      rawvec_example e GLOBAL_ALLOCATOR [p1, p2, p3, p4] st ≠ Outcome.abort →
      ∃ vec st', rawvec_example e GLOBAL_ALLOCATOR [p1, p2, p3, p4] st
          = Outcome.ok ([2, 2, 4, 4], vec, 4) st' ∧
        RawVec_capacity vec e = 4 ∧
        Vec.holds { buf := vec, len := 4 } e st'.heap [p1, p2, p3, p4]) := by
  have hS : SIZE = 2 ^ 64 := rfl
  refine ⟨?_, ?_⟩
  · intro e alloc p1 p2 p3 p4 st caps vec len st' h
    exact rawvec_example_caps e alloc p1 p2 p3 p4 st caps vec len st' h
  · intro e p1 p2 p3 p4 st h1 h2 h3 h4 he hno
    obtain ⟨caps, vec, st', h, hh⟩ := rawvec_example_returns e [p1, p2, p3, p4] st
      (by
        intro x hx
        simp only [List.mem_cons, List.mem_singleton, List.not_mem_nil, or_false] at hx
        rcases hx with hx | hx | hx | hx <;> rw [hx] <;> assumption)
      hno (by simp only [List.length_cons, List.length_nil]; omega)
      (by simp only [List.length_cons, List.length_nil]; omega) (by omega)
    obtain ⟨hc, -, hcap⟩ := rawvec_example_caps e GLOBAL_ALLOCATOR p1 p2 p3 p4 st caps vec _ st' h
    subst hc
    exact ⟨vec, st', h, hcap, hh⟩

/-- Witness of C20: four records of two bytes on the empty heap. -/
theorem rawvec_example_capacities_witness :
    ∃ vec st', rawvec_example 2 GLOBAL_ALLOCATOR [[1, 65], [2, 66], [3, 67], [4, 68]] state0
        = Outcome.ok ([2, 2, 4, 4], vec, 4) st' ∧
      RawVec_capacity vec 2 = 4 ∧
      Vec.holds { buf := vec, len := 4 } 2 st'.heap [[1, 65], [2, 66], [3, 67], [4, 68]] :=
  rawvec_example_capacities.2 2 [1, 65] [2, 66] [3, 67] [4, 68] state0 rfl rfl rfl rfl
    (by decide) (Outcome.ne_abort_of_ok _ _ _ rfl)

/-! ### Vec_drop -/

/-- An operation of `vec.h` that returns keeps the allocator, and keeps "capacity 0
when the region is null". -/
theorem VecOp.run_null (op : VecOp) (vec : Vec) (st : State) (vec' : Vec) (st' : State)
    (h : op.run vec st = Outcome.ok vec' st')
    (hv : vec.buf.ptr = NULL → vec.buf.cap = 0) :
    vec'.buf.alloc = vec.buf.alloc ∧ (vec'.buf.ptr = NULL → vec'.buf.cap = 0) := by
  cases op with
  | reserve additional e =>
    simp only [VecOp.run, Vec_reserve] at h
    rw [Outcome.bind_eq_ok] at h
    obtain ⟨buf, st1, hr, h⟩ := h
    cases h
    exact ⟨(RawVec_reserve_ok _ _ _ _ _ _ _ hr).2.2.1, RawVec_reserve_null _ _ _ _ _ _ _ hr hv⟩
  | push value e =>
    simp only [VecOp.run, Vec_push] at h
    rw [Outcome.bind_eq_ok] at h
    obtain ⟨buf, st1, hr, h⟩ := h
    split at h
    · cases h
    · cases h
      split at hr
      · exact ⟨(RawVec_reserve_ok _ _ _ _ _ _ _ hr).2.2.1,
          RawVec_reserve_null _ _ _ _ _ _ _ hr hv⟩
      · cases hr
        exact ⟨rfl, hv⟩
  | pop out e =>
    simp only [VecOp.run] at h
    rw [Outcome.bind_eq_ok] at h
    obtain ⟨r, st1, hp, h⟩ := h
    cases h
    unfold Vec_pop at hp
    split at hp
    · cases hp; exact ⟨rfl, hv⟩
    · split at hp
      · cases hp
      · cases hp; exact ⟨rfl, hv⟩
  | set index value e =>
    simp only [VecOp.run, Vec_set] at h
    split at h
    · split at h
      · cases h
      · cases h; exact ⟨rfl, hv⟩
    · cases h
  | clear =>
    simp only [VecOp.run, Vec_clear] at h
    cases h; exact ⟨rfl, hv⟩
  | truncate new_len =>
    simp only [VecOp.run, Vec_truncate] at h
    cases h
    split
    · exact ⟨rfl, hv⟩
    · exact ⟨rfl, hv⟩
  | resize new_len value e =>
    simp only [VecOp.run, Vec_resize] at h
    split at h
    · rw [Outcome.bind_eq_ok] at h
      obtain ⟨v, st1, hres, h⟩ := h
      unfold Vec_reserve at hres
      rw [Outcome.bind_eq_ok] at hres
      obtain ⟨buf, st2, hr, hres⟩ := hres
      cases hres
      split at h
      · cases h
      · cases h
        exact ⟨(RawVec_reserve_ok _ _ _ _ _ _ _ hr).2.2.1,
          RawVec_reserve_null _ _ _ _ _ _ _ hr hv⟩
    · cases h; exact ⟨rfl, hv⟩
  | drop =>
    simp only [VecOp.run, Vec_drop] at h
    rw [Outcome.bind_eq_ok] at h
    obtain ⟨buf, st1, hd, h⟩ := h
    cases h
    obtain ⟨hp, ha, hc, hn⟩ := RawVec_drop_null _ _ _ _ hd
    refine ⟨ha, fun _ => ?_⟩
    by_cases hp0 : vec.buf.ptr = NULL
    · rw [(hn hp0).1]; exact hv hp0
    · exact hc hp0

/-- Every reachable Vec uses the global allocator and has capacity 0 when its region
is null. -/
theorem Vec.Reachable.null_cap (vec : Vec) (h : vec.Reachable) :
    vec.buf.alloc = GLOBAL_ALLOCATOR ∧ (vec.buf.ptr = NULL → vec.buf.cap = 0) := by
  induction h with
  | new => exact ⟨rfl, fun _ => rfl⟩
  | with_capacity capacity e st vec st' h =>
    unfold Vec_with_capacity at h
    rw [Outcome.bind_eq_ok] at h
    obtain ⟨buf, st1, hb, h⟩ := h
    cases h
    obtain ⟨h1, h2⟩ := RawVec_with_capacity_null _ _ _ _ _ _ hb
    exact ⟨h2, h1⟩
  | step op vec st vec' st' _ hrun ih =>
    obtain ⟨h1, h2⟩ := VecOp.run_null op vec st vec' st' hrun ih.2
    exact ⟨h1.trans ih.1, h2⟩

/-- `Vec_drop` on a Vec over the global allocator whose capacity is 0 when its region is
null returns `Vec_new()`, having called `deallocate` when the region was non-null. -/
theorem Vec_drop_returns_new (vec : Vec) (st : State) (ha : vec.buf.alloc = GLOBAL_ALLOCATOR)
    (hv : vec.buf.ptr = NULL → vec.buf.cap = 0) :
    Vec_drop vec st = Outcome.ok Vec_new
      (if vec.buf.ptr = NULL then st else call_deallocate GLOBAL_ALLOCATOR st vec.buf.ptr) := by
  obtain ⟨⟨ptr, cap, alloc⟩, len⟩ := vec
  simp only at ha hv
  subst ha
  by_cases hp : ptr = NULL
  · have hc := hv hp
    subst hp; subst hc
    simp [Vec_drop, RawVec_drop, Outcome.bind, Vec_new, RawVec_new]
  · simp [Vec_drop, RawVec_drop, Outcome.bind, Vec_new, RawVec_new, hp]

/-- C18: for every Vec reachable by the operations of `vec.h` and every machine state,
`Vec_drop` returns, and the Vec it leaves is equal to `Vec_new()`: length 0, capacity 0,
null region, and the allocator the Vec had (the global one). -/
theorem Vec_drop_eq_new (vec : Vec) (st : State) (h : vec.Reachable) :
    ∃ st', Vec_drop vec st = Outcome.ok Vec_new st' ∧
      Vec_len Vec_new = 0 ∧ Vec_capacity Vec_new = 0 ∧ Vec_as_slice Vec_new = NULL ∧
      Vec_new.buf.alloc = vec.buf.alloc := by
  obtain ⟨ha, hv⟩ := Vec.Reachable.null_cap vec h
  exact ⟨_, Vec_drop_returns_new vec st ha hv, rfl, rfl, rfl, ha.symm⟩

/-- Witness of C18: the Vec left by one `Vec_push` on `Vec_new()`. -/
theorem Vec_drop_eq_new_witness :
    ∃ st1, Vec_push Vec_new [7] 1 state0 = Outcome.ok vec1 st1 ∧ vec1.Reachable ∧
      ∃ st', Vec_drop vec1 st1 = Outcome.ok Vec_new st' ∧
        Vec_len Vec_new = 0 ∧ Vec_capacity Vec_new = 0 ∧ Vec_as_slice Vec_new = NULL ∧
        Vec_new.buf.alloc = vec1.buf.alloc := by
  obtain ⟨st1, h⟩ := vec1_built
  have hr : vec1.Reachable :=
    Vec.Reachable.step (VecOp.push [7] 1) Vec_new state0 vec1 st1 Vec.Reachable.new h
  exact ⟨st1, h, hr, Vec_drop_eq_new vec1 st1 hr⟩

/-! ### `String` over the heap of the global allocator -/

/-- A `store` that fits in a live allocation returns, and writes the bytes there. -/
theorem store_fits (h : Heap) (p off : Nat) (bytes b : List Nat) (hb : h.block p = some b)
    (hfit : off + bytes.length ≤ b.length) :
    ∃ h', store h p off bytes = some h' ∧
      h'.block p = some (b.take off ++ bytes ++ b.drop (off + bytes.length)) ∧
      (∀ q, q ≠ p → h'.blocks q = h.blocks q) ∧ h'.next = h.next := by
  have hp := Heap.block_ne_null h p b hb
  unfold store
  by_cases h0 : bytes.length = 0
  · rw [if_pos h0]
    refine ⟨h, rfl, ?_, fun _ _ => rfl, rfl⟩
    have : bytes = [] := List.eq_nil_of_length_eq_zero h0
    subst this
    simpa using hb
  · rw [if_neg h0]
    simp only [hb, if_pos hfit]
    refine ⟨_, rfl, ?_, ?_, rfl⟩
    · simp [Heap.block, hp]
    · intro q hq
      simp [Function.update_noteq hq]

/-- A `load` that fits in a live allocation returns the bytes there. -/
theorem load_fits (h : Heap) (p off n : Nat) (b : List Nat) (hb : h.block p = some b)
    (hfit : off + n ≤ b.length) : load h p off n = some ((b.drop off).take n) := by
  unfold load
  by_cases h0 : n = 0
  · rw [if_pos h0, h0]; simp
  · rw [if_neg h0]
    simp only [hb, if_pos hfit]

/-- A `memmove` whose source and destination fit in a live allocation returns, and
copies the bytes. -/
theorem memmove_fits (h : Heap) (p dst src n : Nat) (b : List Nat) (hb : h.block p = some b)
    (hsrc : src + n ≤ b.length) (hdst : dst + n ≤ b.length) :
    ∃ h', memmove h p dst src n = some h' ∧
      h'.block p = some (b.take dst ++ (b.drop src).take n ++ b.drop (dst + n)) ∧
      (∀ q, q ≠ p → h'.blocks q = h.blocks q) ∧ h'.next = h.next := by
  have hl : ((b.drop src).take n).length = n := by
    rw [List.length_take, List.length_drop]; omega
  unfold memmove
  rw [load_fits h p src n b hb hsrc]
  simp only
  obtain ⟨h', hs, hb', hq, hn⟩ := store_fits h p dst ((b.drop src).take n) b hb (by rw [hl]; exact hdst)
  rw [hl] at hb'
  exact ⟨h', hs, hb', hq, hn⟩

/-- The bytes of a String that holds `bytes`, read through `String.byte`. -/
theorem String.holds_byte (s : String) (st : State) (bytes : List Nat)
    (hh : s.holds st.heap bytes) :
    (∀ i, i < String_len s → s.byte st i = bytes[i]?) ∧ s.byte st (String_len s) = some 0 := by
  obtain ⟨-, -, -, -, hp, b, hb, -, ht, h0⟩ := hh
  have hblk : st.heap.block s.vec.buf.ptr = some b := by
    rw [Heap.block_eq_blocks _ _ hp]; exact hb
  simp only [String.byte, String_len, byte_at, hblk]
  refine ⟨fun i hi => ?_, h0⟩
  rw [← ht, List.getElem?_take, if_pos hi]



/-- The list left by moving the tail `[idx + 1, len]` of `b` one place down. -/
theorem remove_list (b : List Nat) (idx len : Nat) (hidx : idx < len) (hlen : len < b.length) :
    (b.take idx ++ (b.drop (idx + 1)).take (len - idx) ++ b.drop (idx + (len - idx))).take (len - 1)
        = (b.take len).take idx ++ (b.take len).drop (idx + 1) ∧
      (b.take idx ++ (b.drop (idx + 1)).take (len - idx) ++ b.drop (idx + (len - idx)))[len - 1]?
        = b[len]? := by
  have hmid : ((b.drop (idx + 1)).take (len - idx)).length = len - idx := by
    rw [List.length_take, List.length_drop]; omega
  have key : ∀ i, (b.take idx ++ (b.drop (idx + 1)).take (len - idx)
      ++ b.drop (idx + (len - idx)))[i]?
        = if i < idx then b[i]? else if i < len then b[i + 1]? else b[i]? := by
    intro i
    have := getElem?_splice b ((b.drop (idx + 1)).take (len - idx)) idx i (by rw [hmid]; omega)
    rw [hmid] at this
    rw [this]
    by_cases h1 : i < idx
    · simp [h1]
    · rw [if_neg h1, if_neg h1]
      by_cases h2 : i < len
      · rw [if_pos (by omega), if_pos h2, List.getElem?_take, if_pos (by omega),
          List.getElem?_drop]
        congr 1
        omega
      · rw [if_neg (by omega), if_neg h2]
  constructor
  · apply List.ext_getElem?
    intro i
    rw [List.getElem?_take, key]
    by_cases h1 : i < idx
    · rw [if_pos (by omega), if_pos h1, List.getElem?_append_left (by simp; omega),
        List.getElem?_take, if_pos h1, List.getElem?_take, if_pos (by omega)]
    · have hl : ((b.take len).take idx).length = idx := by simp; omega
      rw [List.getElem?_append_right (by rw [hl]; omega), hl, List.getElem?_drop,
        List.getElem?_take]
      by_cases h2 : i < len - 1
      · rw [if_pos h2, if_neg h1, if_pos (by omega), if_pos (by omega)]
        congr 1
        omega
      · rw [if_neg h2, if_neg (by omega)]
  · rw [key, if_neg (by omega), if_pos (by omega)]
    congr 1
    omega

/-- `String_remove` on a String that holds `bytes`: it returns, with the byte at `idx`,
and the String holds the other bytes in the same allocation. -/
theorem String_remove_holds (s : String) (idx : Nat) (st : State) (bytes : List Nat)
    (hh : s.holds st.heap bytes) (hidx : idx < String_len s) :
    ∃ c st', String_remove s idx st
        = Outcome.ok (c, { vec := { buf := s.vec.buf, len := s.vec.len - 1 } }) st' ∧
      bytes[idx]? = some c ∧
      String.holds { vec := { buf := s.vec.buf, len := s.vec.len - 1 } } st'.heap
        (bytes.take idx ++ bytes.drop (idx + 1)) ∧
      st'.calls = st.calls := by
  obtain ⟨ha, hlen, hcap, hsize, hp, b, hb, hbl, ht, h0⟩ := hh
  simp only [String_len] at hidx
  have hblk : st.heap.block s.vec.buf.ptr = some b := by
    rw [Heap.block_eq_blocks _ _ hp]; exact hb
  obtain ⟨h', hm, hb', -, -⟩ := memmove_fits st.heap s.vec.buf.ptr idx (idx + 1)
    (s.vec.len - idx) b hblk (by omega) (by omega)
  obtain ⟨hr1, hr2⟩ := remove_list b idx s.vec.len hidx (by omega)
  have hc : ∃ c, b[idx]? = some c := by
    rw [List.getElem?_eq_getElem (by omega)]
    exact ⟨_, rfl⟩
  obtain ⟨c, hc⟩ := hc
  have hload : ((b.drop idx).take 1) = [c] := by
    apply List.ext_getElem?
    intro i
    rw [List.getElem?_take]
    by_cases hi : i < 1
    · have : i = 0 := by omega
      subst this
      simp [List.getElem?_drop, hc]
    · rw [if_neg hi]
      have : 1 ≤ i := by omega
      simp [this]
  refine ⟨c, { st with heap := h' }, ?_, ?_, ?_, rfl⟩
  · unfold String_remove
    rw [if_pos hidx, load_fits _ _ _ _ b hblk (by omega), hload]
    simp only [hm, List.headD_cons]
  · rw [← ht, List.getElem?_take, if_pos hidx, hc]
  · rw [Heap.block_eq_blocks _ _ hp] at hb'
    refine ⟨ha, ?_, by simp only; omega, hsize, hp, _, hb', ?_, ?_, ?_⟩
    · simp only [List.length_append, List.length_take, List.length_drop]
      omega
    · simp only [List.length_append, List.length_take, List.length_drop]
      omega
    · simp only
      rw [hr1, ht]
    · simp only
      rw [hr2, h0]



/-- `String_from("abc")` on the empty heap leaves a String that holds `"abc"`. -/
theorem string_abc_holds : string_abc.holds state_abc.heap [97, 98, 99] :=
  ⟨rfl, rfl, by decide, by decide, by decide, [97, 98, 99, 0], by simp [state_abc, string_abc],
    rfl, rfl, rfl⟩

/-- C14: on a String that holds the bytes `b` with the terminator in place (a live
allocation of `cap > len` bytes whose first `len` bytes are `b` and whose byte at `len` is
0) and for `idx < len`, `String_remove(s, idx)` returns, with the byte `b[idx]`; the
String it leaves holds `b[0..idx) ++ b[idx+1..len)` with the terminator in place, its
length is `len - 1`, its capacity is unchanged, the byte at its length is 0, and no
allocator call is made. -/
theorem String_remove_spec (s : String) (idx : Nat) (st : State) (b : List Nat)
    (hh : s.holds st.heap b) (hidx : idx < String_len s) :
    ∃ c s' st', String_remove s idx st = Outcome.ok (c, s') st' ∧
      b[idx]? = some c ∧
      s'.holds st'.heap (b.take idx ++ b.drop (idx + 1)) ∧
      (∀ i, i < String_len s' → s'.byte st' i = (b.take idx ++ b.drop (idx + 1))[i]?) ∧
      String_len s' = String_len s - 1 ∧ String_capacity s' = String_capacity s ∧
      s'.byte st' (String_len s') = some 0 ∧ st'.calls = st.calls := by
  obtain ⟨c, st', hr, hc, hh', hcalls⟩ := String_remove_holds s idx st b hh hidx
  obtain ⟨hb1, hb2⟩ := String.holds_byte _ st' _ hh'
  exact ⟨c, _, st', hr, hc, hh', hb1, rfl, rfl, hb2, hcalls⟩

/-- Witness of C14: `String_remove(s, 0)` on the String left by `String_from("abc")`
returns `'a'` and leaves `"bc"` with length 2, capacity 4 and the terminator at index
2. -/
theorem String_remove_spec_witness :
    string_abc.holds state_abc.heap [97, 98, 99] ∧ 0 < String_len string_abc ∧
      ∃ s' st', String_remove string_abc 0 state_abc = Outcome.ok (97, s') st' ∧
        s'.holds st'.heap [98, 99] ∧ String_len s' = 2 ∧ String_capacity s' = 4 ∧
        s'.byte st' 2 = some 0 := by
  obtain ⟨c, s', st', hr, hc, hh', -, hl, hcap, hb, -⟩ :=
    String_remove_spec string_abc 0 state_abc [97, 98, 99] string_abc_holds (by decide)
  have hc97 : c = 97 := by simpa using hc.symm
  subst hc97
  have hl2 : String_len s' = 2 := hl
  rw [hl2] at hb
  exact ⟨string_abc_holds, by decide, s', st', hr, hh', hl2, hcap, hb⟩

/-! ### String_from and String_substring -/

/-- `String_with_capacity` for a capacity `0 < c < 2^64` returns unless the allocation
fails: the String has the fresh address `next + 1`, capacity `c` and length 0, over a
new allocation of `c` bytes; no other allocation changes. -/
theorem String_with_capacity_fresh (c : Nat) (st : State) (hc : 0 < c) (hlt : c < SIZE)
    (hno : String_with_capacity c st ≠ Outcome.abort) :
    ∃ st', String_with_capacity c st
        = Outcome.ok { vec := { buf := { ptr := st.heap.next + 1, cap := c,
                                         alloc := GLOBAL_ALLOCATOR }, len := 0 } } st' ∧
      st'.heap.blocks = Function.update st.heap.blocks (st.heap.next + 1)
        (some (fresh_bytes st.heap (st.heap.next + 1) c)) ∧
      st'.heap.next = st.heap.next + 1 + c ∧
      st'.calls = st.calls ++ [AllocCall.allocate c] := by
  unfold String_with_capacity Vec_with_capacity RawVec_with_capacity at hno ⊢
  have hoom : st.heap.oom st.heap.tick = false := by
    by_contra hcon
    simp only [Bool.not_eq_false] at hcon
    apply hno
    simp [hc, call_allocate, GLOBAL_ALLOCATOR, malloc, hcon, Outcome.bind]
  simp only [gt_iff_lt, hc, if_true, call_allocate, GLOBAL_ALLOCATOR, malloc, hoom,
    Bool.false_eq_true, if_false, Nat.mul_one, Nat.mod_eq_of_lt hlt]
  rw [if_neg (by simp [NULL])]
  simp only [Outcome.bind]
  exact ⟨_, rfl, rfl, rfl, rfl⟩

/-- The characters of a C string hold no 0. -/
theorem c_chars_ne_zero (s : List Nat) : ∀ c, c ∈ c_chars s → c ≠ 0 := by
  intro c hc
  have := List.mem_takeWhile_imp hc
  simpa using this

/-- A list without 0 is the C string of its own bytes. -/
theorem c_chars_of_no_zero (t : List Nat) (ht : ∀ c, c ∈ t → c ≠ 0) : c_chars t = t := by
  unfold c_chars
  rw [List.takeWhile_eq_self_iff]
  intro c hc
  simpa using ht c hc

/-- Reading a C string stops at the terminator. -/
theorem c_chars_append_zero (t rest : List Nat) (ht : ∀ c, c ∈ t → c ≠ 0) :
    c_chars (t ++ 0 :: rest) = t := by
  unfold c_chars
  rw [List.takeWhile_append_of_pos (by intro c hc; simpa using ht c hc)]
  simp

/-- The C string read at the region of a String that holds bytes without 0 is these
bytes. -/
theorem String.holds_c_string (s : String) (h : Heap) (bytes : List Nat)
    (hh : s.holds h bytes) (hz : ∀ c, c ∈ bytes → c ≠ 0) :
    c_string_at h (String_as_str s) = some bytes := by
  obtain ⟨-, hlen, hcap, -, hp, b, hb, hbl, ht, h0⟩ := hh
  have hsplit : b = bytes ++ 0 :: b.drop (s.vec.len + 1) := by
    apply List.ext_getElem?
    intro i
    by_cases h1 : i < s.vec.len
    · rw [List.getElem?_append_left (by omega), ← ht, List.getElem?_take, if_pos h1]
    · rw [List.getElem?_append_right (by omega)]
      by_cases h2 : i = s.vec.len
      · subst h2
        rw [h0, ← hlen]
        simp
      · have h3 : i - bytes.length = (i - bytes.length - 1) + 1 := by omega
        rw [h3, List.getElem?_cons_succ, List.getElem?_drop]
        congr 1
        omega
  have hmem : 0 ∈ b := by
    rw [hsplit]; simp
  unfold c_string_at String_as_str
  rw [Heap.block_eq_blocks _ _ hp, hb]
  simp only [hmem, if_true]
  rw [hsplit, c_chars_append_zero _ _ hz]

/-- `String_from` returns unless the allocation fails: the String holds the characters
of the argument in a new allocation of `strlen + 1` bytes, terminator included. -/
theorem String_from_holds (t : List Nat) (st : State) (hlt : strlen t + 1 < SIZE)
    (hno : String_from t st ≠ Outcome.abort) :
    ∃ s st', String_from t st = Outcome.ok s st' ∧ s.holds st'.heap (c_chars t) ∧
      s.vec.buf.ptr = st.heap.next + 1 ∧ s.vec.buf.cap = strlen t + 1 ∧
      s.vec.len = strlen t ∧
      st'.heap.blocks = Function.update st.heap.blocks (st.heap.next + 1)
        (some (c_chars t ++ [0])) ∧
      st'.heap.next = st.heap.next + 1 + (strlen t + 1) ∧
      st'.calls = st.calls ++ [AllocCall.allocate (strlen t + 1)] := by
  unfold String_from at hno ⊢
  rw [Nat.mod_eq_of_lt hlt] at hno ⊢
  obtain ⟨st1, h1, hb1, hn1, hc1⟩ := String_with_capacity_fresh (strlen t + 1) st (by omega) hlt
    (by intro hc; apply hno; rw [hc]; rfl)
  rw [h1]
  simp only [Outcome.bind]
  have hp : st.heap.next + 1 ≠ NULL := by simp [NULL]
  have hblk : st1.heap.block (st.heap.next + 1)
      = some (fresh_bytes st.heap (st.heap.next + 1) (strlen t + 1)) := by
    rw [Heap.block_eq_blocks _ _ hp, hb1, Function.update_same]
  have hl : (c_chars t ++ [0]).length = strlen t + 1 := by simp [strlen]
  obtain ⟨h', hs, hb', hq, hn'⟩ := store_fits st1.heap (st.heap.next + 1) 0 (c_chars t ++ [0]) _
    hblk (by rw [hl, fresh_bytes_length]; omega)
  rw [hs]
  simp only
  have hnew : List.take 0 (fresh_bytes st.heap (st.heap.next + 1) (strlen t + 1))
      ++ (c_chars t ++ [0])
      ++ List.drop (0 + (c_chars t ++ [0]).length)
          (fresh_bytes st.heap (st.heap.next + 1) (strlen t + 1)) = c_chars t ++ [0] := by
    rw [hl, List.drop_of_length_le (by rw [fresh_bytes_length]; omega)]
    simp
  rw [hnew, Heap.block_eq_blocks _ _ hp] at hb'
  refine ⟨_, _, rfl, ⟨rfl, rfl, by simp only; omega, hlt, hp, _, hb', hl, ?_, ?_⟩, rfl, rfl, rfl,
    ?_, by simp only; rw [hn', hn1], hc1⟩
  · simp only [strlen]
    rw [List.take_left]
  · simp only [strlen]
    rw [List.getElem?_append_right (le_refl _)]
    simp
  · funext q
    by_cases hq' : q = st.heap.next + 1
    · rw [hq', hb', Function.update_same]
    · simp only
      rw [hq q hq', hb1, Function.update_noteq hq', Function.update_noteq hq']



/-- C16: for every C string `t` (bytes without 0x00, shorter than `2^64 - 1`) and every
machine state, `String_from(t)` returns unless the allocation fails; the String has
length `|t|` and capacity `|t| + 1`, its bytes `[0, |t|)` are `t` and its byte at index
`|t|` is 0, all inside its allocation, so that the C string read at `String_as_str` is
exactly `t`, and `String_len` returns `strlen(t)`. -/
theorem String_from_spec (t : List Nat) (st : State) (hz : ∀ c, c ∈ t → c ≠ 0)
    (hlt : t.length + 1 < SIZE) (hno : String_from t st ≠ Outcome.abort) :
    ∃ s st', String_from t st = Outcome.ok s st' ∧
      String_len s = t.length ∧ String_capacity s = t.length + 1 ∧
      (∀ i, i < t.length → s.byte st' i = t[i]?) ∧ s.byte st' t.length = some 0 ∧
      s.holds st'.heap t ∧
      c_string_at st'.heap (String_as_str s) = some t ∧ String_len s = strlen t := by
  have hc : c_chars t = t := c_chars_of_no_zero t hz
  have hs : strlen t = t.length := by rw [strlen, hc]
  obtain ⟨s, st', h, hh, -, hcap, hlen, -, -, -⟩ := String_from_holds t st (by rw [hs]; exact hlt) hno
  rw [hc] at hh
  rw [hs] at hcap hlen
  obtain ⟨hb1, hb2⟩ := String.holds_byte s st' t hh
  simp only [String_len, hlen] at hb1 hb2
  exact ⟨s, st', h, hlen, hcap, hb1, hb2, hh, String.holds_c_string s st'.heap t hh hz,
    by rw [hs]; exact hlen⟩

/-- Witness of C16: `String_from("abc")` on the empty heap. -/
theorem String_from_spec_witness :
    ∃ s st', String_from [97, 98, 99] state0 = Outcome.ok s st' ∧
      String_len s = 3 ∧ String_capacity s = 4 ∧
      (∀ i, i < 3 → s.byte st' i = [97, 98, 99][i]?) ∧ s.byte st' 3 = some 0 ∧
      s.holds st'.heap [97, 98, 99] ∧
      c_string_at st'.heap (String_as_str s) = some [97, 98, 99] ∧
      String_len s = strlen [97, 98, 99] :=
  String_from_spec [97, 98, 99] state0 (by decide) (by decide)
    (Outcome.ne_abort_of_ok _ _ _ string_abc_built)

/-- The bytes `[start, stop)` of a list, read pointwise. -/
theorem getElem?_take_drop (b : List Nat) (start stop i : Nat) :
    ((b.take stop).drop start)[i]? = if start + i < stop then b[start + i]? else none := by
  rw [List.getElem?_drop, List.getElem?_take]

/-- `String_substring` on a String whose bytes `[0, len)` are `b`, over a well-formed heap:
it returns unless the allocation fails; the result holds the bytes `[start, stop)` of `b`
in an allocation of `stop - start + 1` bytes at an address that was unused, and no other
allocation changes. -/
theorem String_substring_holds (s : String) (start stop : Nat) (st : State) (b : List Nat)
    (hlen : b.length = s.vec.len) (hbytes : ∀ i, i < s.vec.len → s.byte st i = b[i]?)
    (hsz : s.vec.len + 1 < SIZE) (hwf : st.heap.wf) (hse : start ≤ stop)
    (hel : stop ≤ s.vec.len) (hno : String_substring s start stop st ≠ Outcome.abort) :
    ∃ r st', String_substring s start stop st = Outcome.ok r st' ∧
      r.holds st'.heap ((b.take stop).drop start) ∧
      r.vec.len = stop - start ∧ r.vec.buf.cap = stop - start + 1 ∧
      st.heap.blocks r.vec.buf.ptr = none ∧
      (∀ q, q ≠ r.vec.buf.ptr → st'.heap.blocks q = st.heap.blocks q) ∧
      st'.calls = st.calls ++ [AllocCall.allocate (stop - start + 1)] := by
  have hS : SIZE = 2 ^ 64 := rfl
  unfold String_substring at hno ⊢
  rw [if_pos ⟨hse, hel⟩] at hno ⊢
  have hmod : (stop - start + 1) % SIZE = stop - start + 1 := Nat.mod_eq_of_lt (by omega)
  rw [hmod] at hno ⊢
  obtain ⟨st1, h1, hb1, hn1, hc1⟩ := String_with_capacity_fresh (stop - start + 1) st (by omega)
    (by omega) (by intro hc; apply hno; rw [hc]; rfl)
  rw [h1]
  simp only [Outcome.bind]
  have hp : st.heap.next + 1 ≠ NULL := by simp [NULL]
  have hfresh : st.heap.blocks (st.heap.next + 1) = none := hwf _ (by omega)
  have hblk : st1.heap.block (st.heap.next + 1)
      = some (fresh_bytes st.heap (st.heap.next + 1) (stop - start + 1)) := by
    rw [Heap.block_eq_blocks _ _ hp, hb1, Function.update_same]
  -- the bytes read
  have hload : load st1.heap s.vec.buf.ptr start (stop - start)
      = some ((b.take stop).drop start) := by
    by_cases h0 : stop - start = 0
    · have : (b.take stop).drop start = [] := by
        apply List.eq_nil_of_length_eq_zero
        simp only [List.length_drop, List.length_take]
        omega
      rw [this, h0]
      simp [load]
    · have hpos : 0 < s.vec.len := by omega
      have hb0 := hbytes 0 hpos
      have hsome : ∃ x, b[0]? = some x := by
        rw [List.getElem?_eq_getElem (by omega)]; exact ⟨_, rfl⟩
      obtain ⟨x, hx⟩ := hsome
      rw [hx] at hb0
      obtain ⟨blk, hblk0, -⟩ := block_of_byte_at _ _ _ _ hb0
      have hsp := Heap.block_ne_null _ _ _ hblk0
      have hne : s.vec.buf.ptr ≠ st.heap.next + 1 := by
        intro hc
        rw [Heap.block_eq_blocks _ _ hsp, hc, hfresh] at hblk0
        cases hblk0
      have hblk1 : st1.heap.block s.vec.buf.ptr = some blk := by
        rw [Heap.block_eq_blocks _ _ hsp, hb1, Function.update_noteq hne,
          ← Heap.block_eq_blocks _ _ hsp]
        exact hblk0
      have hget : ∀ i, i < s.vec.len → blk[i]? = b[i]? := by
        intro i hi
        have := hbytes i hi
        rw [String.byte, byte_at_of_block _ _ _ _ hblk0] at this
        exact this
      have hblen : s.vec.len ≤ blk.length := by
        have h := hget (s.vec.len - 1) (by omega)
        rw [List.getElem?_eq_getElem (l := b) (by omega)] at h
        have := (List.getElem?_eq_some_iff.mp h).1
        omega
      rw [load_fits _ _ _ _ blk hblk1 (by omega)]
      congr 1
      apply List.ext_getElem?
      intro i
      rw [List.getElem?_take, List.getElem?_drop, getElem?_take_drop]
      by_cases hi : i < stop - start
      · rw [if_pos hi, if_pos (by omega)]
        exact hget _ (by omega)
      · rw [if_neg hi, if_neg (by omega)]
  rw [hload]
  simp only
  have hl : ((b.take stop).drop start).length = stop - start := by
    simp only [List.length_drop, List.length_take]
    omega
  obtain ⟨h2, hs2, hb2, hq2, hn2⟩ := store_fits st1.heap (st.heap.next + 1) 0
    ((b.take stop).drop start) _ hblk (by rw [hl, fresh_bytes_length]; omega)
  rw [hs2]
  simp only
  obtain ⟨h3, hs3, hb3, hq3, hn3⟩ := store_fits h2 (st.heap.next + 1) (stop - start) [0] _ hb2
    (by
      simp only [List.length_append, List.length_take, List.length_drop, fresh_bytes_length,
        List.length_singleton, hl]
      omega)
  rw [hs3]
  simp only
  rw [Heap.block_eq_blocks _ _ hp] at hb3
  refine ⟨_, _, rfl, ⟨rfl, hl.symm, by simp only; omega, by simp only; omega, hp, _, hb3, ?_, ?_, ?_⟩,
    rfl, rfl, hfresh, ?_, hc1⟩
  · simp only [List.length_append, List.length_take, List.length_drop, fresh_bytes_length,
      List.length_singleton, hl]
    omega
  · simp only
    apply List.ext_getElem?
    intro i
    rw [List.getElem?_take]
    by_cases hi : i < stop - start
    · rw [if_pos hi, getElem?_splice _ [0] (stop - start) i (by
        simp only [List.length_append, List.length_take, List.length_drop, fresh_bytes_length,
          List.length_singleton, hl]
        omega), if_pos hi, getElem?_splice _ _ 0 i (by rw [hl, fresh_bytes_length]; omega),
        if_neg (by omega), hl, if_pos (by omega)]
      rfl
    · rw [if_neg hi]
      symm
      rw [List.getElem?_eq_none_iff, hl]
      omega
  · simp only
    rw [getElem?_splice _ [0] (stop - start) (stop - start) (by
        simp only [List.length_append, List.length_take, List.length_drop, fresh_bytes_length,
          List.length_singleton, hl]
        omega), if_neg (by omega), if_pos (by simp)]
    simp
  · intro q hq
    simp only at hq ⊢
    rw [hq3 q hq, hq2 q hq, hb1, Function.update_noteq hq]



/-- The heap left by `String_from("abc")` on the empty heap is well-formed. -/
theorem state_abc_wf : state_abc.heap.wf := by
  intro p hp
  have hp5 : 5 < p := hp
  have : p ≠ 1 := by omega
  simp [state_abc, Function.update_noteq this]

/-- C15: for every String `s` whose bytes `[0, len)` are `b` (with `len + 1 < 2^64`), over
a well-formed heap (every address above `next` is unused, which `Heap.wf_preserved` shows
of the heaps the allocator produces), and every `start ≤ stop ≤ len`, `String_substring(s, start, stop)`
returns unless the allocation fails.  The String returned has length `stop - start`, its
bytes are the bytes `[start, stop)` of `s`, its byte at its length is 0, and its capacity
is `stop - start + 1`.  It lives in an allocation at an address that was unused before
the call, and no other allocation changes: the bytes of `s` are what they were, and `s`
still holds `b` with its terminator when it did (the struct `s` itself is passed as
`const` and is not written). -/
theorem String_substring_spec (s : String) (start stop : Nat) (st : State) (b : List Nat)
    (hlen : b.length = String_len s) (hbytes : ∀ i, i < String_len s → s.byte st i = b[i]?)
    (hsz : String_len s + 1 < SIZE) (hwf : st.heap.wf) (hse : start ≤ stop)
    (hel : stop ≤ String_len s) (hno : String_substring s start stop st ≠ Outcome.abort) :
    ∃ r st', String_substring s start stop st = Outcome.ok r st' ∧
      String_len r = stop - start ∧
      (∀ i, i < stop - start → r.byte st' i = b[start + i]?) ∧
      r.byte st' (stop - start) = some 0 ∧
      String_capacity r = stop - start + 1 ∧
      r.holds st'.heap ((b.take stop).drop start) ∧
      st.heap.blocks (String_as_str r) = none ∧
      (∀ q, q ≠ String_as_str r → st'.heap.blocks q = st.heap.blocks q) ∧
      (∀ i, i < String_len s → s.byte st' i = b[i]?) ∧
      (s.holds st.heap b → s.holds st'.heap b) := by
  simp only [String_len] at hlen hbytes hsz hel
  obtain ⟨r, st', h, hh, hrl, hrc, hfresh, hframe, -⟩ :=
    String_substring_holds s start stop st b hlen hbytes hsz hwf hse hel hno
  obtain ⟨hb1, hb2⟩ := String.holds_byte r st' _ hh
  simp only [String_len, hrl] at hb1 hb2
  refine ⟨r, st', h, hrl, ?_, hb2, hrc, hh, hfresh, hframe, ?_, ?_⟩
  · intro i hi
    rw [hb1 i hi, getElem?_take_drop, if_pos (by omega)]
  · intro i hi
    simp only [String_len] at hi
    have hbi := hbytes i hi
    have hsome : ∃ x, b[i]? = some x := by
      rw [List.getElem?_eq_getElem (by omega)]; exact ⟨_, rfl⟩
    obtain ⟨x, hx⟩ := hsome
    rw [hx] at hbi
    obtain ⟨blk, hblk, -⟩ := block_of_byte_at _ _ _ _ hbi
    have hsp := Heap.block_ne_null _ _ _ hblk
    have hne : s.vec.buf.ptr ≠ r.vec.buf.ptr := by
      intro hc
      rw [Heap.block_eq_blocks _ _ hsp, hc, hfresh] at hblk
      cases hblk
    rw [← hbytes i hi]
    simp only [String.byte, byte_at, Heap.block_eq_blocks _ _ hsp]
    rw [hframe _ hne]
  · rintro ⟨ha, hl, hc, hs, hp, blk, hblk, hrest⟩
    have hne : s.vec.buf.ptr ≠ r.vec.buf.ptr := by
      intro hc
      rw [hc, hfresh] at hblk
      cases hblk
    exact ⟨ha, hl, hc, hs, hp, blk, by rw [hframe _ hne]; exact hblk, hrest⟩

/-- Witness of C15: `String_substring(s, 1, 3)` on the String left by
`String_from("abc")` returns `"bc"`. -/
theorem String_substring_spec_witness :
    ∃ r st', String_substring string_abc 1 3 state_abc = Outcome.ok r st' ∧
      String_len r = 2 ∧ r.byte st' 2 = some 0 ∧ String_capacity r = 3 ∧
      r.holds st'.heap [98, 99] ∧ string_abc.holds st'.heap [97, 98, 99] := by
  obtain ⟨r, st', h, hl, -, h0, hc, hh, -, -, -, hs⟩ :=
    String_substring_spec string_abc 1 3 state_abc [97, 98, 99] rfl
      (String.holds_byte string_abc state_abc _ string_abc_holds).1 (by decide) state_abc_wf
      (by decide) (by decide) (Outcome.ne_abort_of_ok _ _ _ rfl)
  exact ⟨r, st', h, hl, h0, hc, hh, hs string_abc_holds⟩

/-! ### String_push_str and String_push -/

/-- The bytes of a list, one list per byte, flatten to the list. -/
theorem flatten_map_singleton (b : List Nat) : (b.map fun x => [x]).flatten = b := by
  induction b with
  | nil => rfl
  | cons x xs ih => simp [ih]

/-- A String that holds bytes is a well-formed Vec of one-byte elements. -/
theorem String.holds_vec (s : String) (h : Heap) (b : List Nat) (hh : s.holds h b) :
    s.vec.holds 1 h (b.map fun x => [x]) := by
  obtain ⟨ha, hlen, hcap, hsize, hp, blk, hblk, hbl, ht, -⟩ := hh
  refine ⟨ha, by simp [hlen], by omega, hsize, by omega, ?_, Or.inr ⟨hp, blk, hblk, by omega, ?_⟩⟩
  · intro x hx
    simp only [List.mem_map] at hx
    obtain ⟨y, -, rfl⟩ := hx
    rfl
  · rw [flatten_map_singleton, Nat.mul_one, ht]

/-- `Vec_reserve` on a String that holds `b` returns unless the reallocation fails, and
the String made of the new region and the old length holds `b`, terminator included, with
room for the additional bytes. -/
theorem Vec_reserve_string (s : String) (k : Nat) (st : State) (b : List Nat)
    (hh : s.holds st.heap b) (hno : Vec_reserve s.vec k 1 st ≠ Outcome.abort)
    (hn : 2 * (s.vec.len + k) ≤ SIZE) :
    ∃ buf st1, Vec_reserve s.vec k 1 st = Outcome.ok { buf := buf, len := s.vec.len } st1 ∧
      String.holds { vec := { buf := buf, len := s.vec.len } } st1.heap b ∧
      s.vec.len + k ≤ buf.cap ∧ s.vec.buf.cap ≤ buf.cap := by
  have hvh := String.holds_vec s st.heap b hh
  obtain ⟨ha, hlen, hcap, hsize, hp, blk, hblk, hbl, ht, h0⟩ := hh
  obtain ⟨buf, st1, hr, hh1, hroom⟩ := RawVec_reserve_holds s.vec k 1 st _ hvh
    (by
      intro hc
      apply hno
      unfold Vec_reserve
      rw [hc]
      rfl)
    hn (by omega)
  have hv : Vec_reserve s.vec k 1 st = Outcome.ok { buf := buf, len := s.vec.len } st1 := by
    unfold Vec_reserve
    rw [hr]
    rfl
  obtain ⟨-, hcap', -, -⟩ := RawVec_reserve_ok _ _ _ _ _ _ _ hr
  obtain ⟨-, blk1, hblk1, hsame⟩ := Vec_reserve_bytes s.vec k 1 st _ st1 blk ha
    (by rw [Heap.block_eq_blocks _ _ hp]; exact hblk) hv
  obtain ⟨ha1, -, -, hsize1, -, -, hdisj⟩ := hh1
  simp only at ha1 hsize1 hdisj hblk1
  rcases hdisj with ⟨-, hc0⟩ | ⟨hp1, blk1', hblk1', hbl1, ht1⟩
  · omega
  · rw [Heap.block_eq_blocks _ _ hp1, hblk1'] at hblk1
    cases hblk1
    refine ⟨buf, st1, hv, ⟨ha1, hlen, by simp only; omega, hsize1, hp1, blk1, hblk1', by simp only; omega, ?_,
      ?_⟩, hroom, hcap'⟩
    · simp only
      rw [flatten_map_singleton, Nat.mul_one] at ht1
      exact ht1
    · simp only
      rw [hsame _ (by omega) (by omega)]
      exact h0

/-- The two stores of an append, of the new bytes at the length and of the terminator
after them, fit when the capacity exceeds the new length; the allocation then holds the
old bytes followed by the new ones and the terminator. -/
theorem append_stores (h : Heap) (p len cap : Nat) (b bytes blk : List Nat)
    (hp : p ≠ NULL) (hblk : h.blocks p = some blk) (hbl : blk.length = cap)
    (hlen : len = b.length) (ht : blk.take len = b) (hroom : len + bytes.length < cap) :
    ∃ h1 h2, store h p len bytes = some h1 ∧ store h1 p (len + bytes.length) [0] = some h2 ∧
      ∃ blk2, h2.blocks p = some blk2 ∧ blk2.length = cap ∧
        blk2.take (len + bytes.length) = b ++ bytes ∧ blk2[len + bytes.length]? = some 0 := by
  have hb0 : h.block p = some blk := by rw [Heap.block_eq_blocks _ _ hp]; exact hblk
  obtain ⟨h1, hs1, hb1, -, -⟩ := store_fits h p len bytes blk hb0 (by omega)
  have hl1 : (blk.take len ++ bytes ++ blk.drop (len + bytes.length)).length = cap := by
    simp only [List.length_append, List.length_take, List.length_drop]
    omega
  obtain ⟨h2, hs2, hb2, -, -⟩ := store_fits h1 p (len + bytes.length) [0] _ hb1
    (by rw [hl1]; simp only [List.length_singleton]; omega)
  rw [Heap.block_eq_blocks _ _ hp] at hb2
  refine ⟨h1, h2, hs1, hs2, _, hb2, ?_, ?_, ?_⟩
  · simp only [List.length_append, List.length_take, List.length_drop, List.length_singleton]
    omega
  · apply List.ext_getElem?
    intro i
    rw [List.getElem?_take]
    by_cases hi : i < len + bytes.length
    · rw [if_pos hi, getElem?_splice _ [0] _ i (by
        rw [hl1]; simp only [List.length_singleton]; omega), if_pos hi,
        getElem?_splice blk bytes len i (by omega)]
      by_cases h1 : i < len
      · rw [if_pos h1, List.getElem?_append_left (by omega), ← ht, List.getElem?_take, if_pos h1]
      · rw [if_neg h1, if_pos hi, List.getElem?_append_right (by omega), hlen]
    · rw [if_neg hi]
      symm
      rw [List.getElem?_eq_none_iff, List.length_append]
      omega
  · rw [getElem?_splice _ [0] _ _ (by
      rw [hl1]; simp only [List.length_singleton]; omega), if_neg (by omega), if_pos (by simp)]
    simp

/-- `String_push_str` on a String that holds `b`: when the capacity after the reserve
exceeds the new length, the call returns unless the reallocation fails, and the String
holds `b` followed by the characters of the argument, terminator included. -/
theorem String_push_str_holds (s : String) (str : List Nat) (st : State) (b : List Nat)
    (hh : s.holds st.heap b) (hno : String_push_str s str st ≠ Outcome.abort)
    (hn : 2 * (s.vec.len + strlen str) ≤ SIZE)
    (hroom : ∀ v st1, Vec_reserve s.vec (strlen str) 1 st = Outcome.ok v st1 →
      s.vec.len + strlen str < v.buf.cap) :
    ∃ s' st', String_push_str s str st = Outcome.ok s' st' ∧
      s'.holds st'.heap (b ++ c_chars str) ∧ s'.vec.len = s.vec.len + strlen str := by
  have hS : SIZE = 2 ^ 64 := rfl
  obtain ⟨buf, st1, hv, hh1, -, -⟩ := Vec_reserve_string s (strlen str) st b hh
    (by intro hc; apply hno; unfold String_push_str; rw [hc]; rfl) hn
  have hr := hroom _ _ hv
  simp only at hr
  obtain ⟨ha, hlen, -, hsize, hp, blk, hblk, hbl, ht, -⟩ := hh1
  simp only at ha hlen hsize hp hblk hbl ht
  obtain ⟨h1, h2, hs1, hs2, blk2, hb2, hbl2, ht2, h02⟩ := append_stores st1.heap buf.ptr
    s.vec.len buf.cap b (c_chars str) blk hp hblk hbl hlen ht hr
  have hmod : (s.vec.len + strlen str) % SIZE = s.vec.len + strlen str :=
    Nat.mod_eq_of_lt (by omega)
  unfold String_push_str
  rw [hv]
  simp only [Outcome.bind, hmod]
  have hs2' : store h1 buf.ptr (s.vec.len + strlen str) [0] = some h2 := hs2
  rw [hs1]
  simp only
  rw [hs2']
  exact ⟨_, _, rfl, ⟨ha, by simp [hlen, strlen], hr, hsize, hp, blk2, hb2, hbl2, ht2, h02⟩, rfl⟩

/-- `String_push` on a String that holds `b`: when the capacity after the reserve exceeds
the new length, the call returns unless the reallocation fails, and the String holds `b`
followed by the character, terminator included. -/
theorem String_push_holds (s : String) (ch : Nat) (st : State) (b : List Nat)
    (hh : s.holds st.heap b) (hno : String_push s ch st ≠ Outcome.abort)
    (hn : 2 * (s.vec.len + 1) ≤ SIZE)
    (hroom : ∀ v st1, Vec_reserve s.vec 1 1 st = Outcome.ok v st1 →
      s.vec.len + 1 < v.buf.cap) :
    ∃ s' st', String_push s ch st = Outcome.ok s' st' ∧
      s'.holds st'.heap (b ++ [ch]) ∧ s'.vec.len = s.vec.len + 1 := by
  have hS : SIZE = 2 ^ 64 := rfl
  obtain ⟨buf, st1, hv, hh1, -, -⟩ := Vec_reserve_string s 1 st b hh
    (by intro hc; apply hno; unfold String_push; rw [hc]; rfl) hn
  have hr := hroom _ _ hv
  simp only at hr
  obtain ⟨ha, hlen, -, hsize, hp, blk, hblk, hbl, ht, -⟩ := hh1
  simp only at ha hlen hsize hp hblk hbl ht
  obtain ⟨h1, h2, hs1, hs2, blk2, hb2, hbl2, ht2, h02⟩ := append_stores st1.heap buf.ptr
    s.vec.len buf.cap b [ch] blk hp hblk hbl hlen ht hr
  have hmod : (s.vec.len + 1) % SIZE = s.vec.len + 1 := Nat.mod_eq_of_lt (by omega)
  unfold String_push
  rw [hv]
  simp only [Outcome.bind, hmod]
  have hs2' : store h1 buf.ptr (s.vec.len + 1) [0] = some h2 := hs2
  rw [hs1]
  simp only
  rw [hs2']
  exact ⟨_, _, rfl, ⟨ha, by simp [hlen], hr, hsize, hp, blk2, hb2, hbl2, ht2, h02⟩, rfl⟩



/-- The capacity after a `Vec_reserve` that has to grow is the value the doubling loop
stops at. -/
theorem Vec_reserve_grows (vec : Vec) (k e : Nat) (st : State) (v : Vec) (st1 : State) (c : Nat)
    (hgt : vec.buf.cap < (vec.len + k) % SIZE)
    (hloop : RawVec_grow_loop GROW_FUEL (if vec.buf.cap = 0 then 1 else vec.buf.cap * 2 % SIZE)
      ((vec.len + k) % SIZE) = some c)
    (h : Vec_reserve vec k e st = Outcome.ok v st1) : Vec_capacity v = c := by
  unfold Vec_reserve at h
  rw [Outcome.bind_eq_ok] at h
  obtain ⟨buf, st2, hr, h⟩ := h
  cases h
  unfold RawVec_reserve at hr
  simp only at hr
  rw [if_pos hgt] at hr
  obtain ⟨-, -, -, hl⟩ := RawVec_grow_ok _ _ _ _ _ _ hr
  rw [hloop] at hl
  exact (Option.some.inj hl).symm

/-- `Vec_reserve` of 6 more bytes on a buffer of capacity 8 and length 7 doubles the
capacity to 16. -/
theorem Vec_reserve_8_to_16 (vec : Vec) (st : State) (v : Vec) (st1 : State)
    (hcap : vec.buf.cap = 8) (hlen : vec.len = 7)
    (h : Vec_reserve vec 6 1 st = Outcome.ok v st1) : v.buf.cap = 16 :=
  Vec_reserve_grows vec 6 1 st v st1 16 (by rw [hcap, hlen]; decide)
    (by rw [hcap, hlen]; decide) h

/-- C12: in every machine state, `String_from("Hello, ")` followed by
`String_push_str(&s, "world!")` returns unless an allocation fails; the String then has
length 13, its bytes `[0, 13)` are `"Hello, world!"`, which is what the C string at
`String_as_str` reads, and its byte at index 13 is 0, inside the allocation of 16
bytes. -/
theorem String_hello_world (st : State)
    (hno : ((String_from [72, 101, 108, 108, 111, 44, 32] st).bind fun s st1 =>
      String_push_str s [119, 111, 114, 108, 100, 33] st1) ≠ Outcome.abort) :
    ∃ s1 st1 s2 st2,
      String_from [72, 101, 108, 108, 111, 44, 32] st = Outcome.ok s1 st1 ∧
      String_push_str s1 [119, 111, 114, 108, 100, 33] st1 = Outcome.ok s2 st2 ∧
      String_len s2 = 13 ∧
      (∀ i, i < 13 → s2.byte st2 i
        = [72, 101, 108, 108, 111, 44, 32, 119, 111, 114, 108, 100, 33][i]?) ∧
      c_string_at st2.heap (String_as_str s2)
        = some [72, 101, 108, 108, 111, 44, 32, 119, 111, 114, 108, 100, 33] ∧
      s2.byte st2 13 = some 0 ∧ String_capacity s2 = 16 ∧
      s2.holds st2.heap [72, 101, 108, 108, 111, 44, 32, 119, 111, 114, 108, 100, 33] := by
  have hc1 : c_chars [72, 101, 108, 108, 111, 44, 32] = [72, 101, 108, 108, 111, 44, 32] := by
    decide
  have hc2 : c_chars [119, 111, 114, 108, 100, 33] = [119, 111, 114, 108, 100, 33] := by decide
  have hl1 : strlen [72, 101, 108, 108, 111, 44, 32] = 7 := by decide
  have hl2 : strlen [119, 111, 114, 108, 100, 33] = 6 := by decide
  obtain ⟨s1, st1, h1, hh1, -, hcap1, hlen1, -, -, -⟩ :=
    String_from_holds [72, 101, 108, 108, 111, 44, 32] st (by rw [hl1]; decide)
      (by intro hc; apply hno; rw [hc]; rfl)
  rw [hc1] at hh1
  rw [hl1] at hcap1 hlen1
  rw [h1] at hno
  simp only [Outcome.bind] at hno
  obtain ⟨s2, st2, h2, hh2, hlen2⟩ := String_push_str_holds s1 _ st1 _ hh1 hno
    (by rw [hlen1, hl2]; decide)
    (by
      intro v st' hv
      rw [hl2] at hv
      rw [Vec_reserve_8_to_16 s1.vec st1 v st' hcap1 hlen1 hv, hlen1, hl2]
      decide)
  rw [hc2] at hh2
  rw [hlen1, hl2] at hlen2
  have hcap2 : String_capacity s2 = 16 := by
    unfold String_push_str at h2
    rw [Outcome.bind_eq_ok] at h2
    obtain ⟨v, st', hv, h2⟩ := h2
    rw [hl2] at hv
    have h16 := Vec_reserve_8_to_16 s1.vec st1 v st' hcap1 hlen1 hv
    split at h2
    · cases h2
    · split at h2
      · cases h2
      · cases h2
        exact h16
  obtain ⟨hb1, hb2⟩ := String.holds_byte s2 st2 _ hh2
  simp only [String_len, hlen2] at hb1 hb2
  exact ⟨s1, st1, s2, st2, h1, h2, hlen2, hb1,
    String.holds_c_string s2 st2.heap _ hh2 (by decide), hb2, hcap2, hh2⟩

/-- Witness of C12: the scenario on the empty heap. -/
theorem String_hello_world_witness :
    ∃ s1 st1 s2 st2,
      String_from [72, 101, 108, 108, 111, 44, 32] state0 = Outcome.ok s1 st1 ∧
      String_push_str s1 [119, 111, 114, 108, 100, 33] st1 = Outcome.ok s2 st2 ∧
      String_len s2 = 13 ∧
      (∀ i, i < 13 → s2.byte st2 i
        = [72, 101, 108, 108, 111, 44, 32, 119, 111, 114, 108, 100, 33][i]?) ∧
      c_string_at st2.heap (String_as_str s2)
        = some [72, 101, 108, 108, 111, 44, 32, 119, 111, 114, 108, 100, 33] ∧
      s2.byte st2 13 = some 0 ∧ String_capacity s2 = 16 ∧
      s2.holds st2.heap [72, 101, 108, 108, 111, 44, 32, 119, 111, 114, 108, 100, 33] :=
  String_hello_world state0 (Outcome.ne_abort_of_ok _ _ _ rfl)

/-! ### String_insert_str and String_insert -/

/-- The move and the store of an insertion fit when the capacity exceeds the new length;
the allocation then holds the old bytes with the new ones inserted at `idx`, and the
terminator after them. -/
theorem insert_stores (h : Heap) (p len cap idx : Nat) (b bytes blk : List Nat)
    (hp : p ≠ NULL) (hblk : h.blocks p = some blk) (hbl : blk.length = cap)
    (hlen : len = b.length) (ht : blk.take len = b) (h0 : blk[len]? = some 0)
    (hidx : idx ≤ len) (hroom : len + bytes.length < cap) :
    ∃ h1 h2, memmove h p (idx + bytes.length) idx (len - idx + 1) = some h1 ∧
      store h1 p idx bytes = some h2 ∧
      ∃ blk2, h2.blocks p = some blk2 ∧ blk2.length = cap ∧
        blk2.take (len + bytes.length) = b.take idx ++ bytes ++ b.drop idx ∧
        blk2[len + bytes.length]? = some 0 := by
  have hb0 : h.block p = some blk := by rw [Heap.block_eq_blocks _ _ hp]; exact hblk
  obtain ⟨h1, hm, hb1, -, -⟩ := memmove_fits h p (idx + bytes.length) idx (len - idx + 1) blk hb0
    (by omega) (by omega)
  have hmid : ((blk.drop idx).take (len - idx + 1)).length = len - idx + 1 := by
    rw [List.length_take, List.length_drop]; omega
  have hl1 : (blk.take (idx + bytes.length) ++ (blk.drop idx).take (len - idx + 1)
      ++ blk.drop (idx + bytes.length + (len - idx + 1))).length = cap := by
    simp only [List.length_append, List.length_take, List.length_drop]
    omega
  have key1 : ∀ i, (blk.take (idx + bytes.length) ++ (blk.drop idx).take (len - idx + 1)
      ++ blk.drop (idx + bytes.length + (len - idx + 1)))[i]?
        = if i < idx + bytes.length then blk[i]?
          else if i < len + bytes.length + 1 then blk[i - bytes.length]? else blk[i]? := by
    intro i
    have := getElem?_splice blk ((blk.drop idx).take (len - idx + 1)) (idx + bytes.length) i
      (by rw [hmid]; omega)
    rw [hmid] at this
    rw [this]
    by_cases hi1 : i < idx + bytes.length
    · rw [if_pos hi1, if_pos hi1]
    · rw [if_neg hi1, if_neg hi1]
      by_cases hi2 : i < len + bytes.length + 1
      · rw [if_pos (by omega), if_pos hi2, List.getElem?_take, if_pos (by omega),
          List.getElem?_drop]
        congr 1
        omega
      · rw [if_neg (by omega), if_neg hi2]
  obtain ⟨h2, hs, hb2, -, -⟩ := store_fits h1 p idx bytes _ hb1 (by rw [hl1]; omega)
  rw [Heap.block_eq_blocks _ _ hp] at hb2
  have key2 : ∀ i, (List.take idx (blk.take (idx + bytes.length)
      ++ (blk.drop idx).take (len - idx + 1)
      ++ blk.drop (idx + bytes.length + (len - idx + 1))) ++ bytes
      ++ List.drop (idx + bytes.length) (blk.take (idx + bytes.length)
      ++ (blk.drop idx).take (len - idx + 1)
      ++ blk.drop (idx + bytes.length + (len - idx + 1))))[i]?
        = if i < idx then blk[i]? else if i < idx + bytes.length then bytes[i - idx]?
          else if i < len + bytes.length + 1 then blk[i - bytes.length]? else blk[i]? := by
    intro i
    rw [getElem?_splice _ bytes idx i (by rw [hl1]; omega), key1]
    by_cases hi0 : i < idx
    · rw [if_pos hi0, if_pos hi0, if_pos (by omega)]
    · rw [if_neg hi0, if_neg hi0]
      by_cases hi1 : i < idx + bytes.length
      · rw [if_pos hi1, if_pos hi1]
      · rw [if_neg hi1, if_neg hi1, if_neg hi1]
  refine ⟨h1, h2, hm, hs, _, hb2, ?_, ?_, ?_⟩
  · simp only [List.length_append, List.length_take, List.length_drop]
    omega
  · apply List.ext_getElem?
    intro i
    rw [List.getElem?_take, key2]
    have hbi : ∀ j, j < len → blk[j]? = b[j]? := by
      intro j hj
      rw [← ht, List.getElem?_take, if_pos hj]
    have hlt : (b.take idx).length = idx := by
      rw [List.length_take]; omega
    by_cases hi : i < len + bytes.length
    · rw [if_pos hi]
      by_cases hi0 : i < idx
      · rw [if_pos hi0, List.append_assoc, List.getElem?_append_left (by omega),
          List.getElem?_take, if_pos hi0]
        exact hbi i (by omega)
      · rw [if_neg hi0, List.append_assoc, List.getElem?_append_right (by omega), hlt]
        by_cases hi1 : i < idx + bytes.length
        · rw [if_pos hi1, List.getElem?_append_left (by omega)]
        · rw [if_neg hi1, if_pos (by omega), List.getElem?_append_right (by omega),
            List.getElem?_drop, hbi _ (by omega)]
          congr 1
          omega
    · rw [if_neg hi]
      symm
      rw [List.getElem?_eq_none_iff]
      simp only [List.length_append, List.length_take, List.length_drop]
      omega
  · rw [key2, if_neg (by omega), if_neg (by omega), if_pos (by omega)]
    rw [← h0]
    congr 1
    omega

/-- `String_insert_str` on a String that holds `b`, for `idx ≤ len`: when the capacity
after the reserve exceeds the new length, the call returns unless the reallocation fails,
and the String holds `b` with the characters of the argument inserted at `idx`,
terminator included. -/
theorem String_insert_str_holds (s : String) (idx : Nat) (str : List Nat) (st : State)
    (b : List Nat) (hh : s.holds st.heap b) (hidx : idx ≤ s.vec.len)
    (hno : String_insert_str s idx str st ≠ Outcome.abort)
    (hn : 2 * (s.vec.len + strlen str) ≤ SIZE)
    (hroom : ∀ v st1, Vec_reserve s.vec (strlen str) 1 st = Outcome.ok v st1 →
      s.vec.len + strlen str < v.buf.cap) :
    ∃ s' st', String_insert_str s idx str st = Outcome.ok s' st' ∧
      s'.holds st'.heap (b.take idx ++ c_chars str ++ b.drop idx) ∧
      s'.vec.len = s.vec.len + strlen str := by
  have hS : SIZE = 2 ^ 64 := rfl
  unfold String_insert_str at hno ⊢
  rw [if_pos hidx] at hno ⊢
  obtain ⟨buf, st1, hv, hh1, -, -⟩ := Vec_reserve_string s (strlen str) st b hh
    (by intro hc; apply hno; rw [hc]; rfl) hn
  have hr := hroom _ _ hv
  simp only at hr
  obtain ⟨ha, hlen, -, hsize, hp, blk, hblk, hbl, ht, h0⟩ := hh1
  simp only at ha hlen hsize hp hblk hbl ht h0
  obtain ⟨h1, h2, hm, hs, blk2, hb2, hbl2, ht2, h02⟩ := insert_stores st1.heap buf.ptr
    s.vec.len buf.cap idx b (c_chars str) blk hp hblk hbl hlen ht h0 hidx hr
  have hmod : (s.vec.len + strlen str) % SIZE = s.vec.len + strlen str :=
    Nat.mod_eq_of_lt (by omega)
  have hmod1 : (s.vec.len - idx + 1) % SIZE = s.vec.len - idx + 1 :=
    Nat.mod_eq_of_lt (by omega)
  have hm' : memmove st1.heap buf.ptr (idx + strlen str) idx (s.vec.len - idx + 1) = some h1 := hm
  rw [hv]
  simp only [Outcome.bind, hmod, hmod1]
  rw [hm']
  simp only
  rw [hs]
  refine ⟨_, _, rfl, ⟨ha, ?_, hr, hsize, hp, blk2, hb2, hbl2, ht2, h02⟩, rfl⟩
  simp only [List.length_append, List.length_take, List.length_drop, strlen]
  omega

/-- `String_insert` on a String that holds `b`, for `idx ≤ len`: when the capacity after
the reserve exceeds the new length, the call returns unless the reallocation fails, and
the String holds `b` with the character inserted at `idx`, terminator included. -/
theorem String_insert_holds (s : String) (idx ch : Nat) (st : State)
    (b : List Nat) (hh : s.holds st.heap b) (hidx : idx ≤ s.vec.len)
    (hno : String_insert s idx ch st ≠ Outcome.abort)
    (hn : 2 * (s.vec.len + 1) ≤ SIZE)
    (hroom : ∀ v st1, Vec_reserve s.vec 1 1 st = Outcome.ok v st1 →
      s.vec.len + 1 < v.buf.cap) :
    ∃ s' st', String_insert s idx ch st = Outcome.ok s' st' ∧
      s'.holds st'.heap (b.take idx ++ [ch] ++ b.drop idx) ∧
      s'.vec.len = s.vec.len + 1 := by
  have hS : SIZE = 2 ^ 64 := rfl
  unfold String_insert at hno ⊢
  rw [if_pos hidx] at hno ⊢
  obtain ⟨buf, st1, hv, hh1, -, -⟩ := Vec_reserve_string s 1 st b hh
    (by intro hc; apply hno; rw [hc]; rfl) hn
  have hr := hroom _ _ hv
  simp only at hr
  obtain ⟨ha, hlen, -, hsize, hp, blk, hblk, hbl, ht, h0⟩ := hh1
  simp only at ha hlen hsize hp hblk hbl ht h0
  obtain ⟨h1, h2, hm, hs, blk2, hb2, hbl2, ht2, h02⟩ := insert_stores st1.heap buf.ptr
    s.vec.len buf.cap idx b [ch] blk hp hblk hbl hlen ht h0 hidx hr
  have hmod : (s.vec.len + 1) % SIZE = s.vec.len + 1 := Nat.mod_eq_of_lt (by omega)
  have hmod1 : (s.vec.len - idx + 1) % SIZE = s.vec.len - idx + 1 :=
    Nat.mod_eq_of_lt (by omega)
  have hm' : memmove st1.heap buf.ptr (idx + 1) idx (s.vec.len - idx + 1) = some h1 := hm
  rw [hv]
  simp only [Outcome.bind, hmod, hmod1]
  rw [hm']
  simp only
  rw [hs]
  refine ⟨_, _, rfl, ⟨ha, ?_, hr, hsize, hp, blk2, hb2, hbl2, ht2, h02⟩, rfl⟩
  simp only [List.length_append, List.length_take, List.length_drop, List.length_singleton]
  omega

/-! ### The terminator after an append or an insertion -/

/-- C11 (code defect, the one of C9): `String_push_str` and `String_push` reserve room
for the new bytes but not for the terminator.  The String left by `String_from("abc")`
holds `"abc"` with its terminator in an allocation of 4 bytes; `String_push_str(&s, "d")`
finds the capacity 4 sufficient, stores `'d'` at index 3 and faults on the store of the
terminator at index 4, outside the allocation.  `String_push(&s, 'a')` on the String left
by `String_from("")` faults in the same way.  Whenever the capacity after the reserve
exceeds the new length, both calls return unless the reallocation fails, and the String
then has length `|b| + |t|` and holds `b` followed by the new bytes, with the byte 0 at
index length inside the allocation. -/
theorem String_push_str_terminator_out_of_bounds :
    (string_abc.holds state_abc.heap [97, 98, 99] ∧
      String_push_str string_abc [100] state_abc = Outcome.fault ∧
      ∃ v st1 h1, Vec_reserve string_abc.vec (strlen [100]) 1 state_abc = Outcome.ok v st1 ∧
        Vec_capacity v = 4 ∧ store st1.heap v.buf.ptr 3 [100] = some h1 ∧
        store h1 v.buf.ptr 4 [0] = none) ∧
    (∃ s st, String_from [] state0 = Outcome.ok s st ∧ s.holds st.heap [] ∧
      String_push s 97 st = Outcome.fault) ∧
    (∀ (s : String) (str : List Nat) (st : State) (b : List Nat),
      s.holds st.heap b → String_push_str s str st ≠ Outcome.abort →
      2 * (String_len s + strlen str) ≤ SIZE →
      (∀ v st1, Vec_reserve s.vec (strlen str) 1 st = Outcome.ok v st1 →
        String_len s + strlen str < Vec_capacity v) →
      ∃ s' st', String_push_str s str st = Outcome.ok s' st' ∧
        String_len s' = String_len s + strlen str ∧
        s'.holds st'.heap (b ++ c_chars str) ∧
        (∀ i, i < String_len s' → s'.byte st' i = (b ++ c_chars str)[i]?) ∧
        s'.byte st' (String_len s') = some 0) ∧
    (∀ (s : String) (ch : Nat) (st : State) (b : List Nat),
      s.holds st.heap b → String_push s ch st ≠ Outcome.abort →
      2 * (String_len s + 1) ≤ SIZE →
      (∀ v st1, Vec_reserve s.vec 1 1 st = Outcome.ok v st1 →
        String_len s + 1 < Vec_capacity v) →
      ∃ s' st', String_push s ch st = Outcome.ok s' st' ∧
        String_len s' = String_len s + 1 ∧
        s'.holds st'.heap (b ++ [ch]) ∧
        (∀ i, i < String_len s' → s'.byte st' i = (b ++ [ch])[i]?) ∧
        s'.byte st' (String_len s') = some 0) := by
  refine ⟨⟨string_abc_holds, rfl, _, _, _, rfl, rfl, rfl, rfl⟩, ?_, ?_, ?_⟩
  · refine ⟨String.mk (Vec.mk (RawVec.mk 1 1 GLOBAL_ALLOCATOR) 0), _, rfl, ?_, rfl⟩
    exact ⟨rfl, rfl, by decide, by decide, by decide, [0], rfl, rfl, rfl, rfl⟩
  · intro s str st b hh hno hn hroom
    obtain ⟨s', st', h, hh', hl⟩ := String_push_str_holds s str st b hh hno hn hroom
    obtain ⟨hb1, hb2⟩ := String.holds_byte s' st' _ hh'
    exact ⟨s', st', h, hl, hh', hb1, hb2⟩
  · intro s ch st b hh hno hn hroom
    obtain ⟨s', st', h, hh', hl⟩ := String_push_holds s ch st b hh hno hn hroom
    obtain ⟨hb1, hb2⟩ := String.holds_byte s' st' _ hh'
    exact ⟨s', st', h, hl, hh', hb1, hb2⟩

/-- Witness of C11: `String_push_str(&s, "de")` on the String left by
`String_from("abc")` grows the capacity to 8 and leaves `"abcde"`. -/
theorem String_push_str_terminator_out_of_bounds_witness :
    ∃ s' st', String_push_str string_abc [100, 101] state_abc = Outcome.ok s' st' ∧
      String_len s' = 5 ∧ s'.holds st'.heap [97, 98, 99, 100, 101] ∧
      s'.byte st' 5 = some 0 := by
  obtain ⟨s', st', h, hl, hh, -, h0⟩ :=
    String_push_str_terminator_out_of_bounds.2.2.1 string_abc [100, 101] state_abc [97, 98, 99]
      string_abc_holds (Outcome.ne_abort_of_ok _ _ _ rfl) (by decide)
      (by
        intro v st1 hv
        rw [Vec_reserve_grows _ _ _ _ v st1 8 (by decide) (by decide) hv]
        decide)
  have hl5 : String_len s' = 5 := hl
  rw [hl5] at h0
  exact ⟨s', st', h, hl5, hh, h0⟩

/-- C13 (code defect, the one of C9): `String_insert_str` and `String_insert` reserve room
for the new bytes but not for the terminator they move.  On the String left by
`String_from("abc")` (capacity 4), `String_insert_str(&s, 0, "x")` finds the capacity
sufficient and faults in `memmove`, which moves the 4 bytes `"abc\0"` to indices 1 to 4,
the last one outside the allocation.  `String_insert(&s, 0, 'a')` on the String left by
`String_from("")` faults in the same way.  Whenever the capacity after the reserve exceeds
the new length, both calls return unless the reallocation fails, and the String then has
length `len + |t|` and holds `b[0..idx) ++ t ++ b[idx..len)`, with the byte 0 at index
length inside the allocation. -/
theorem String_insert_str_out_of_bounds :
    (string_abc.holds state_abc.heap [97, 98, 99] ∧
      String_insert_str string_abc 0 [120] state_abc = Outcome.fault ∧
      ∃ v st1, Vec_reserve string_abc.vec (strlen [120]) 1 state_abc = Outcome.ok v st1 ∧
        Vec_capacity v = 4 ∧ memmove st1.heap v.buf.ptr (0 + strlen [120]) 0 4 = none) ∧
    (∃ s st, String_from [] state0 = Outcome.ok s st ∧ s.holds st.heap [] ∧
      String_insert s 0 97 st = Outcome.fault) ∧
    (∀ (s : String) (idx : Nat) (str : List Nat) (st : State) (b : List Nat),
      s.holds st.heap b → idx ≤ String_len s →
      String_insert_str s idx str st ≠ Outcome.abort →
      2 * (String_len s + strlen str) ≤ SIZE →
      (∀ v st1, Vec_reserve s.vec (strlen str) 1 st = Outcome.ok v st1 →
        String_len s + strlen str < Vec_capacity v) →
      ∃ s' st', String_insert_str s idx str st = Outcome.ok s' st' ∧
        String_len s' = String_len s + strlen str ∧
        s'.holds st'.heap (b.take idx ++ c_chars str ++ b.drop idx) ∧
        (∀ i, i < String_len s' →
          s'.byte st' i = (b.take idx ++ c_chars str ++ b.drop idx)[i]?) ∧
        s'.byte st' (String_len s') = some 0) ∧
    (∀ (s : String) (idx ch : Nat) (st : State) (b : List Nat),
      s.holds st.heap b → idx ≤ String_len s →
      String_insert s idx ch st ≠ Outcome.abort →
      2 * (String_len s + 1) ≤ SIZE →
      (∀ v st1, Vec_reserve s.vec 1 1 st = Outcome.ok v st1 →
        String_len s + 1 < Vec_capacity v) →
      ∃ s' st', String_insert s idx ch st = Outcome.ok s' st' ∧
        String_len s' = String_len s + 1 ∧
        s'.holds st'.heap (b.take idx ++ [ch] ++ b.drop idx) ∧
        (∀ i, i < String_len s' → s'.byte st' i = (b.take idx ++ [ch] ++ b.drop idx)[i]?) ∧
        s'.byte st' (String_len s') = some 0) := by
  refine ⟨⟨string_abc_holds, rfl, _, _, rfl, rfl, rfl⟩, ?_, ?_, ?_⟩
  · refine ⟨String.mk (Vec.mk (RawVec.mk 1 1 GLOBAL_ALLOCATOR) 0), _, rfl, ?_, rfl⟩
    exact ⟨rfl, rfl, by decide, by decide, by decide, [0], rfl, rfl, rfl, rfl⟩
  · intro s idx str st b hh hidx hno hn hroom
    obtain ⟨s', st', h, hh', hl⟩ := String_insert_str_holds s idx str st b hh hidx hno hn hroom
    obtain ⟨hb1, hb2⟩ := String.holds_byte s' st' _ hh'
    exact ⟨s', st', h, hl, hh', hb1, hb2⟩
  · intro s idx ch st b hh hidx hno hn hroom
    obtain ⟨s', st', h, hh', hl⟩ := String_insert_holds s idx ch st b hh hidx hno hn hroom
    obtain ⟨hb1, hb2⟩ := String.holds_byte s' st' _ hh'
    exact ⟨s', st', h, hl, hh', hb1, hb2⟩

/-- Witness of C13: `String_insert_str(&s, 1, "xy")` on the String left by
`String_from("abc")` grows the capacity to 8 and leaves `"axybc"`. -/
theorem String_insert_str_out_of_bounds_witness :
    ∃ s' st', String_insert_str string_abc 1 [120, 121] state_abc = Outcome.ok s' st' ∧
      String_len s' = 5 ∧ s'.holds st'.heap [97, 120, 121, 98, 99] ∧
      s'.byte st' 5 = some 0 := by
  obtain ⟨s', st', h, hl, hh, -, h0⟩ :=
    String_insert_str_out_of_bounds.2.2.1 string_abc 1 [120, 121] state_abc [97, 98, 99]
      string_abc_holds (by decide) (Outcome.ne_abort_of_ok _ _ _ rfl) (by decide)
      (by
        intro v st1 hv
        rw [Vec_reserve_grows _ _ _ _ v st1 8 (by decide) (by decide) hv]
        decide)
  have hl5 : String_len s' = 5 := hl
  rw [hl5] at h0
  exact ⟨s', st', h, hl5, hh, h0⟩

/-! ### Well-formed heaps -/

/-- The empty heap is well-formed, and `malloc`, `realloc`, `free` and `store` keep a
heap well-formed: the heaps a program reaches through the global allocator are
well-formed. -/
theorem Heap.wf_preserved :
    heap0.wf ∧
    (∀ (h : Heap) (size : Nat), h.wf → (malloc h size).2.wf) ∧
    (∀ (h : Heap) (p size : Nat), h.wf → (realloc h p size).2.wf) ∧
    (∀ (h : Heap) (p : Nat), h.wf → (free h p).wf) ∧
    (∀ (h : Heap) (p off : Nat) (bytes : List Nat) (h' : Heap),
      h.wf → store h p off bytes = some h' → h'.wf) := by
  have hmalloc : ∀ (h : Heap) (size : Nat), h.wf → (malloc h size).2.wf := by
    intro h size hwf p hp
    unfold malloc at hp ⊢
    by_cases hoom : h.oom h.tick = true
    · rw [if_pos hoom] at hp ⊢
      exact hwf p hp
    · rw [if_neg hoom] at hp ⊢
      simp only at hp ⊢
      have hne : p ≠ h.next + 1 := by omega
      rw [Function.update_noteq hne]
      exact hwf p (by omega)
  refine ⟨fun p _ => rfl, hmalloc, ?_, ?_, ?_⟩
  · intro h p size hwf
    unfold realloc
    split
    · exact hmalloc h size hwf
    · split
      · exact hwf
      · split
        · intro q hq
          unfold free at hq ⊢
          simp only at hq ⊢
          by_cases hqp : q = p
          · rw [hqp, Function.update_same]
          · rw [Function.update_noteq hqp]
            exact hwf q hq
        · split
          · exact hwf
          · intro q hq
            simp only at hq ⊢
            have hne : q ≠ h.next + 1 := by omega
            rw [Function.update_noteq hne]
            by_cases hqp : q = p
            · rw [hqp, Function.update_same]
            · rw [Function.update_noteq hqp]
              exact hwf q (by omega)
  · intro h p hwf q hq
    unfold free at hq ⊢
    simp only at hq ⊢
    by_cases hqp : q = p
    · rw [hqp, Function.update_same]
    · rw [Function.update_noteq hqp]
      exact hwf q hq
  · intro h p off bytes h' hwf hs q hq
    unfold store at hs
    split at hs
    · cases hs; exact hwf q hq
    · split at hs
      · cases hs
      · rename_i b hb
        split at hs
        · cases hs
          simp only at hq ⊢
          by_cases hqp : q = p
          · have hp := Heap.block_ne_null h p b hb
            rw [Heap.block_eq_blocks _ _ hp, ← hqp, hwf q hq] at hb
            cases hb
          · rw [Function.update_noteq hqp]
            exact hwf q hq
        · cases hs

/-! ### The elements of a `Vec` -/

/-- The first `k` of a list of elements of `e` bytes are the first `k * e` bytes. -/
theorem flatten_take (e : Nat) (elems : List (List Nat)) (hel : ∀ x, x ∈ elems → x.length = e) :
    ∀ k, (elems.take k).flatten = elems.flatten.take (k * e) := by
  induction elems with
  | nil => intro k; simp
  | cons x xs ih =>
    intro k
    have hx := hel x (List.mem_cons_self _ _)
    have hxs := ih (fun y hy => hel y (List.mem_cons_of_mem _ hy))
    cases k with
    | zero => simp
    | succ k =>
      simp only [List.take_succ_cons, List.flatten_cons, hxs k]
      have hk : (k + 1) * e = x.length + k * e := by rw [hx]; ring
      rw [hk, List.take_append]

/-- The element `i` of a list of elements of `e` bytes is the bytes `[i * e, i * e + e)`. -/
theorem flatten_drop_take (e : Nat) (elems : List (List Nat))
    (hel : ∀ x, x ∈ elems → x.length = e) :
    ∀ i x, elems[i]? = some x → (elems.flatten.drop (i * e)).take e = x := by
  induction elems with
  | nil => intro i x h; simp at h
  | cons y ys ih =>
    intro i x h
    have hy := hel y (List.mem_cons_self _ _)
    have hys := ih (fun z hz => hel z (List.mem_cons_of_mem _ hz))
    cases i with
    | zero =>
      simp only [List.getElem?_cons_zero, Option.some.injEq] at h
      subst h
      simp only [Nat.zero_mul, List.drop_zero, List.flatten_cons]
      rw [← hy, List.take_left]
    | succ i =>
      simp only [List.getElem?_cons_succ] at h
      have hk : (i + 1) * e = y.length + i * e := by rw [hy]; ring
      rw [List.flatten_cons, hk, List.drop_append]
      exact hys i x h

/-- Replacing the element `i` of a list of elements of `e` bytes replaces the bytes
`[i * e, i * e + e)`. -/
theorem flatten_set (e : Nat) (elems : List (List Nat)) (hel : ∀ x, x ∈ elems → x.length = e)
    (v : List Nat) :
    ∀ i, i < elems.length →
      (elems.set i v).flatten
        = elems.flatten.take (i * e) ++ v ++ elems.flatten.drop (i * e + e) := by
  induction elems with
  | nil => intro i h; simp at h
  | cons y ys ih =>
    intro i h
    have hy := hel y (List.mem_cons_self _ _)
    have hys := ih (fun z hz => hel z (List.mem_cons_of_mem _ hz))
    cases i with
    | zero =>
      simp only [List.set_cons_zero, List.flatten_cons, Nat.zero_mul, List.take_zero,
        List.nil_append, Nat.zero_add]
      rw [← hy, List.drop_left]
    | succ i =>
      simp only [List.length_cons] at h
      have hk : (i + 1) * e = y.length + i * e := by rw [hy]; ring
      have hk2 : y.length + i * e + e = y.length + (i * e + e) := by ring
      simp only [List.set_cons_succ, List.flatten_cons]
      rw [hys i (by omega), hk, List.take_append, hk2, List.drop_append]
      simp only [List.append_assoc]



/-- Reading the element `i` of a well-formed Vec in memory. -/
theorem Vec.holds_load (vec : Vec) (e : Nat) (h : Heap) (elems : List (List Nat))
    (hh : vec.holds e h elems) (i : Nat) (x : List Nat) (hx : elems[i]? = some x) :
    load h vec.buf.ptr (i * e) e = some x ∧ i * e + e ≤ vec.buf.cap * e := by
  obtain ⟨-, hlen, hle, -, -, hel, hblk⟩ := hh
  obtain ⟨hi, hxe⟩ := List.getElem?_eq_some_iff.mp hx
  have hxl : x.length = e := hel x (by rw [← hxe]; exact List.getElem_mem _)
  have hie : i * e + e ≤ vec.len * e := by
    have : (i + 1) * e ≤ vec.len * e := Nat.mul_le_mul_right e (by omega)
    have h2 : (i + 1) * e = i * e + e := by ring
    omega
  have hce : vec.len * e ≤ vec.buf.cap * e := Nat.mul_le_mul_right e hle
  refine ⟨?_, by omega⟩
  rcases Nat.eq_zero_or_pos e with he | he
  · subst he
    have : x = [] := List.eq_nil_of_length_eq_zero hxl
    subst this
    simp [load]
  · rcases hblk with ⟨-, hc0⟩ | ⟨hp, b, hb, hbl, hbt⟩
    · omega
    · have hblock : h.block vec.buf.ptr = some b := by
        rw [Heap.block_eq_blocks _ _ hp]; exact hb
      rw [load_fits h _ _ _ b hblock (by omega), ← flatten_drop_take e elems hel i x hx, ← hbt]
      congr 1
      apply List.ext_getElem?
      intro j
      rw [List.getElem?_take, List.getElem?_take, List.getElem?_drop, List.getElem?_drop,
        List.getElem?_take]
      by_cases hj : j < e
      · rw [if_pos hj, if_pos hj, if_pos (by omega)]
      · rw [if_neg hj, if_neg hj]

/-- `Vec_get` on a well-formed Vec points at the element `i`. -/
theorem Vec_get_value_holds (vec : Vec) (e : Nat) (st : State) (elems : List (List Nat))
    (hh : vec.holds e st.heap elems) (i : Nat) (x : List Nat) (hx : elems[i]? = some x) :
    Vec_get_value vec i e st = Outcome.ok x st ∧ Vec_slice_value vec i e st = some x := by
  obtain ⟨hl, hfit⟩ := Vec.holds_load vec e st.heap elems hh i x hx
  obtain ⟨hi, -⟩ := List.getElem?_eq_some_iff.mp hx
  have hlen := hh.2.1
  have hce := hh.2.2.2.2.1
  have hmod : i * e % SIZE = i * e := Nat.mod_eq_of_lt (by omega)
  refine ⟨?_, hl⟩
  unfold Vec_get_value Vec_get
  rw [if_pos (by omega)]
  simp only [Outcome.bind, hmod, hl]

/-- `Vec_set` on a well-formed Vec replaces the element `i`; the Vec and the call log are
unchanged. -/
theorem Vec_set_holds (vec : Vec) (i : Nat) (value : List Nat) (e : Nat) (st : State)
    (elems : List (List Nat)) (hh : vec.holds e st.heap elems) (hi : i < vec.len)
    (hv : value.length = e) :
    ∃ st', Vec_set vec i value e st = Outcome.ok vec st' ∧
      vec.holds e st'.heap (elems.set i value) ∧ st'.calls = st.calls := by
  obtain ⟨ha, hlen, hle, hcap, hce, hel, hblk⟩ := hh
  have hie : i * e + e ≤ vec.len * e := by
    have : (i + 1) * e ≤ vec.len * e := Nat.mul_le_mul_right e (by omega)
    have h2 : (i + 1) * e = i * e + e := by ring
    omega
  have hcle : vec.len * e ≤ vec.buf.cap * e := Nat.mul_le_mul_right e hle
  have hmod : i * e % SIZE = i * e := Nat.mod_eq_of_lt (by omega)
  have hel' : ∀ x, x ∈ elems.set i value → x.length = e := by
    intro x hx
    rcases List.mem_or_eq_of_mem_set hx with hx | hx
    · exact hel x hx
    · rw [hx]; exact hv
  unfold Vec_set
  rw [if_pos hi]
  simp only [memcpy_to, hv, lt_irrefl, if_false, List.take_of_length_le (le_of_eq hv), hmod]
  rcases Nat.eq_zero_or_pos e with he | he
  · subst he
    have hv0 : value = [] := List.eq_nil_of_length_eq_zero hv
    subst hv0
    simp only [store_nil]
    refine ⟨st, rfl, ⟨ha, by simp [hlen], hle, hcap, hce, hel', ?_⟩, rfl⟩
    rcases hblk with hn | ⟨hp, b, hb, hbl, hbt⟩
    · exact Or.inl hn
    · refine Or.inr ⟨hp, b, hb, hbl, ?_⟩
      have h1 : elems.flatten = [] :=
        List.eq_nil_of_length_eq_zero (by rw [flatten_length_of_forall 0 elems hel]; simp)
      have h2 : (elems.set i []).flatten = [] :=
        List.eq_nil_of_length_eq_zero (by rw [flatten_length_of_forall 0 _ hel']; simp)
      rw [h2, ← h1]; exact hbt
  · rcases hblk with ⟨-, hc0⟩ | ⟨hp, b, hb, hbl, hbt⟩
    · omega
    · subst hv
      have hblock : st.heap.block vec.buf.ptr = some b := by
        rw [Heap.block_eq_blocks _ _ hp]; exact hb
      obtain ⟨h', hs, hb', -, -⟩ := store_fits st.heap vec.buf.ptr (i * value.length) value b
        hblock (by omega)
      rw [hs]
      rw [Heap.block_eq_blocks _ _ hp] at hb'
      refine ⟨_, rfl, ⟨ha, by simp [hlen], hle, hcap, hce, hel', Or.inr ⟨hp, _, hb', ?_, ?_⟩⟩, rfl⟩
      · simp only [List.length_append, List.length_take, List.length_drop]
        omega
      · rw [flatten_set value.length elems hel value i (by omega), ← hbt]
        apply List.ext_getElem?
        intro j
        have hfl : (b.take (vec.len * value.length)).length = vec.len * value.length := by
          rw [List.length_take]; omega
        rw [List.getElem?_take, getElem?_splice b value (i * value.length) j (by omega),
          getElem?_splice (b.take (vec.len * value.length)) value (i * value.length) j
            (by rw [hfl]; omega)]
        by_cases hj : j < vec.len * value.length
        · rw [if_pos hj, List.getElem?_take, if_pos hj]
        · rw [if_neg hj, if_neg (by omega), if_neg (by omega), List.getElem?_take, if_neg hj]

/-- Dropping the elements from `k` on keeps a Vec well-formed over the same memory. -/
theorem Vec_truncate_holds (vec : Vec) (k e : Nat) (h : Heap) (elems : List (List Nat))
    (hh : vec.holds e h elems) : (Vec_truncate vec k).holds e h (elems.take k) := by
  obtain ⟨ha, hlen, hle, hcap, hce, hel, hblk⟩ := hh
  unfold Vec_truncate
  split
  · rename_i hk
    refine ⟨ha, ?_, by simp only; omega, hcap, hce,
      fun x hx => hel x (List.mem_of_mem_take hx), ?_⟩
    · simp only [List.length_take]; omega
    · rcases hblk with hn | ⟨hp, b, hb, hbl, hbt⟩
      · exact Or.inl hn
      · refine Or.inr ⟨hp, b, hb, hbl, ?_⟩
        simp only
        rw [flatten_take e elems hel k, ← hbt, List.take_take]
        congr 1
        have : k * e ≤ vec.len * e := Nat.mul_le_mul_right e (by omega)
        omega
  · rename_i hk
    have : elems.take k = elems := List.take_of_length_le (by omega)
    rw [this]
    exact ⟨ha, hlen, hle, hcap, hce, hel, hblk⟩



/-- C22: on a Vec that holds its elements and for `i < length` and a value of `elem_size`
bytes, `Vec_set(v, i, x)` returns the same Vec (length, capacity and region unchanged)
without an allocator call; afterwards `Vec_get(v, i)` points at `x` and `Vec_get(v, j)`
points at the element it pointed at before, for every `j ≠ i` below the length.  With an
index at or above the length, `Vec_get` and `Vec_set` stop in the failed assertion. -/
theorem Vec_set_get :
    (∀ (vec : Vec) (i : Nat) (x : List Nat) (e : Nat) (st : State) (elems : List (List Nat)),
      vec.holds e st.heap elems → i < Vec_len vec → x.length = e →
      ∃ st', Vec_set vec i x e st = Outcome.ok vec st' ∧
        Vec_get_value vec i e st' = Outcome.ok x st' ∧
        (∀ j y, j ≠ i → elems[j]? = some y →
          Vec_get_value vec j e st = Outcome.ok y st ∧
          Vec_get_value vec j e st' = Outcome.ok y st') ∧
        vec.holds e st'.heap (elems.set i x) ∧ st'.calls = st.calls) ∧
    (∀ (vec : Vec) (i e : Nat) (st : State), Vec_len vec ≤ i →
      Vec_get vec i e st = Outcome.abort) ∧
    (∀ (vec : Vec) (i : Nat) (x : List Nat) (e : Nat) (st : State), Vec_len vec ≤ i →
      Vec_set vec i x e st = Outcome.abort) := by
  refine ⟨?_, ?_, ?_⟩
  · intro vec i x e st elems hh hi hx
    obtain ⟨st', hs, hh', hc⟩ := Vec_set_holds vec i x e st elems hh hi hx
    have hlen : vec.len = elems.length := hh.2.1
    refine ⟨st', hs, ?_, ?_, hh', hc⟩
    · refine (Vec_get_value_holds vec e st' _ hh' i x ?_).1
      simp only [Vec_len] at hi
      exact List.getElem?_set_self (by rw [← hlen]; exact hi)
    · intro j y hj hy
      refine ⟨(Vec_get_value_holds vec e st _ hh j y hy).1,
        (Vec_get_value_holds vec e st' _ hh' j y ?_).1⟩
      rw [List.getElem?_set_ne (Ne.symm hj)]
      exact hy
  · intro vec i e st hi
    simp only [Vec_len] at hi
    simp only [Vec_get]
    rw [if_neg (by omega)]
  · intro vec i x e st hi
    simp only [Vec_len] at hi
    simp only [Vec_set]
    rw [if_neg (by omega)]

/-- Witness of C22: `TEST(get_and_set)`: after pushing 10, 20, 30, 40, 50, `Vec_set` at
index 2 with 100 makes `Vec_get(2)` read 100 and leaves index 3 reading 40. -/
theorem Vec_set_get_witness :
    ∃ vec st, Vec_push_all 4 [[10, 0, 0, 0], [20, 0, 0, 0], [30, 0, 0, 0], [40, 0, 0, 0],
        [50, 0, 0, 0]] Vec_new state0 = Outcome.ok vec st ∧
      ∃ st', Vec_set vec 2 [100, 0, 0, 0] 4 st = Outcome.ok vec st' ∧
        Vec_get_value vec 2 4 st' = Outcome.ok [100, 0, 0, 0] st' ∧
        Vec_get_value vec 3 4 st' = Outcome.ok [40, 0, 0, 0] st' := by
  obtain ⟨vec, st, h, hh⟩ := Vec_push_all_holds 4 [[10, 0, 0, 0], [20, 0, 0, 0], [30, 0, 0, 0],
    [40, 0, 0, 0], [50, 0, 0, 0]] Vec_new state0 [] (Vec_new_holds 4 _) (by decide)
    (Outcome.ne_abort_of_ok _ _ _ rfl) (by decide) (by decide)
  have hlen : vec.len = 5 := hh.2.1
  obtain ⟨st', hs, hg, hother, -, -⟩ := Vec_set_get.1 vec 2 [100, 0, 0, 0] 4 st _ hh
    (by rw [Vec_len, hlen]; decide) rfl
  exact ⟨vec, st, h, st', hs, hg, (hother 3 [40, 0, 0, 0] (by decide) rfl).2⟩



/-- C23: `Vec_truncate(v, new_len)` returns `v` itself when `new_len` is at least the
length.  Otherwise the length becomes `new_len` while the region and the capacity are
unchanged.  In both cases a Vec that held `elems` holds the first `new_len` of them over
the same memory, and the length never increases. -/
theorem Vec_truncate_spec :
    (∀ (vec : Vec) (new_len : Nat), Vec_len vec ≤ new_len → Vec_truncate vec new_len = vec) ∧
    (∀ (vec : Vec) (new_len : Nat), new_len < Vec_len vec →
      Vec_len (Vec_truncate vec new_len) = new_len ∧
      (Vec_truncate vec new_len).buf = vec.buf ∧
      Vec_capacity (Vec_truncate vec new_len) = Vec_capacity vec ∧
      Vec_as_slice (Vec_truncate vec new_len) = Vec_as_slice vec) ∧
    (∀ (vec : Vec) (new_len e : Nat) (h : Heap) (elems : List (List Nat)),
      vec.holds e h elems → (Vec_truncate vec new_len).holds e h (elems.take new_len)) ∧
    (∀ (vec : Vec) (new_len : Nat), Vec_len (Vec_truncate vec new_len) ≤ Vec_len vec) ∧
    (∀ (vec : Vec) (new_len : Nat) (st : State),
      (VecOp.truncate new_len).run vec st = Outcome.ok (Vec_truncate vec new_len) st) := by
  refine ⟨?_, ?_, ?_, ?_, ?_⟩
  · intro vec new_len h
    simp only [Vec_len] at h
    simp only [Vec_truncate]
    rw [if_neg (by omega)]
  · intro vec new_len h
    simp only [Vec_len] at h
    simp only [Vec_truncate, Vec_len, Vec_capacity, Vec_as_slice]
    rw [if_pos h]
    exact ⟨rfl, rfl, rfl, rfl⟩
  · intro vec new_len e h elems hh
    exact Vec_truncate_holds vec new_len e h elems hh
  · intro vec new_len
    simp only [Vec_truncate, Vec_len]
    split
    · simp only; omega
    · exact le_refl _
  · intro vec new_len st
    rfl

/-- Witness of C23: `Vec_truncate` to 3 and to 9 on a Vec of length 5 and capacity 8. -/
theorem Vec_truncate_spec_witness :
    Vec_len (Vec_truncate { buf := { ptr := 1, cap := 8, alloc := GLOBAL_ALLOCATOR }, len := 5 } 3)
        = 3 ∧
      Vec_capacity
        (Vec_truncate { buf := { ptr := 1, cap := 8, alloc := GLOBAL_ALLOCATOR }, len := 5 } 3)
        = 8 ∧
      Vec_len (Vec_truncate { buf := { ptr := 1, cap := 8, alloc := GLOBAL_ALLOCATOR }, len := 5 } 9)
        = 5 := by
  have h1 := Vec_truncate_spec.2.1
    { buf := { ptr := 1, cap := 8, alloc := GLOBAL_ALLOCATOR }, len := 5 } 3 (by decide)
  have h2 := Vec_truncate_spec.1
    { buf := { ptr := 1, cap := 8, alloc := GLOBAL_ALLOCATOR }, len := 5 } 9 (by decide)
  exact ⟨h1.1, h1.2.2.1, by rw [h2]; rfl⟩

/-- C25: `Vec_clear(v)` sets the length to 0, so that `Vec_is_empty` is true, and leaves
the region, the capacity and the allocator unchanged; it touches neither the heap nor the
allocator (the machine state after the call is the state before it). -/
theorem Vec_clear_spec :
    (∀ vec : Vec, Vec_len (Vec_clear vec) = 0 ∧ Vec_is_empty (Vec_clear vec) = true ∧
      Vec_capacity (Vec_clear vec) = Vec_capacity vec ∧
      Vec_as_slice (Vec_clear vec) = Vec_as_slice vec ∧ (Vec_clear vec).buf = vec.buf) ∧
    (∀ (vec : Vec) (st : State),
      VecOp.clear.run vec st = Outcome.ok (Vec_clear vec) st) :=
  ⟨fun _ => ⟨rfl, rfl, rfl, rfl, rfl⟩, fun _ _ => rfl⟩

/-! ### String_truncate and String_pop -/

/-- The store of the terminator at an index inside the allocation of a String keeps the
bytes before it. -/
theorem terminator_store (h : Heap) (p k : Nat) (blk : List Nat) (hp : p ≠ NULL)
    (hblk : h.blocks p = some blk) (hk : k < blk.length) :
    ∃ h', store h p k [0] = some h' ∧
      ∃ blk', h'.blocks p = some blk' ∧ blk'.length = blk.length ∧
        blk'.take k = blk.take k ∧ blk'[k]? = some 0 := by
  have hb0 : h.block p = some blk := by rw [Heap.block_eq_blocks _ _ hp]; exact hblk
  obtain ⟨h', hs, hb', -, -⟩ := store_fits h p k [0] blk hb0 (by simp only [List.length_singleton]; omega)
  rw [Heap.block_eq_blocks _ _ hp] at hb'
  refine ⟨h', hs, _, hb', ?_, ?_, ?_⟩
  · simp only [List.length_append, List.length_take, List.length_drop, List.length_singleton]
    omega
  · rw [List.append_assoc, List.take_append_of_le_length (by simp only [List.length_take]; omega),
      List.take_take]
    simp
  · rw [getElem?_splice blk [0] k k (by simp only [List.length_singleton]; omega),
      if_neg (by omega), if_pos (by simp)]
    simp

/-- `String_truncate` on a String that holds `b`, for `new_len ≤ len`: it returns, and
the String holds the first `new_len` bytes of `b`, terminator included, in the same
allocation. -/
theorem String_truncate_holds (s : String) (new_len : Nat) (st : State) (b : List Nat)
    (hh : s.holds st.heap b) (hle : new_len ≤ s.vec.len) :
    ∃ st', String_truncate s new_len st
        = Outcome.ok { vec := { buf := s.vec.buf, len := new_len } } st' ∧
      String.holds { vec := { buf := s.vec.buf, len := new_len } } st'.heap (b.take new_len) ∧
      st'.calls = st.calls := by
  obtain ⟨ha, hlen, hcap, hsize, hp, blk, hblk, hbl, ht, h0⟩ := hh
  obtain ⟨h', hs, blk', hb', hbl', ht', h0'⟩ := terminator_store st.heap s.vec.buf.ptr new_len blk
    hp hblk (by omega)
  unfold String_truncate
  rw [if_pos hle, hs]
  refine ⟨_, rfl, ⟨ha, ?_, by simp only; omega, hsize, hp, blk', hb', by simp only; omega, ?_, h0'⟩, rfl⟩
  · simp only [List.length_take]; omega
  · simp only
    rw [ht', ← ht, List.take_take]
    congr 1
    omega

/-- `String_pop` on a non-empty String that holds `b`: it returns the last byte, and the
String holds the bytes before it, terminator included, in the same allocation. -/
theorem String_pop_holds (s : String) (st : State) (b : List Nat)
    (hh : s.holds st.heap b) (hpos : 0 < s.vec.len) :
    ∃ c st', String_pop s st
        = Outcome.ok (c, { vec := { buf := s.vec.buf, len := s.vec.len - 1 } }) st' ∧
      b[s.vec.len - 1]? = some c ∧
      String.holds { vec := { buf := s.vec.buf, len := s.vec.len - 1 } } st'.heap
        (b.take (s.vec.len - 1)) ∧
      st'.calls = st.calls := by
  obtain ⟨ha, hlen, hcap, hsize, hp, blk, hblk, hbl, ht, h0⟩ := hh
  have hb0 : st.heap.block s.vec.buf.ptr = some blk := by
    rw [Heap.block_eq_blocks _ _ hp]; exact hblk
  obtain ⟨h', hs, blk', hb', hbl', ht', h0'⟩ := terminator_store st.heap s.vec.buf.ptr
    (s.vec.len - 1) blk hp hblk (by omega)
  have hc : ∃ c, blk[s.vec.len - 1]? = some c := by
    rw [List.getElem?_eq_getElem (by omega)]
    exact ⟨_, rfl⟩
  obtain ⟨c, hc⟩ := hc
  have hload : (blk.drop (s.vec.len - 1)).take 1 = [c] := by
    apply List.ext_getElem?
    intro i
    rw [List.getElem?_take]
    by_cases hi : i < 1
    · have : i = 0 := by omega
      subst this
      simp [List.getElem?_drop, hc]
    · rw [if_neg hi]
      have : 1 ≤ i := by omega
      simp [this]
  refine ⟨c, { st with heap := h' }, ?_, ?_, ?_, rfl⟩
  · unfold String_pop
    rw [if_neg (by omega), load_fits _ _ _ _ blk hb0 (by omega), hload]
    simp only [hs, List.headD_cons]
  · rw [← ht, List.getElem?_take, if_pos (by omega), hc]
  · refine ⟨ha, ?_, by simp only; omega, hsize, hp, blk', hb', by simp only; omega, ?_, h0'⟩
    · simp only [List.length_take]; omega
    · simp only
      rw [ht', ← ht, List.take_take]
      congr 1
      omega

/-- C26 (code defect): `String_truncate` stores the terminator without looking at the
region.  On the String returned by `String_new()`, whose region is null, and
`new_len = 0 ≤ length`, the store goes through the null pointer in every machine state:
no write inside an allocated region takes place (`String_clear` guards the same store
with `if (s->vec.buf.ptr)`).  The rest of the claim holds: with `new_len > length` the
call returns the String and the machine state unchanged; on a String that holds `b` with
its terminator and `new_len ≤ length`, the call returns, the length becomes `new_len`,
the bytes `[0, new_len)` are kept and the byte at index `new_len` is 0, inside the
allocation, the capacity and the call log being unchanged. -/
theorem String_truncate_null_region :
    (String_len String_new = 0 ∧ String_as_str String_new = NULL ∧
      ∀ st : State, String_truncate String_new 0 st = Outcome.fault) ∧
    (∀ (s : String) (new_len : Nat) (st : State), String_len s < new_len →
      String_truncate s new_len st = Outcome.ok s st) ∧
    (∀ (s : String) (new_len : Nat) (st : State) (b : List Nat),
      s.holds st.heap b → new_len ≤ String_len s →
      ∃ s' st', String_truncate s new_len st = Outcome.ok s' st' ∧
        String_len s' = new_len ∧ String_capacity s' = String_capacity s ∧
        s'.holds st'.heap (b.take new_len) ∧
        (∀ i, i < new_len → s'.byte st' i = b[i]?) ∧
        s'.byte st' new_len = some 0 ∧ new_len < String_capacity s' ∧
        st'.calls = st.calls) := by
  refine ⟨⟨rfl, rfl, ?_⟩, ?_, ?_⟩
  · intro st
    simp [String_truncate, String_new, Vec_new, RawVec_new, store, Heap.block]
  · intro s new_len st h
    simp only [String_len] at h
    unfold String_truncate
    rw [if_neg (by omega)]
  · intro s new_len st b hh hle
    simp only [String_len] at hle
    obtain ⟨st', hr, hh', hc⟩ := String_truncate_holds s new_len st b hh hle
    obtain ⟨hb1, hb2⟩ := String.holds_byte _ st' _ hh'
    simp only [String_len] at hb1 hb2
    have hcap := hh.2.2.1
    refine ⟨_, st', hr, rfl, rfl, hh', ?_, hb2, ?_, hc⟩
    · intro i hi
      rw [hb1 i hi, List.getElem?_take, if_pos hi]
    · simp only [String_capacity, Vec_capacity, RawVec_capacity]
      omega

/-- Witness of C26: `String_truncate(&s, 1)` on the String left by `String_from("abc")`
leaves `"a"`. -/
theorem String_truncate_null_region_witness :
    ∃ s' st', String_truncate string_abc 1 state_abc = Outcome.ok s' st' ∧
      String_len s' = 1 ∧ s'.holds st'.heap [97] ∧ s'.byte st' 1 = some 0 := by
  obtain ⟨s', st', h, hl, -, hh, -, h0, -, -⟩ :=
    String_truncate_null_region.2.2 string_abc 1 state_abc [97, 98, 99] string_abc_holds
      (by decide)
  exact ⟨s', st', h, hl, hh, h0⟩

/-- `String_pop` on a non-empty String whose bytes `[0, len)` are `b`: it returns the
last byte, keeps the bytes before it and stores 0 at the new length. -/
theorem String_pop_bytes (s : String) (st : State) (b : List Nat)
    (hlen : b.length = s.vec.len) (hbytes : ∀ i, i < s.vec.len → s.byte st i = b[i]?)
    (hpos : 0 < s.vec.len) :
    ∃ c st', String_pop s st
        = Outcome.ok (c, { vec := { buf := s.vec.buf, len := s.vec.len - 1 } }) st' ∧
      b[s.vec.len - 1]? = some c ∧
      (∀ i, i < s.vec.len - 1 → byte_at st'.heap s.vec.buf.ptr i = b[i]?) ∧
      byte_at st'.heap s.vec.buf.ptr (s.vec.len - 1) = some 0 ∧ st'.calls = st.calls := by
  have hc : ∃ c, b[s.vec.len - 1]? = some c := by
    rw [List.getElem?_eq_getElem (by omega)]
    exact ⟨_, rfl⟩
  obtain ⟨c, hc⟩ := hc
  have hlast := hbytes (s.vec.len - 1) (by omega)
  rw [hc] at hlast
  obtain ⟨blk, hb0, hblk_c, hin⟩ := block_of_byte_at _ _ _ _ hlast
  have hp := Heap.block_ne_null _ _ _ hb0
  have hblk : st.heap.blocks s.vec.buf.ptr = some blk := by
    rw [← Heap.block_eq_blocks _ _ hp]; exact hb0
  obtain ⟨h', hs, blk', hb', hbl', ht', h0'⟩ := terminator_store st.heap s.vec.buf.ptr
    (s.vec.len - 1) blk hp hblk hin
  have hb0' : h'.block s.vec.buf.ptr = some blk' := by
    rw [Heap.block_eq_blocks _ _ hp]; exact hb'
  have hload : (blk.drop (s.vec.len - 1)).take 1 = [c] := by
    apply List.ext_getElem?
    intro i
    rw [List.getElem?_take]
    by_cases hi : i < 1
    · have : i = 0 := by omega
      subst this
      simp [List.getElem?_drop, hblk_c]
    · rw [if_neg hi]
      have : 1 ≤ i := by omega
      simp [this]
  refine ⟨c, { st with heap := h' }, ?_, hc, ?_, ?_, rfl⟩
  · unfold String_pop
    rw [if_neg (by omega), load_fits _ _ _ _ blk hb0 (by omega), hload]
    simp only [hs, List.headD_cons]
  · intro i hi
    have h1 := hbytes i (by omega)
    rw [String.byte, byte_at_of_block _ _ _ _ hb0] at h1
    rw [byte_at_of_block _ _ _ _ hb0', ← h1]
    have h2 : (blk'.take (s.vec.len - 1))[i]? = (blk.take (s.vec.len - 1))[i]? := by rw [ht']
    rw [List.getElem?_take, List.getElem?_take, if_pos hi, if_pos hi] at h2
    exact h2
  · rw [byte_at_of_block _ _ _ _ hb0']
    exact h0'

/-- C27: on a non-empty String whose bytes `[0, len)` are `b`, `String_pop` returns the
last byte `b[len-1]`; the length becomes `len - 1`, the bytes `[0, len-1)` are kept, the
byte at the new length is 0, and the region, the capacity and the call log are unchanged;
a String that held `b` with its terminator holds `b` without its last byte with its
terminator.  On a String of length 0, allocated or not, it returns `'\0'` and the String
and the machine state are unchanged. -/
theorem String_pop_spec :
    (∀ (s : String) (st : State) (b : List Nat),
      b.length = String_len s → (∀ i, i < String_len s → s.byte st i = b[i]?) →
      0 < String_len s →
      ∃ c s' st', String_pop s st = Outcome.ok (c, s') st' ∧
        b[String_len s - 1]? = some c ∧
        String_len s' = String_len s - 1 ∧ String_capacity s' = String_capacity s ∧
        String_as_str s' = String_as_str s ∧
        (∀ i, i < String_len s' → s'.byte st' i = b[i]?) ∧
        s'.byte st' (String_len s') = some 0 ∧ st'.calls = st.calls ∧
        (s.holds st.heap b → s'.holds st'.heap (b.take (String_len s - 1)))) ∧
    (∀ (s : String) (st : State), String_len s = 0 →
      String_pop s st = Outcome.ok (0, s) st) := by
  refine ⟨?_, ?_⟩
  · intro s st b hlen hbytes hpos
    simp only [String_len] at hlen hbytes hpos
    obtain ⟨c, st', hr, hc, hkeep, h0, hcalls⟩ := String_pop_bytes s st b hlen hbytes hpos
    refine ⟨c, _, st', hr, hc, rfl, rfl, rfl, hkeep, h0, hcalls, ?_⟩
    intro hh
    obtain ⟨c2, st2, hr2, -, hh2, -⟩ := String_pop_holds s st b hh hpos
    rw [hr] at hr2
    cases hr2
    exact hh2
  · intro s st h
    simp only [String_len] at h
    unfold String_pop
    rw [if_pos h]

/-- Witness of C27: `String_pop` on the String left by `String_from("abc")` returns `'c'`
and leaves `"ab"`; on `String_new()` it returns `'\0'`. -/
theorem String_pop_spec_witness :
    (∃ s' st', String_pop string_abc state_abc = Outcome.ok (99, s') st' ∧
      String_len s' = 2 ∧ s'.holds st'.heap [97, 98] ∧ s'.byte st' 2 = some 0) ∧
    String_pop String_new state0 = Outcome.ok (0, String_new) state0 := by
  obtain ⟨c, s', st', hr, hc, hl, -, -, -, h0, -, hh⟩ :=
    String_pop_spec.1 string_abc state_abc [97, 98, 99] rfl
      (String.holds_byte string_abc state_abc _ string_abc_holds).1 (by decide)
  have hc99 : c = 99 := by
    have : ([97, 98, 99] : List Nat)[String_len string_abc - 1]? = some 99 := rfl
    rw [this] at hc
    exact (Option.some.inj hc).symm
  subst hc99
  have hl2 : String_len s' = 2 := hl
  rw [hl2] at h0
  exact ⟨⟨s', st', hr, hl2, hh string_abc_holds, h0⟩, String_pop_spec.2 String_new state0 rfl⟩

/-! ### `String_compare` and `String_equals` -/

/-- `strcmp` on two terminated byte strings without 0: it returns, and the sign of its
result is the lexicographic order of the bytes. -/
theorem strcmp_loop_spec (A : List Nat) :
    ∀ (B ra rb : List Nat), (∀ c, c ∈ A → c ≠ 0) → (∀ c, c ∈ B → c ≠ 0) →
      ∃ r, strcmp_loop (A ++ 0 :: ra) (B ++ 0 :: rb) = some r ∧
        (r < 0 ↔ List.Lex (fun x y => x < y) A B) ∧ (r = 0 ↔ A = B) ∧
        (0 < r ↔ List.Lex (fun x y => x < y) B A) := by
  induction A with
  | nil =>
    intro B ra rb _ hB
    cases B with
    | nil =>
      refine ⟨0, by simp [strcmp_loop], ?_, by simp, ?_⟩
      · simp only [lt_irrefl, false_iff]
        intro h; cases h
      · simp only [lt_irrefl, false_iff]
        intro h; cases h
    | cons y ys =>
      have hy : y ≠ 0 := hB y (List.mem_cons_self _ _)
      refine ⟨(0 : Int) - (y : Int), ?_, ?_, ?_, ?_⟩
      · simp only [List.nil_append, List.cons_append, strcmp_loop]
        rw [if_neg (Ne.symm hy)]
        rfl
      · constructor
        · intro _; exact List.Lex.nil
        · intro _; omega
      · constructor
        · intro h; omega
        · intro h; cases h
      · constructor
        · intro h; omega
        · intro h; cases h
  | cons x xs ih =>
    intro B ra rb hA hB
    have hx : x ≠ 0 := hA x (List.mem_cons_self _ _)
    have hxs : ∀ c, c ∈ xs → c ≠ 0 := fun c hc => hA c (List.mem_cons_of_mem _ hc)
    cases B with
    | nil =>
      refine ⟨(x : Int) - (0 : Int), ?_, ?_, ?_, ?_⟩
      · simp only [List.nil_append, List.cons_append, strcmp_loop]
        rw [if_neg hx]
        rfl
      · constructor
        · intro h; omega
        · intro h; cases h
      · constructor
        · intro h; omega
        · intro h; cases h
      · constructor
        · intro _; exact List.Lex.nil
        · intro _; omega
    | cons y ys =>
      have hy : y ≠ 0 := hB y (List.mem_cons_self _ _)
      have hys : ∀ c, c ∈ ys → c ≠ 0 := fun c hc => hB c (List.mem_cons_of_mem _ hc)
      by_cases hxy : x = y
      · subst hxy
        obtain ⟨r, hr, h1, h2, h3⟩ := ih ys ra rb hxs hys
        refine ⟨r, ?_, ?_, ?_, ?_⟩
        · simp only [List.cons_append, strcmp_loop, if_true, if_neg hx]
          exact hr
        · rw [h1]
          constructor
          · intro h; exact List.Lex.cons h
          · intro h
            cases h with
            | cons h => exact h
            | rel h => exact absurd h (lt_irrefl _)
        · rw [h2]
          constructor
          · intro h; rw [h]
          · intro h; exact (List.cons.inj h).2
        · rw [h3]
          constructor
          · intro h; exact List.Lex.cons h
          · intro h
            cases h with
            | cons h => exact h
            | rel h => exact absurd h (lt_irrefl _)
      · refine ⟨(x : Int) - (y : Int), ?_, ?_, ?_, ?_⟩
        · simp only [List.cons_append, strcmp_loop]
          rw [if_neg hxy]
        · constructor
          · intro h
            exact List.Lex.rel (by omega)
          · intro h
            cases h with
            | cons h => exact absurd rfl hxy
            | rel h => omega
        · constructor
          · intro h; omega
          · intro h; exact absurd (List.cons.inj h).1 hxy
        · constructor
          · intro h
            exact List.Lex.rel (by omega)
          · intro h
            cases h with
            | cons h => exact absurd rfl hxy
            | rel h => omega

/-- The allocation of a String that holds `bytes` starts with the bytes and the
terminator. -/
theorem String.holds_block (s : String) (h : Heap) (bytes : List Nat) (hh : s.holds h bytes) :
    ∃ rest, h.block (String_as_str s) = some (bytes ++ 0 :: rest) := by
  obtain ⟨-, hlen, hcap, -, hp, b, hb, hbl, ht, h0⟩ := hh
  refine ⟨b.drop (s.vec.len + 1), ?_⟩
  unfold String_as_str
  rw [Heap.block_eq_blocks _ _ hp, hb]
  congr 1
  apply List.ext_getElem?
  intro i
  by_cases h1 : i < s.vec.len
  · rw [List.getElem?_append_left (by omega), ← ht, List.getElem?_take, if_pos h1]
  · rw [List.getElem?_append_right (by omega)]
    by_cases h2 : i = s.vec.len
    · subst h2
      rw [h0, ← hlen]
      simp
    · have h3 : i - bytes.length = (i - bytes.length - 1) + 1 := by omega
      rw [h3, List.getElem?_cons_succ, List.getElem?_drop]
      congr 1
      omega

/-- `String_compare` on two Strings that hold bytes without 0 returns, and the sign of
its result is the lexicographic order of the bytes. -/
theorem String_compare_holds (a b : String) (st : State) (A B : List Nat)
    (ha : a.holds st.heap A) (hb : b.holds st.heap B)
    (hA : ∀ c, c ∈ A → c ≠ 0) (hB : ∀ c, c ∈ B → c ≠ 0) :
    ∃ r, String_compare a b st = Outcome.ok r st ∧
      (r < 0 ↔ List.Lex (fun x y => x < y) A B) ∧ (r = 0 ↔ A = B) ∧
      (0 < r ↔ List.Lex (fun x y => x < y) B A) := by
  obtain ⟨ra, hra⟩ := String.holds_block a st.heap A ha
  obtain ⟨rb, hrb⟩ := String.holds_block b st.heap B hb
  obtain ⟨r, hr, h1, h2, h3⟩ := strcmp_loop_spec A B ra rb hA hB
  refine ⟨r, ?_, h1, h2, h3⟩
  simp only [String_compare, strcmp, hra, hrb, hr]



/-- C28: for two Strings that hold the bytes `A` and `B` with their terminators, none of
the bytes being 0, `String_compare(a, b)` returns a value that is negative exactly when
`A` is lexicographically less than `B` (bytes compared as naturals), zero exactly when
`A = B` and positive exactly when `B` is lexicographically less than `A`;
`String_equals(a, b)` returns true exactly when `A = B`, that is when the two Strings have
the same length and the same byte at every index below it. -/
theorem String_compare_spec (a b : String) (st : State) (A B : List Nat)
    (ha : a.holds st.heap A) (hb : b.holds st.heap B)
    (hA : ∀ c, c ∈ A → c ≠ 0) (hB : ∀ c, c ∈ B → c ≠ 0) :
    ∃ r eq, String_compare a b st = Outcome.ok r st ∧
      String_equals a b st = Outcome.ok eq st ∧
      (r < 0 ↔ List.Lex (fun x y => x < y) A B) ∧ (r = 0 ↔ A = B) ∧
      (0 < r ↔ List.Lex (fun x y => x < y) B A) ∧
      (eq = true ↔ A = B) ∧
      (A = B ↔ String_len a = String_len b ∧
        ∀ i, i < String_len a → a.byte st i = b.byte st i) := by
  obtain ⟨r, hr, h1, h2, h3⟩ := String_compare_holds a b st A B ha hb hA hB
  refine ⟨r, r == 0, hr, ?_, h1, h2, h3, ?_, ?_⟩
  · simp only [String_equals, hr, Outcome.bind]
  · rw [← h2]
    simp
  · obtain ⟨hba, -⟩ := String.holds_byte a st A ha
    obtain ⟨hbb, -⟩ := String.holds_byte b st B hb
    have hla : a.vec.len = A.length := ha.2.1
    have hlb : b.vec.len = B.length := hb.2.1
    simp only [String_len] at hba hbb ⊢
    constructor
    · intro h
      subst h
      refine ⟨by rw [hla, hlb], fun i hi => ?_⟩
      rw [hba i hi, hbb i (by omega)]
    · rintro ⟨hl, hbytes⟩
      apply List.ext_getElem?
      intro i
      by_cases hi : i < a.vec.len
      · rw [← hba i hi, ← hbb i (by omega)]
        exact hbytes i hi
      · rw [List.getElem?_eq_none_iff.mpr (by omega), List.getElem?_eq_none_iff.mpr (by omega)]

/-- Witness of C28: `"abc"` compared with `"abd"` is negative and the two are not
equal. -/
theorem String_compare_spec_witness :
    ∃ s2 st2, String_from [97, 98, 100] state_abc = Outcome.ok s2 st2 ∧
      ∃ r, String_compare string_abc s2 st2 = Outcome.ok r st2 ∧ r < 0 ∧
        String_equals string_abc s2 st2 = Outcome.ok false st2 := by
  obtain ⟨s2, st2, h, hh2, -, -, -, hblocks, -, -⟩ :=
    String_from_holds [97, 98, 100] state_abc (by decide) (Outcome.ne_abort_of_ok _ _ _ rfl)
  have hc : c_chars [97, 98, 100] = [97, 98, 100] := by decide
  rw [hc] at hh2
  have hh1 : string_abc.holds st2.heap [97, 98, 99] :=
    ⟨rfl, rfl, by decide, by decide, by decide, [97, 98, 99, 0],
      by rw [hblocks]; simp [state_abc, string_abc], rfl, rfl, rfl⟩
  obtain ⟨r, eq, hr, he, h1, -, -, h4, -⟩ :=
    String_compare_spec string_abc s2 st2 [97, 98, 99] [97, 98, 100] hh1 hh2
      (by decide) (by decide)
  have hlt : r < 0 := h1.mpr (List.Lex.cons (List.Lex.cons (List.Lex.rel (by decide))))
  have hne : eq = false := by
    cases eq with
    | false => rfl
    | true => exact absurd (h4.mp rfl) (by decide)
  rw [hne] at he
  exact ⟨s2, st2, h, r, hr, hlt, he⟩

/-! ### Growth bounds of `RawVec_grow` and `RawVec_reserve` -/

/-- `RawVec_grow` when the first value of the doubling sequence that reaches the needed
capacity is a `size_t`: it returns unless the allocation fails, with that capacity, which
exceeds the old one. -/
theorem RawVec_grow_first_doubling (vec : RawVec) (n e : Nat) (st : State) (v : Nat)
    (hv : IsFirstDoubling (if vec.cap = 0 then 1 else 2 * vec.cap) n v) (hov : v < SIZE)
    (hno : RawVec_grow vec n e st ≠ Outcome.abort) :
    ∃ vec' st', RawVec_grow vec n e st = Outcome.ok vec' st' ∧ vec'.cap = v ∧
      n ≤ vec'.cap ∧ vec.cap < vec'.cap := by
  obtain ⟨k, rfl, hk, hfirst⟩ := hv
  have hpow : 1 ≤ 2 ^ k := Nat.one_le_two_pow
  by_cases h0 : vec.cap = 0
  · simp only [h0, if_true] at hk hfirst hov ⊢
    have hloop := RawVec_grow_loop_eq 1 n k hfirst hk hov
    have hloop' : RawVec_grow_loop GROW_FUEL (if vec.cap = 0 then 1 else vec.cap * 2 % SIZE) n
        = some (1 * 2 ^ k) := by rw [if_pos h0]; exact hloop
    obtain ⟨vec', st', h, hcap, -, -⟩ := RawVec_grow_of_loop vec n e _ st hloop' hno
    refine ⟨vec', st', h, hcap, by rw [hcap]; exact hk, ?_⟩
    rw [hcap]
    omega
  · simp only [h0, if_false] at hk hfirst hov ⊢
    have hsle : 2 * vec.cap ≤ 2 * vec.cap * 2 ^ k := Nat.le_mul_of_pos_right _ hpow
    have hloop := RawVec_grow_loop_eq (2 * vec.cap) n k hfirst hk hov
    have hloop' : RawVec_grow_loop GROW_FUEL (if vec.cap = 0 then 1 else vec.cap * 2 % SIZE) n
        = some (2 * vec.cap * 2 ^ k) := by
      rw [if_neg h0, Nat.mod_eq_of_lt (by omega), Nat.mul_comm vec.cap 2]
      exact hloop
    obtain ⟨vec', st', h, hcap, -, -⟩ := RawVec_grow_of_loop vec n e _ st hloop' hno
    refine ⟨vec', st', h, hcap, by rw [hcap]; exact hk, ?_⟩
    rw [hcap]
    omega

/-- C29: when the first value of the doubling sequence (1, 2, 4, ... for capacity 0,
`2c, 4c, ...` for capacity `c > 0`) that reaches `needed_cap` is below `2^64` (the doubling
does not overflow) and the allocator answers the request (the call does not abort),
`RawVec_grow` returns with that value as capacity, which is at least `needed_cap` and
strictly greater than the old capacity.  This is the case whenever the old capacity is
below `2^63` and `needed_cap` is at most `2^63`. -/
theorem RawVec_grow_enlarges :
    (∀ (vec : RawVec) (needed_cap elem_size : Nat) (st : State) (v : Nat),
      IsFirstDoubling (if vec.cap = 0 then 1 else 2 * vec.cap) needed_cap v → v < SIZE →
      RawVec_grow vec needed_cap elem_size st ≠ Outcome.abort →
      ∃ vec' st', RawVec_grow vec needed_cap elem_size st = Outcome.ok vec' st' ∧
        RawVec_capacity vec' elem_size = v ∧
        needed_cap ≤ RawVec_capacity vec' elem_size ∧
        RawVec_capacity vec elem_size < RawVec_capacity vec' elem_size) ∧
    (∀ (vec : RawVec) (needed_cap elem_size : Nat) (st : State),
      vec.cap < 2 ^ 63 → needed_cap ≤ 2 ^ 63 →
      RawVec_grow vec needed_cap elem_size st ≠ Outcome.abort →
      ∃ vec' st', RawVec_grow vec needed_cap elem_size st = Outcome.ok vec' st' ∧
        needed_cap ≤ RawVec_capacity vec' elem_size ∧
        RawVec_capacity vec elem_size < RawVec_capacity vec' elem_size) := by
  have hS : SIZE = 2 ^ 64 := rfl
  constructor
  · intro vec n e st v hv hov hno
    exact RawVec_grow_first_doubling vec n e st v hv hov hno
  · intro vec n e st hc hn hno
    have hs : 0 < (if vec.cap = 0 then 1 else 2 * vec.cap) := by
      split <;> omega
    obtain ⟨k, hk, hfirst⟩ := exists_first_doubling (if vec.cap = 0 then 1 else 2 * vec.cap) n hs
    have hov : (if vec.cap = 0 then 1 else 2 * vec.cap) * 2 ^ k < SIZE := by
      by_cases hlt : vec.cap < n
      · have := first_doubling_lt vec.cap n k hlt hfirst
        omega
      · rcases k with _ | k
        · simp only [pow_zero, Nat.mul_one]
          split <;> omega
        · have := hfirst 0 (by omega)
          simp only [pow_zero, Nat.mul_one] at this
          split at this <;> omega
    obtain ⟨vec', st', h, -, h1, h2⟩ :=
      RawVec_grow_first_doubling vec n e st _ ⟨k, rfl, hk, hfirst⟩ hov hno
    exact ⟨vec', st', h, h1, h2⟩

/-- Witness of C29: `TEST(RawVec_grow)` over the global allocator: a grow to 10 on
`RawVec_new` gives capacity 16, and a second grow to 20 gives capacity 32. -/
theorem RawVec_grow_enlarges_witness :
    ∃ v1 s1 v2 s2,
      RawVec_grow (RawVec_new GLOBAL_ALLOCATOR) 10 1 state0 = Outcome.ok v1 s1 ∧
      RawVec_capacity v1 1 = 16 ∧
      RawVec_grow v1 20 1 s1 = Outcome.ok v2 s2 ∧
      20 ≤ RawVec_capacity v2 1 ∧ RawVec_capacity v1 1 < RawVec_capacity v2 1 := by
  have h1 : RawVec_grow (RawVec_new GLOBAL_ALLOCATOR) 10 1 state0
      = Outcome.ok (RawVec.mk 1 16 GLOBAL_ALLOCATOR) (call_allocate GLOBAL_ALLOCATOR state0 16).2 :=
    rfl
  obtain ⟨v2, s2, h2, hge, hgt⟩ := RawVec_grow_enlarges.2 (RawVec.mk 1 16 GLOBAL_ALLOCATOR) 20 1
    (call_allocate GLOBAL_ALLOCATOR state0 16).2 (by decide) (by decide)
    (Outcome.ne_abort_of_ok _ _ _ rfl)
  exact ⟨_, _, v2, s2, h1, rfl, h2, hge, hgt⟩

/-- A `RawVec_reserve` that has to grow and returns leaves a capacity below twice the
needed one. -/
theorem RawVec_reserve_lt_twice (vec : RawVec) (len additional e : Nat) (st : State)
    (vec' : RawVec) (st' : State) (hsum : len + additional < SIZE)
    (hgt : vec.cap < len + additional)
    (h : RawVec_reserve vec len additional e st = Outcome.ok vec' st') :
    len + additional ≤ vec'.cap ∧ vec'.cap < 2 * (len + additional) := by
  have hS : SIZE = 2 ^ 64 := rfl
  have hmod : (len + additional) % SIZE = len + additional := Nat.mod_eq_of_lt hsum
  unfold RawVec_reserve at h
  simp only [hmod] at h
  rw [if_pos hgt] at h
  obtain ⟨hge, -, -, hloop⟩ := RawVec_grow_ok _ _ _ _ _ _ h
  refine ⟨hge, ?_⟩
  by_cases hn : len + additional ≤ 2 ^ 63
  · obtain ⟨k, hl, -, hfirst, -⟩ := RawVec_grow_loop_total vec.cap (len + additional) hgt hn
    rw [hl] at hloop
    have := first_doubling_lt vec.cap (len + additional) k hgt hfirst
    rw [← Option.some.inj hloop]
    exact this
  · have hstart : (if vec.cap = 0 then 1 else vec.cap * 2 % SIZE) < SIZE := by
      split
      · decide
      · exact Nat.mod_lt _ (by decide)
    have := RawVec_grow_loop_lt GROW_FUEL _ _ _ hstart hloop
    omega

/-- C30: for `needed = len + additional` below `2^64` and above the capacity, every
`RawVec_reserve` that returns leaves a capacity of at least `needed` and strictly less
than `2 * needed`; when `needed ≤ 2^63` (the doubling cannot overflow) the call does
return unless the allocation fails. -/
theorem RawVec_reserve_overallocation :
    (∀ (vec : RawVec) (len additional elem_size : Nat) (st : State) (vec' : RawVec)
        (st' : State),
      len + additional < SIZE → RawVec_capacity vec elem_size < len + additional →
      RawVec_reserve vec len additional elem_size st = Outcome.ok vec' st' →
      len + additional ≤ RawVec_capacity vec' elem_size ∧
      RawVec_capacity vec' elem_size < 2 * (len + additional)) ∧
    (∀ (vec : RawVec) (len additional elem_size : Nat) (st : State),
      len + additional ≤ 2 ^ 63 → RawVec_capacity vec elem_size < len + additional →
      RawVec_reserve vec len additional elem_size st ≠ Outcome.abort →
      ∃ vec' st', RawVec_reserve vec len additional elem_size st = Outcome.ok vec' st' ∧
        len + additional ≤ RawVec_capacity vec' elem_size ∧
        RawVec_capacity vec' elem_size < 2 * (len + additional)) := by
  have hS : SIZE = 2 ^ 64 := rfl
  constructor
  · intro vec len additional e st vec' st' hsum hgt h
    exact RawVec_reserve_lt_twice vec len additional e st vec' st' hsum hgt h
  · intro vec len additional e st hn hgt hno
    simp only [RawVec_capacity] at hgt
    have hsum : len + additional < SIZE := by omega
    have hmod : (len + additional) % SIZE = len + additional := Nat.mod_eq_of_lt hsum
    obtain ⟨k, hl, -, -, -⟩ := RawVec_grow_loop_total vec.cap (len + additional) hgt hn
    have hgrow : RawVec_reserve vec len additional e st
        = RawVec_grow vec (len + additional) e st := by
      unfold RawVec_reserve
      simp only [hmod]
      rw [if_pos hgt]
    rw [hgrow] at hno
    obtain ⟨vec', st', h, -, -, -⟩ := RawVec_grow_of_loop vec (len + additional) e _ st hl hno
    rw [← hgrow] at h
    exact ⟨vec', st', h, RawVec_reserve_lt_twice vec len additional e st vec' st' hsum hgt h⟩

/-- Witness of C30: a reserve of one more element on a full buffer of capacity 4 gives
capacity 8, below `2 * 5`. -/
theorem RawVec_reserve_overallocation_witness :
    ∃ vec' st', RawVec_reserve rawvec4 4 1 1 state4 = Outcome.ok vec' st' ∧
      5 ≤ RawVec_capacity vec' 1 ∧ RawVec_capacity vec' 1 < 10 :=
  RawVec_reserve_overallocation.2 rawvec4 4 1 1 state4 (by decide) (by decide)
    (Outcome.ne_abort_of_ok _ _ _ rfl)

/-! ### Overflow and termination of the doubling loop -/

/-- C31: `RawVec_reserve` computes `len + additional` in `size_t`.  On the full buffer of
capacity 4 with `len = 4` and `additional = 2^64 - 1` the true sum `2^64 + 3` exceeds the
capacity, the computed sum is 3, and the call returns the RawVec and the machine state
unchanged (no allocator call, no failure), the capacity 4 being smaller than the true sum.
In general, the call is a no-op whenever the wrapped sum is at most the capacity. -/
theorem RawVec_reserve_wraps :
    (∃ (vec : RawVec) (len additional elem_size : Nat) (st : State),
      len < SIZE ∧ additional < SIZE ∧
      RawVec_capacity vec elem_size < len + additional ∧
      (len + additional) % SIZE ≤ RawVec_capacity vec elem_size ∧
      RawVec_reserve vec len additional elem_size st = Outcome.ok vec st) ∧
    (∀ (vec : RawVec) (len additional elem_size : Nat) (st : State),
      (len + additional) % SIZE ≤ RawVec_capacity vec elem_size →
      RawVec_reserve vec len additional elem_size st = Outcome.ok vec st) := by
  refine ⟨⟨rawvec4, 4, 2 ^ 64 - 1, 1, state4, by decide, by decide, by decide, by decide, ?_⟩, ?_⟩
  · exact RawVec_reserve_fits rawvec4 4 (2 ^ 64 - 1) 1 state4 (by decide)
  · intro vec len additional e st h
    exact RawVec_reserve_fits vec len additional e st h

/-- Witness of C31: `RawVec_reserve(&vec, 4, SIZE_MAX, 1)` on the buffer of capacity 4. -/
theorem RawVec_reserve_wraps_witness :
    4 + (2 ^ 64 - 1) = 2 ^ 64 + 3 ∧ (4 + (2 ^ 64 - 1)) % SIZE = 3 ∧
      RawVec_reserve rawvec4 4 (2 ^ 64 - 1) 1 state4 = Outcome.ok rawvec4 state4 :=
  ⟨by decide, by decide, RawVec_reserve_wraps.2 rawvec4 4 (2 ^ 64 - 1) 1 state4 (by decide)⟩

/-- Doubling a `size_t` once more: the value after `i + 1` doublings. -/
theorem doubling_mod (s i : Nat) : s * 2 % SIZE * 2 ^ i % SIZE = s * 2 ^ (i + 1) % SIZE := by
  rw [Nat.mod_mul_mod, pow_succ]
  congr 1
  ring

/-- The doubling loop runs out of fuel exactly when none of the values it has tested
reaches the needed capacity. -/
theorem RawVec_grow_loop_none_iff (fuel : Nat) : ∀ (s n : Nat), s < SIZE →
    (RawVec_grow_loop fuel s n = none ↔ ∀ j, j < fuel → s * 2 ^ j % SIZE < n) := by
  induction fuel with
  | zero =>
    intro s n _
    simp [RawVec_grow_loop]
  | succ f ih =>
    intro s n hs
    have hmod : s * 2 % SIZE < SIZE := Nat.mod_lt _ (by decide)
    simp only [RawVec_grow_loop]
    constructor
    · intro h
      split at h
      · rename_i hlt
        intro j hj
        rcases j with _ | i
        · simpa [Nat.mod_eq_of_lt hs] using hlt
        · rw [← doubling_mod]
          exact (ih _ n hmod).mp h i (by omega)
      · cases h
    · intro h
      have h0 := h 0 (by omega)
      simp only [pow_zero, Nat.mul_one, Nat.mod_eq_of_lt hs] at h0
      rw [if_pos h0]
      refine (ih _ n hmod).mpr ?_
      intro i hi
      rw [doubling_mod]
      exact h (i + 1) (by omega)

/-- After 64 doublings a `size_t` is 0. -/
theorem doubling_zero (s j : Nat) (hj : 64 ≤ j) : s * 2 ^ j % SIZE = 0 := by
  obtain ⟨i, rfl⟩ : ∃ i, j = 64 + i := ⟨j - 64, by omega⟩
  have : s * 2 ^ (64 + i) = SIZE * (s * 2 ^ i) := by
    rw [pow_add]
    show s * (2 ^ 64 * 2 ^ i) = 2 ^ 64 * (s * 2 ^ i)
    ring
  rw [this, Nat.mul_mod_right]

/-- The fuel of the doubling loop is adequate: a loop that has not stopped within
`GROW_FUEL` tests never stops. -/
theorem RawVec_grow_loop_fuel (s n : Nat) (hs : s < SIZE)
    (h : RawVec_grow_loop GROW_FUEL s n = none) : ∀ fuel, RawVec_grow_loop fuel s n = none := by
  have hall := (RawVec_grow_loop_none_iff GROW_FUEL s n hs).mp h
  have h64 := hall 64 (by decide)
  rw [doubling_zero s 64 (le_refl _)] at h64
  intro fuel
  refine (RawVec_grow_loop_none_iff fuel s n hs).mpr ?_
  intro j _
  by_cases hj : j < 65
  · exact hall j hj
  · rw [doubling_zero s j (by omega)]
    exact h64



/-- `RawVec_grow` diverges exactly when its loop runs out of fuel; otherwise it aborts or
returns. -/
theorem RawVec_grow_outcome (vec : RawVec) (n e : Nat) (st : State) :
    (RawVec_grow vec n e st = Outcome.diverge ↔
      RawVec_grow_loop GROW_FUEL (if vec.cap = 0 then 1 else vec.cap * 2 % SIZE) n = none) ∧
    (RawVec_grow vec n e st ≠ Outcome.diverge →
      RawVec_grow vec n e st = Outcome.abort ∨
        ∃ vec' st', RawVec_grow vec n e st = Outcome.ok vec' st') := by
  unfold RawVec_grow
  cases hl : RawVec_grow_loop GROW_FUEL (if vec.cap = 0 then 1 else vec.cap * 2 % SIZE) n with
  | none => simp
  | some c =>
    simp only
    generalize (if vec.ptr = NULL then call_allocate vec.alloc st (c * e % SIZE)
      else call_reallocate vec.alloc st vec.ptr (vec.cap * e % SIZE) (c * e % SIZE)) = r
    by_cases hr : r.1 = NULL
    · rw [if_pos hr]
      simp
    · rw [if_neg hr]
      refine ⟨by simp, fun _ => Or.inr ⟨_, _, rfl⟩⟩

/-- For a capacity below `2^63` and a needed capacity of at most `2^63` the first value of
the doubling sequence that reaches the needed capacity is a `size_t`. -/
theorem first_doubling_small (c n : Nat) (hc : c < 2 ^ 63) (hn : n ≤ 2 ^ 63) :
    ∃ v, IsFirstDoubling (if c = 0 then 1 else 2 * c) n v ∧ v < SIZE := by
  have hS : SIZE = 2 ^ 64 := rfl
  have hs : 0 < (if c = 0 then 1 else 2 * c) := by
    split <;> omega
  obtain ⟨k, hk, hfirst⟩ := exists_first_doubling (if c = 0 then 1 else 2 * c) n hs
  refine ⟨_, ⟨k, rfl, hk, hfirst⟩, ?_⟩
  by_cases hlt : c < n
  · have := first_doubling_lt c n k hlt hfirst
    omega
  · rcases k with _ | k
    · simp only [pow_zero, Nat.mul_one]
      split <;> omega
    · have := hfirst 0 (by omega)
      simp only [pow_zero, Nat.mul_one] at this
      split at this <;> omega

/-- `RawVec_grow` when the first value of the doubling sequence that reaches the needed
capacity is a `size_t`: the loop stops, and the call aborts or returns. -/
theorem RawVec_grow_completes (vec : RawVec) (n e : Nat) (st : State) (v : Nat)
    (hv : IsFirstDoubling (if vec.cap = 0 then 1 else 2 * vec.cap) n v) (hov : v < SIZE) :
    RawVec_grow_loop GROW_FUEL (if vec.cap = 0 then 1 else vec.cap * 2 % SIZE) n = some v ∧
      (RawVec_grow vec n e st = Outcome.abort ∨
        ∃ vec' st', RawVec_grow vec n e st = Outcome.ok vec' st' ∧ vec'.cap = v) := by
  have hloop : RawVec_grow_loop GROW_FUEL (if vec.cap = 0 then 1 else vec.cap * 2 % SIZE) n
      = some v := by
    obtain ⟨k, rfl, hk, hfirst⟩ := hv
    have hpow : 1 ≤ 2 ^ k := Nat.one_le_two_pow
    by_cases h0 : vec.cap = 0
    · simp only [h0, if_true] at hk hfirst hov ⊢
      exact RawVec_grow_loop_eq 1 n k hfirst hk hov
    · simp only [h0, if_false] at hk hfirst hov ⊢
      have hsle : 2 * vec.cap ≤ 2 * vec.cap * 2 ^ k := Nat.le_mul_of_pos_right _ hpow
      rw [Nat.mod_eq_of_lt (by omega), Nat.mul_comm vec.cap 2]
      exact RawVec_grow_loop_eq (2 * vec.cap) n k hfirst hk hov
  refine ⟨hloop, ?_⟩
  by_cases hno : RawVec_grow vec n e st = Outcome.abort
  · exact Or.inl hno
  · obtain ⟨vec', st', h, hcap, -, -⟩ := RawVec_grow_of_loop vec n e v st hloop hno
    exact Or.inr ⟨vec', st', h, hcap⟩

/-! ### `RawVec_reserve`: when the call returns -/

/-- C2, as stated, fails: on the buffer of capacity 4, `RawVec_reserve(&vec, 2^63, 1, 1)`
has a sum `2^63 + 1` that does not overflow and exceeds the capacity, and the allocator
is never asked: the doubling loop tests 8, 16, ..., `2^63`, then 0 for ever, whatever the
number of tests allowed, and the call returns no result. -/
theorem RawVec_reserve_spec_counterexample :
    2 ^ 63 + 1 < SIZE ∧ rawvec4.cap < 2 ^ 63 + 1 ∧
      RawVec_reserve rawvec4 (2 ^ 63) 1 1 state4 = Outcome.diverge ∧
      (∀ fuel, RawVec_grow_loop fuel (rawvec4.cap * 2 % SIZE) (2 ^ 63 + 1) = none) ∧
      ¬ ∃ vec' st', RawVec_reserve rawvec4 (2 ^ 63) 1 1 state4 = Outcome.ok vec' st' := by
  have h : RawVec_grow_loop GROW_FUEL 8 (2 ^ 63 + 1) = none := by decide
  have hn : (2 ^ 63 + 1) % SIZE = 2 ^ 63 + 1 := by decide
  have hd : RawVec_reserve rawvec4 (2 ^ 63) 1 1 state4 = Outcome.diverge := by
    simp only [RawVec_reserve, RawVec_grow, rawvec4, hn]
    rw [if_pos (by decide), if_neg (by decide)]
    have h8 : 4 * 2 % SIZE = 8 := by decide
    simp only [h8, h]
  refine ⟨by decide, by decide, hd, ?_, ?_⟩
  · have h8 : rawvec4.cap * 2 % SIZE = 8 := by decide
    rw [h8]
    exact RawVec_grow_loop_fuel 8 (2 ^ 63 + 1) (by decide) h
  · rintro ⟨vec', st', hok⟩
    rw [hd] at hok
    cases hok

/-- C2 (amended): for `len + additional` that does not overflow, `RawVec_reserve` returns
the RawVec and the machine state unchanged (no allocator call) when
`len + additional ≤ cap`; otherwise every result has a capacity that is at least
`len + additional` and exceeds the old one, and a result is returned whenever the
allocator answers the request (no abort) and `len + additional ≤ 2 ^ 63`.  In general,
when the allocator answers the request, a result is returned exactly when one of the
values `start * 2^j mod 2^64` of the doubling loop (`start` being 1 for capacity 0 and
`2 * cap mod 2^64` otherwise) reaches `len + additional`; when none does, the loop never
stops, whatever the allocator. -/
theorem RawVec_reserve_spec :
    (∀ (vec : RawVec) (len additional elem_size : Nat) (st : State),
      len + additional < SIZE → len + additional ≤ vec.cap →
      RawVec_reserve vec len additional elem_size st = Outcome.ok vec st) ∧
    (∀ (vec : RawVec) (len additional elem_size : Nat) (st : State) (vec' : RawVec) (st' : State),
      len + additional < SIZE → vec.cap < len + additional →
      RawVec_reserve vec len additional elem_size st = Outcome.ok vec' st' →
      len + additional ≤ vec'.cap ∧ vec.cap < vec'.cap) ∧
    (∀ (vec : RawVec) (len additional elem_size : Nat) (st : State),
      len + additional ≤ 2 ^ 63 → vec.cap < len + additional →
      RawVec_reserve vec len additional elem_size st ≠ Outcome.abort →
      ∃ vec' st', RawVec_reserve vec len additional elem_size st = Outcome.ok vec' st' ∧
        len + additional ≤ vec'.cap ∧ vec.cap < vec'.cap) ∧
    (∀ (vec : RawVec) (len additional elem_size : Nat) (st : State),
      len + additional < SIZE → vec.cap < len + additional →
      RawVec_reserve vec len additional elem_size st ≠ Outcome.abort →
      ((∃ vec' st', RawVec_reserve vec len additional elem_size st = Outcome.ok vec' st') ↔
        ∃ j, len + additional
          ≤ (if vec.cap = 0 then 1 else vec.cap * 2 % SIZE) * 2 ^ j % SIZE)) ∧
    (∀ (vec : RawVec) (len additional elem_size : Nat) (st : State),
      len + additional < SIZE → vec.cap < len + additional →
      (RawVec_reserve vec len additional elem_size st = Outcome.diverge ↔
        ¬ ∃ j, len + additional
          ≤ (if vec.cap = 0 then 1 else vec.cap * 2 % SIZE) * 2 ^ j % SIZE)) := by
  refine ⟨?_, ?_, ?_, ?_, ?_⟩
  · intro vec len additional e st hov hle
    unfold RawVec_reserve
    simp only [Nat.mod_eq_of_lt hov]
    rw [if_neg (by omega)]
  · intro vec len additional e st vec' st' hov hlt h
    unfold RawVec_reserve at h
    simp only [Nat.mod_eq_of_lt hov] at h
    rw [if_pos (by omega)] at h
    have := (RawVec_grow_ok _ _ _ _ _ _ h).1
    omega
  · intro vec len additional e st hn hlt hno
    have hov : len + additional < SIZE := by unfold SIZE; omega
    unfold RawVec_reserve at hno ⊢
    simp only [Nat.mod_eq_of_lt hov] at hno ⊢
    rw [if_pos (by omega)] at hno ⊢
    obtain ⟨k, hloop, hk, -, -⟩ := RawVec_grow_loop_total vec.cap _ hlt hn
    obtain ⟨vec', st', h, hcap, -, -⟩ := RawVec_grow_of_loop vec _ e _ st hloop hno
    exact ⟨vec', st', h, by omega, by omega⟩
  · intro vec len additional elem_size st hov hlt hno
    unfold RawVec_reserve at hno ⊢
    simp only [Nat.mod_eq_of_lt hov] at hno ⊢
    rw [if_pos (by omega)] at hno ⊢
    have hout := RawVec_grow_outcome vec (len + additional) elem_size st
    have hiff := RawVec_grow_loop_none_iff GROW_FUEL
      (if vec.cap = 0 then 1 else vec.cap * 2 % SIZE) (len + additional) (grow_start_lt _)
    constructor
    · rintro ⟨vec', st', hok⟩
      by_contra hcon
      have hnone : RawVec_grow_loop GROW_FUEL (if vec.cap = 0 then 1 else vec.cap * 2 % SIZE)
          (len + additional) = none := by
        refine hiff.mpr ?_
        intro j _
        by_contra hj
        exact hcon ⟨j, by omega⟩
      rw [hout.1.mpr hnone] at hok
      cases hok
    · rintro ⟨j, hj⟩
      have hnd : RawVec_grow vec (len + additional) elem_size st ≠ Outcome.diverge := by
        intro hd
        have hall := hiff.mp (hout.1.mp hd)
        by_cases hj65 : j < GROW_FUEL
        · have := hall j hj65
          omega
        · rw [doubling_zero _ j (by unfold GROW_FUEL at hj65; omega)] at hj
          omega
      rcases hout.2 hnd with habort | hok
      · exact absurd habort hno
      · exact hok
  · intro vec len additional elem_size st hov hlt
    unfold RawVec_reserve
    simp only [Nat.mod_eq_of_lt hov]
    rw [if_pos (by omega)]
    rw [(RawVec_grow_outcome vec (len + additional) elem_size st).1,
      RawVec_grow_loop_none_iff GROW_FUEL (if vec.cap = 0 then 1 else vec.cap * 2 % SIZE)
        (len + additional) (grow_start_lt _)]
    constructor
    · rintro hall ⟨j, hj⟩
      by_cases hj65 : j < GROW_FUEL
      · have := hall j hj65
        omega
      · rw [doubling_zero _ j (by unfold GROW_FUEL at hj65; omega)] at hj
        omega
    · intro hcon j _
      by_contra hj
      exact hcon ⟨j, by omega⟩

/-- C2, witness: on a buffer of capacity 4, reserving for `1 + 2` changes nothing,
reserving for `3 + 2` returns a larger capacity of at least 5, and reserving for
`2^63 + 1` never returns exactly when no value of the doubling loop reaches `2^63 + 1`. -/
theorem RawVec_reserve_spec_witness :
    RawVec_reserve rawvec4 1 2 1 state4 = Outcome.ok rawvec4 state4 ∧
    (∃ vec' st', RawVec_reserve rawvec4 3 2 1 state4 = Outcome.ok vec' st' ∧
      3 + 2 ≤ vec'.cap ∧ rawvec4.cap < vec'.cap) ∧
    (RawVec_reserve rawvec4 (2 ^ 63) 1 1 state4 = Outcome.diverge ↔
      ¬ ∃ j, 2 ^ 63 + 1 ≤ (if rawvec4.cap = 0 then 1 else rawvec4.cap * 2 % SIZE) * 2 ^ j % SIZE) :=
  ⟨RawVec_reserve_spec.1 rawvec4 1 2 1 state4 (by decide) (by decide),
    RawVec_reserve_spec.2.2.1 rawvec4 3 2 1 state4 (by decide) (by decide)
      (by simp [RawVec_reserve, RawVec_grow, RawVec_grow_loop, GROW_FUEL, rawvec4, state4,
        call_allocate, call_reallocate, GLOBAL_ALLOCATOR, malloc, realloc_wrapper, realloc,
        state0, heap0, NULL, SIZE]),
    RawVec_reserve_spec.2.2.2.2 rawvec4 (2 ^ 63) 1 1 state4 (by decide) (by decide)⟩

/-! ### Termination of `RawVec_grow` -/

/-- C32, as stated, fails: on an empty RawVec with needed capacity `2^63 + 1` the loop of
`RawVec_grow` tests 1, 2, 4, ..., `2^63`, then `2^64` wraps to 0 and `new_cap` stays 0:
the loop never stops, whatever the number of tests allowed, and neither `RawVec_grow` nor
`RawVec_reserve(&vec, 2^63, 1, 1)` (whose sum does not overflow) runs to completion or
aborts. -/
theorem RawVec_grow_loop_forever :
    (∀ fuel, RawVec_grow_loop fuel 1 (2 ^ 63 + 1) = none) ∧
      RawVec_grow (RawVec_new GLOBAL_ALLOCATOR) (2 ^ 63 + 1) 1 state0 = Outcome.diverge ∧
      RawVec_reserve (RawVec_new GLOBAL_ALLOCATOR) (2 ^ 63) 1 1 state0 = Outcome.diverge := by
  have h : RawVec_grow_loop GROW_FUEL 1 (2 ^ 63 + 1) = none := by decide
  refine ⟨RawVec_grow_loop_fuel 1 (2 ^ 63 + 1) (by decide) h, ?_, ?_⟩
  · simp only [RawVec_grow, RawVec_new, if_true, h]
  · have hn : (2 ^ 63 + 1) % SIZE = 2 ^ 63 + 1 := by decide
    simp only [RawVec_reserve, RawVec_grow, RawVec_new, if_true, hn, h]
    rw [if_pos (by decide)]



/-- C32, amended: when the first value of the doubling sequence (1, 2, 4, ... for
capacity 0, `2c, 4c, ...` for capacity `c > 0`) that reaches `needed_cap` is below `2^64`,
the loop of `RawVec_grow` stops at that value and `RawVec_grow` aborts (allocation
failure) or returns; this is the case whenever the capacity is below `2^63` and
`needed_cap` is at most `2^63`, and `RawVec_reserve` aborts or returns whenever its
`len + additional` (in `size_t`) is at most `2^63`.  In general `RawVec_grow` fails to
complete exactly when every value `start * 2^j mod 2^64` is below `needed_cap`, and a loop
that has not stopped within 65 tests never stops. -/
theorem RawVec_grow_terminates :
    (∀ (vec : RawVec) (needed_cap elem_size : Nat) (st : State) (v : Nat),
      IsFirstDoubling (if vec.cap = 0 then 1 else 2 * vec.cap) needed_cap v → v < SIZE →
      RawVec_grow_loop GROW_FUEL (if vec.cap = 0 then 1 else vec.cap * 2 % SIZE) needed_cap
        = some v ∧
      (RawVec_grow vec needed_cap elem_size st = Outcome.abort ∨
        ∃ vec' st', RawVec_grow vec needed_cap elem_size st = Outcome.ok vec' st')) ∧
    (∀ (vec : RawVec) (needed_cap elem_size : Nat) (st : State),
      vec.cap < 2 ^ 63 → needed_cap ≤ 2 ^ 63 →
      RawVec_grow vec needed_cap elem_size st = Outcome.abort ∨
        ∃ vec' st', RawVec_grow vec needed_cap elem_size st = Outcome.ok vec' st') ∧
    (∀ (vec : RawVec) (len additional elem_size : Nat) (st : State),
      (len + additional) % SIZE ≤ 2 ^ 63 →
      RawVec_reserve vec len additional elem_size st = Outcome.abort ∨
        ∃ vec' st', RawVec_reserve vec len additional elem_size st = Outcome.ok vec' st') ∧
    (∀ (vec : RawVec) (needed_cap elem_size : Nat) (st : State),
      RawVec_grow vec needed_cap elem_size st = Outcome.diverge ↔
        ∀ j, (if vec.cap = 0 then 1 else vec.cap * 2 % SIZE) * 2 ^ j % SIZE < needed_cap) ∧
    (∀ s n : Nat, s < SIZE → RawVec_grow_loop GROW_FUEL s n = none →
      ∀ fuel, RawVec_grow_loop fuel s n = none) := by
  have hsmall : ∀ (vec : RawVec) (n e : Nat) (st : State), vec.cap < 2 ^ 63 → n ≤ 2 ^ 63 →
      RawVec_grow vec n e st = Outcome.abort ∨
        ∃ vec' st', RawVec_grow vec n e st = Outcome.ok vec' st' := by
    intro vec n e st hc hn
    obtain ⟨v, hv, hov⟩ := first_doubling_small vec.cap n hc hn
    rcases (RawVec_grow_completes vec n e st v hv hov).2 with h | ⟨vec', st', h, -⟩
    · exact Or.inl h
    · exact Or.inr ⟨vec', st', h⟩
  refine ⟨?_, hsmall, ?_, ?_, RawVec_grow_loop_fuel⟩
  · intro vec n e st v hv hov
    obtain ⟨hl, h⟩ := RawVec_grow_completes vec n e st v hv hov
    refine ⟨hl, ?_⟩
    rcases h with h | ⟨vec', st', h, -⟩
    · exact Or.inl h
    · exact Or.inr ⟨vec', st', h⟩
  · intro vec len additional e st hn
    unfold RawVec_reserve
    simp only
    split
    · rename_i hgt
      exact hsmall vec _ e st (by omega) hn
    · exact Or.inr ⟨vec, st, rfl⟩
  · intro vec n e st
    rw [(RawVec_grow_outcome vec n e st).1]
    constructor
    · intro h j
      have hall := RawVec_grow_loop_fuel _ n (grow_start_lt vec.cap) h (j + 1)
      exact (RawVec_grow_loop_none_iff (j + 1) _ n (grow_start_lt vec.cap)).mp hall j (by omega)
    · intro h
      exact (RawVec_grow_loop_none_iff GROW_FUEL _ n (grow_start_lt vec.cap)).mpr
        (fun j _ => h j)

/-- Witness of C32: `RawVec_grow` to 5 on the buffer of capacity 4 stops at 8 and
returns. -/
theorem RawVec_grow_terminates_witness :
    RawVec_grow_loop GROW_FUEL (if rawvec4.cap = 0 then 1 else rawvec4.cap * 2 % SIZE) 5
        = some 8 ∧
      (RawVec_grow rawvec4 5 1 state4 = Outcome.abort ∨
        ∃ vec' st', RawVec_grow rawvec4 5 1 state4 = Outcome.ok vec' st') :=
  RawVec_grow_terminates.1 rawvec4 5 1 state4 8 ⟨0, by decide, by decide, by decide⟩ (by decide)

/-! ### The reference growth policy -/

/-- The loop of the reference policy stops at the first value of the doubling sequence
that reaches the needed capacity, given fuel for it. -/
theorem reference_policy_loop_first (k : Nat) : ∀ (fuel v n : Nat),
    (∀ j, j < k → v * 2 ^ j < n) → n ≤ v * 2 ^ k → k ≤ fuel →
    reference_policy_loop fuel v n = v * 2 ^ k := by
  induction k with
  | zero =>
    intro fuel v n _ hk _
    simp only [pow_zero, Nat.mul_one] at hk ⊢
    cases fuel with
    | zero => rfl
    | succ f =>
      simp only [reference_policy_loop]
      rw [if_neg (by omega)]
  | succ k ih =>
    intro fuel v n hfirst hk hfuel
    obtain ⟨f, rfl⟩ : ∃ f, fuel = f + 1 := ⟨fuel - 1, by omega⟩
    have h0 := hfirst 0 (by omega)
    simp only [pow_zero, Nat.mul_one] at h0
    have hpow : ∀ j, v * 2 ^ (j + 1) = 2 * v * 2 ^ j := by
      intro j; rw [pow_succ]; ring
    simp only [reference_policy_loop]
    rw [if_pos h0, hpow k]
    refine ih f (2 * v) n ?_ (by rw [← hpow]; exact hk) (by omega)
    intro j hj
    rw [← hpow]
    exact hfirst (j + 1) (by omega)

/-- The reference policy yields the least value `max(1, c) * 2 ^ k` that is at least the
needed capacity. -/
theorem reference_policy_first (c n : Nat) : IsFirstDoubling (max 1 c) n (reference_policy c n) := by
  have hs : 0 < max 1 c := by omega
  obtain ⟨k, hk, hfirst⟩ := exists_first_doubling (max 1 c) n hs
  have hkn : k ≤ n := by
    rcases k with _ | k
    · omega
    · have h1 := hfirst k (by omega)
      have h2 : 2 ^ k ≤ max 1 c * 2 ^ k := Nat.le_mul_of_pos_left _ hs
      have h3 : k < 2 ^ k := Nat.lt_two_pow k
      omega
  refine ⟨k, ?_, ?_, hfirst⟩
  · exact reference_policy_loop_first k n (max 1 c) n hfirst hk hkn
  · rw [reference_policy, reference_policy_loop_first k n (max 1 c) n hfirst hk hkn]
    exact hk

/-- The first value reaching the needed capacity is the same in a doubling sequence. -/
theorem IsFirstDoubling.unique (s n v w : Nat) (hv : IsFirstDoubling s n v)
    (hw : IsFirstDoubling s n w) : v = w := by
  obtain ⟨k, rfl, hk, hfk⟩ := hv
  obtain ⟨m, rfl, hm, hfm⟩ := hw
  have : k = m := by
    rcases Nat.lt_trichotomy k m with h | h | h
    · have := hfm k h; omega
    · exact h
    · have := hfk m h; omega
  rw [this]

/-- Above the capacity, the first value of `max(1, c), 2 max(1, c), ...` that reaches the
needed capacity is the first value of the sequence the code doubles through. -/
theorem first_doubling_of_max (c n v : Nat) (hlt : c < n) (hv : IsFirstDoubling (max 1 c) n v) :
    IsFirstDoubling (if c = 0 then 1 else 2 * c) n v := by
  obtain ⟨k, rfl, hk, hfirst⟩ := hv
  by_cases h0 : c = 0
  · subst h0
    exact ⟨k, by simp, by simpa using hk, by simpa using hfirst⟩
  · have hmax : max 1 c = c := by omega
    rw [hmax] at hk hfirst ⊢
    rw [if_neg h0]
    obtain ⟨k', rfl⟩ : ∃ k', k = k' + 1 := by
      rcases k with _ | k'
      · simp at hk; omega
      · exact ⟨k', rfl⟩
    have hpow : ∀ j, c * 2 ^ (j + 1) = 2 * c * 2 ^ j := by
      intro j; rw [pow_succ]; ring
    refine ⟨k', hpow k', hk, ?_⟩
    intro j hj
    rw [← hpow]
    exact hfirst (j + 1) (by omega)

/-- C33: on the `RawVec_reserve` path, for `needed = len + additional` below `2^64` and
above the capacity `c`, when the capacity the reference policy ("start from max(1, c) and
double until >= needed") arrives at is below `2^64`, the call returns unless the
allocation fails and the capacity afterwards is the one of the reference policy, which is
the least value `max(1, c) * 2^k` that is at least `needed` (there is one such value).  The
reference capacity is below `2^64` whenever `needed ≤ 2^63`. -/
theorem RawVec_reserve_refines_reference :
    (∀ (vec : RawVec) (len additional elem_size : Nat) (st : State),
      len + additional < SIZE → RawVec_capacity vec elem_size < len + additional →
      reference_policy (RawVec_capacity vec elem_size) (len + additional) < SIZE →
      RawVec_reserve vec len additional elem_size st ≠ Outcome.abort →
      ∃ vec' st', RawVec_reserve vec len additional elem_size st = Outcome.ok vec' st' ∧
        RawVec_capacity vec' elem_size
          = reference_policy (RawVec_capacity vec elem_size) (len + additional) ∧
        IsFirstDoubling (max 1 (RawVec_capacity vec elem_size)) (len + additional)
          (RawVec_capacity vec' elem_size)) ∧
    (∀ c n : Nat, IsFirstDoubling (max 1 c) n (reference_policy c n)) ∧
    (∀ c n v : Nat, IsFirstDoubling (max 1 c) n v → v = reference_policy c n) ∧
    (∀ c n : Nat, c < n → n ≤ 2 ^ 63 → reference_policy c n < SIZE) := by
  have hS : SIZE = 2 ^ 64 := rfl
  refine ⟨?_, reference_policy_first,
    fun c n v hv => IsFirstDoubling.unique _ n v _ hv (reference_policy_first c n), ?_⟩
  · intro vec len additional e st hsum hgt hov hno
    simp only [RawVec_capacity] at hgt hov ⊢
    have hmod : (len + additional) % SIZE = len + additional := Nat.mod_eq_of_lt hsum
    have href := reference_policy_first vec.cap (len + additional)
    have hstart := first_doubling_of_max vec.cap (len + additional) _ hgt href
    have hgrow : RawVec_reserve vec len additional e st
        = RawVec_grow vec (len + additional) e st := by
      unfold RawVec_reserve
      simp only [hmod]
      rw [if_pos hgt]
    rw [hgrow] at hno ⊢
    obtain ⟨vec', st', h, hcap, -, -⟩ :=
      RawVec_grow_first_doubling vec (len + additional) e st _ hstart hov hno
    refine ⟨vec', st', h, hcap, ?_⟩
    rw [hcap]
    exact href
  · intro c n hlt hn
    obtain ⟨k, hv, -, hfirst⟩ := reference_policy_first c n
    rw [hv]
    rcases k with _ | k
    · simp only [pow_zero, Nat.mul_one]
      omega
    · have := hfirst k (by omega)
      rw [pow_succ]
      have hring : max 1 c * (2 ^ k * 2) = max 1 c * 2 ^ k * 2 := by ring
      omega

/-- Witness of C33: a reserve of one more element on the full buffer of capacity 4 gives
capacity 8, the value of the reference policy. -/
theorem RawVec_reserve_refines_reference_witness :
    reference_policy 4 5 = 8 ∧
      ∃ vec' st', RawVec_reserve rawvec4 4 1 1 state4 = Outcome.ok vec' st' ∧
        RawVec_capacity vec' 1 = 8 := by
  obtain ⟨vec', st', h, hcap, -⟩ := RawVec_reserve_refines_reference.1 rawvec4 4 1 1 state4
    (by decide) (by decide) (by decide) (Outcome.ne_abort_of_ok _ _ _ rfl)
  exact ⟨by decide, vec', st', h, hcap⟩

end Utils
